import Mathlib

/-!
Verification of the AVL tree engine in `scr/avl_tree.py`.

The Python code is a pointer-based mutable structure: `Node` objects with
`value`, `parent`, `left`, `right`, `height` attributes, linked both ways,
mutated in place by the `AVLTree` methods.  We embed it shallowly as an
arena: every `Node` object becomes an entry of a heap `Nat → Option Node`
indexed by a node identity, attribute writes become heap updates threaded
explicitly in source order, and the three unbounded `while`/walk loops
(`__search_node`, `__balance`, the successor walk in
`__bst_remove_two_child_node`) take a fuel argument; the public entry
points pass `nextId + 1` fuel, which we prove sufficient on well-formed
trees.  Python exceptions (`TypeError` for a bad argument, `TypeError` for
a rotation on a node lacking the required child, `RuntimeError` for the
impossible removal dispatch) become an `Except` error carrying the state
at the raise point; fuel exhaustion is a fourth, model-artifact error.
-/

/-- One `Node` object of `avl_tree.py`: `value`, `parent`, `left`, `right`
are the dataclass fields (child/parent references become arena ids),
`height` the cached subtree height. -/
structure Node where
  value : Int
  parent : Option Nat := none
  left : Option Nat := none
  right : Option Nat := none
  height : Int := 0
deriving DecidableEq, Repr

instance : Inhabited Node := ⟨{ value := 0 }⟩

/-- The object arena: node identities to node records. -/
def Heap : Type := Nat → Option Node

/-- Attribute write: update the record stored at identity `i`. -/
def hupd (h : Heap) (i : Nat) (n : Node) : Heap :=
  fun j => if j = i then some n else h j

/-- The `AVLTree` object: `root` reference, private `__size`, plus the
arena and the next fresh identity (Python object allocation). -/
structure AVLTree where
  heap : Heap
  root : Option Nat
  size : Int
  nextId : Nat

/-- `AVLTree.__init__(self, root=None)`: `size` is 0 for an absent root and
1 otherwise, regardless of what hangs below `root` in the arena. -/
def AVLTree.init (h : Heap) (nid : Nat) (root : Option Nat) : AVLTree :=
  { heap := h, root := root, size := match root with | none => 0 | some _ => 1,
    nextId := nid }

/-- `AVLTree()`: the empty tree. -/
def AVLTree.mkEmpty : AVLTree := AVLTree.init (fun _ => none) 0 none

/-- Dereference a node id (Python attribute access on a live object; the
default is never read on well-formed states). -/
def AVLTree.get (s : AVLTree) (i : Nat) : Node := (s.heap i).getD default

/-- Height of an optional child, `-1` if absent (as in
`Node.balance_factor` and `AVLTree.__update_height`). -/
def AVLTree.childHeight (s : AVLTree) : Option Nat → Int
  | none => -1
  | some i => (s.get i).height

/-- `Node.balance_factor`: right child height minus left child height. -/
def AVLTree.balance_factor (s : AVLTree) (i : Nat) : Int :=
  s.childHeight (s.get i).right - s.childHeight (s.get i).left

/-- The exceptions the Python code can raise, plus fuel exhaustion (a
model artifact that we prove unreachable on well-formed trees). -/
inductive Err
  | typeErrorValue
  | typeErrorChild
  | runtimeNoCase
  | fuelOut
deriving DecidableEq, Repr

/-- `NodeSearchResult` of `avl_tree.py`. -/
structure NodeSearchResult where
  searched_node : Option Nat := none
  insert_place : Option Nat := none
deriving DecidableEq, Repr

/-- `NodeSearchResult.is_found`. -/
def NodeSearchResult.is_found (r : NodeSearchResult) : Bool :=
  r.searched_node.isSome

/-- The `while current is not None` loop of `AVLTree.__search_node`;
dataclass comparison (`==`, `<`) on `Node` compares `value` only. -/
def AVLTree.searchLoop (s : AVLTree) (v : Int) :
    Nat → Option Nat → NodeSearchResult → Except (Err × AVLTree) NodeSearchResult
  | _, none, res => .ok res
  | 0, some _, _ => .error (.fuelOut, s)
  | fuel+1, some i, res =>
    let cur := s.get i
    if cur.value = v then .ok { res with searched_node := some i }
    else
      let next := if v < cur.value then cur.left else cur.right
      let res' := if next = none then { res with insert_place := some i } else res
      s.searchLoop v fuel next res'

/-- `AVLTree.__search_node` (read-only; search compares by value). -/
def AVLTree.search_node (s : AVLTree) (v : Int) :
    Except (Err × AVLTree) NodeSearchResult :=
  s.searchLoop v (s.nextId + 1) s.root {}

/-- `AVLTree.__bst_insert(node)`: search, reject a duplicate, otherwise
allocate the node, link it under the reported insertion parent and bump
`size`.  Returns the new node's id (`none` encodes Python's `False`). -/
def AVLTree.bst_insert (s : AVLTree) (node : Node) :
    Except (Err × AVLTree) (Option Nat × AVLTree) :=
  match s.search_node node.value with
  | .error e => .error e
  | .ok sr =>
    if sr.is_found then .ok (none, s)
    else
      let i := s.nextId
      match sr.insert_place with
      | none =>
        let s1 : AVLTree :=
          { s with heap := hupd s.heap i node, root := some i, nextId := i + 1 }
        .ok (some i, { s1 with size := s1.size + 1 })
      | some p =>
        let s1 : AVLTree :=
          { s with heap := hupd s.heap i { node with parent := some p },
                   nextId := i + 1 }
        let pN := s1.get p
        let s2 : AVLTree :=
          if node.value < pN.value then
            { s1 with heap := hupd s1.heap p { pN with left := some i } }
          else
            { s1 with heap := hupd s1.heap p { pN with right := some i } }
        .ok (some i, { s2 with size := s2.size + 1 })

/-- `AVLTree.__update_height(node)`. -/
def AVLTree.update_height (s : AVLTree) (i : Nat) : AVLTree :=
  let n := s.get i
  let lh := s.childHeight n.left
  let rh := s.childHeight n.right
  { s with heap := hupd s.heap i { n with height := max lh rh + 1 } }

/-- `AVLTree.__rotate_right(node)`: raises `TypeError` when `node.left` is
absent; otherwise the pointer surgery of the source, write for write in
source order, followed by the two height recomputations. -/
def AVLTree.rotate_right (s : AVLTree) (i : Nat) :
    Except (Err × AVLTree) AVLTree :=
  match (s.get i).left with
  | none => .error (.typeErrorChild, s)
  | some lc =>
    let rg := (s.get lc).right
    -- left_child.right = node
    let s1 : AVLTree := { s with heap := hupd s.heap lc { s.get lc with right := some i } }
    -- node.left = right_grandchild
    let s2 : AVLTree := { s1 with heap := hupd s1.heap i { s1.get i with left := rg } }
    -- left_child.parent = node.parent
    let s3 : AVLTree :=
      { s2 with heap := hupd s2.heap lc { s2.get lc with parent := (s2.get i).parent } }
    -- node.parent = left_child
    let s4 : AVLTree := { s3 with heap := hupd s3.heap i { s3.get i with parent := some lc } }
    -- if right_grandchild is not None: right_grandchild.parent = node
    let s5 : AVLTree :=
      match rg with
      | none => s4
      | some g => { s4 with heap := hupd s4.heap g { s4.get g with parent := some i } }
    let s6 : AVLTree :=
      match (s5.get lc).parent with
      | none => { s5 with root := some lc }
      | some p =>
        if (s5.get p).left = some i then
          { s5 with heap := hupd s5.heap p { s5.get p with left := some lc } }
        else
          { s5 with heap := hupd s5.heap p { s5.get p with right := some lc } }
    .ok ((s6.update_height i).update_height lc)

/-- `AVLTree.__rotate_left(node)`: mirror image of `__rotate_right`. -/
def AVLTree.rotate_left (s : AVLTree) (i : Nat) :
    Except (Err × AVLTree) AVLTree :=
  match (s.get i).right with
  | none => .error (.typeErrorChild, s)
  | some rc =>
    let lg := (s.get rc).left
    -- right_child.left = node
    let s1 : AVLTree := { s with heap := hupd s.heap rc { s.get rc with left := some i } }
    -- node.right = left_grandchild
    let s2 : AVLTree := { s1 with heap := hupd s1.heap i { s1.get i with right := lg } }
    -- right_child.parent = node.parent
    let s3 : AVLTree :=
      { s2 with heap := hupd s2.heap rc { s2.get rc with parent := (s2.get i).parent } }
    -- node.parent = right_child
    let s4 : AVLTree := { s3 with heap := hupd s3.heap i { s3.get i with parent := some rc } }
    -- if left_grandchild is not None: left_grandchild.parent = node
    let s5 : AVLTree :=
      match lg with
      | none => s4
      | some g => { s4 with heap := hupd s4.heap g { s4.get g with parent := some i } }
    let s6 : AVLTree :=
      match (s5.get rc).parent with
      | none => { s5 with root := some rc }
      | some p =>
        if (s5.get p).left = some i then
          { s5 with heap := hupd s5.heap p { s5.get p with left := some rc } }
        else
          { s5 with heap := hupd s5.heap p { s5.get p with right := some rc } }
    .ok ((s6.update_height i).update_height rc)

/-- The `while current is not None` walk of `AVLTree.__balance`: update
the height, apply the double/single rotations when the balance factor
leaves `{-1,0,1}`, then move to the (post-rotation) parent. -/
def AVLTree.balanceLoop (s : AVLTree) :
    Nat → Option Nat → Except (Err × AVLTree) AVLTree
  | _, none => .ok s
  | 0, some _ => .error (.fuelOut, s)
  | fuel+1, some i =>
    let s1 := s.update_height i
    let bf := s1.balance_factor i
    let step : Except (Err × AVLTree) AVLTree :=
      if bf < -1 then
        let inner : Except (Err × AVLTree) AVLTree :=
          match (s1.get i).left with
          | some l => if s1.balance_factor l > 0 then s1.rotate_left l else .ok s1
          | none => .ok s1
        match inner with
        | .error e => .error e
        | .ok s2 => s2.rotate_right i
      else if bf > 1 then
        let inner : Except (Err × AVLTree) AVLTree :=
          match (s1.get i).right with
          | some r => if s1.balance_factor r < 0 then s1.rotate_right r else .ok s1
          | none => .ok s1
        match inner with
        | .error e => .error e
        | .ok s2 => s2.rotate_left i
      else .ok s1
    match step with
    | .error e => .error e
    | .ok s' => s'.balanceLoop fuel ((s'.get i).parent)

/-- `AVLTree.__balance(node)`.  The walk visits each ancestor once, plus a
revisit of the promoted child after a rotation, so `2 * (nextId + 1)` fuel
covers any well-formed tree. -/
def AVLTree.balance (s : AVLTree) (i : Nat) : Except (Err × AVLTree) AVLTree :=
  s.balanceLoop (2 * (s.nextId + 1)) (some i)

/-- `AVLTree.__bst_remove_leaf(node)`: `None` unless `node` is a leaf;
otherwise detach it from its parent (or clear the root) and decrement
`size`. -/
def AVLTree.bst_remove_leaf (s : AVLTree) (i : Nat) : Option Nat × AVLTree :=
  let n := s.get i
  if n.left = none ∧ n.right = none then
    let s1 : AVLTree :=
      match n.parent with
      | none => { s with root := none }
      | some p =>
        let pN := s.get p
        if pN.left = some i then
          { s with heap := hupd s.heap p { pN with left := none } }
        else
          { s with heap := hupd s.heap p { pN with right := none } }
    (some i, { s1 with size := s1.size - 1 })
  else (none, s)

/-- `AVLTree.__bst_remove_one_child_node(node)`: `None` unless exactly one
child is present; otherwise splice the child into `node`'s position and
decrement `size`. -/
def AVLTree.bst_remove_one_child_node (s : AVLTree) (i : Nat) :
    Option Nat × AVLTree :=
  let n := s.get i
  if n.left.isNone = n.right.isNone then (none, s)
  else
    match (if n.right = none then n.left else n.right) with
    | none => (none, s)  -- unreachable: exactly one child is present
    | some c =>
      let s1 : AVLTree :=
        match n.parent with
        | none =>
          let t : AVLTree := { s with root := some c }
          { t with heap := hupd t.heap c { t.get c with parent := none } }
        | some p =>
          let pN := s.get p
          if pN.left = some i then
            let t : AVLTree := { s with heap := hupd s.heap p { pN with left := some c } }
            { t with heap := hupd t.heap c { t.get c with parent := some p } }
          else
            let t : AVLTree := { s with heap := hupd s.heap p { pN with right := some c } }
            { t with heap := hupd t.heap c { t.get c with parent := some p } }
      (some i, { s1 with size := s1.size - 1 })

/-- The `while successor.left is not None` walk of
`AVLTree.__bst_remove_two_child_node`. -/
def AVLTree.leftmostLoop (s : AVLTree) : Nat → Nat → Except (Err × AVLTree) Nat
  | 0, _ => .error (.fuelOut, s)
  | fuel+1, i =>
    match (s.get i).left with
    | none => .ok i
    | some l => s.leftmostLoop fuel l

/-- `AVLTree.__bst_remove_two_child_node(node)`: `None` unless both
children are present; otherwise copy the in-order successor's value into
`node`, physically delete the successor via the one-child then leaf case,
and return the successor. -/
def AVLTree.bst_remove_two_child_node (s : AVLTree) (i : Nat) :
    Except (Err × AVLTree) (Option Nat × AVLTree) :=
  let n := s.get i
  match n.left, n.right with
  | some _, some r =>
    match s.leftmostLoop (s.nextId + 1) r with
    | .error e => .error e
    | .ok succ =>
      -- node.value = successor.value
      let s1 : AVLTree :=
        { s with heap := hupd s.heap i { n with value := (s.get succ).value } }
      let d1s2 := s1.bst_remove_one_child_node succ
      let s3 := if d1s2.1.isSome then d1s2.2 else (d1s2.2.bst_remove_leaf succ).2
      .ok (some succ, s3)
  | _, _ => .ok (none, s)

/-- `AVLTree.__bst_remove(node)`: search by value; if absent return
`None`; otherwise try the leaf, one-child and two-children cases in that
order, raising `RuntimeError` if none applies. -/
def AVLTree.bst_remove (s : AVLTree) (node : Node) :
    Except (Err × AVLTree) (Option Nat × AVLTree) :=
  match s.search_node node.value with
  | .error e => .error e
  | .ok sr =>
    match sr.searched_node with
    | none => .ok (none, s)
    | some i =>
      let r1 := s.bst_remove_leaf i
      if r1.1.isSome then .ok r1
      else
        let r2 := r1.2.bst_remove_one_child_node i
        if r2.1.isSome then .ok r2
        else
          match r2.2.bst_remove_two_child_node i with
          | .error e => .error e
          | .ok r3 =>
            if r3.1.isSome then .ok r3
            else .error (.runtimeNoCase, r3.2)

/-- The Python argument of `find` / `insert` / `remove`: an `int`, a
`Node`, or a value of any other type. -/
inductive PyValue
  | int (v : Int)
  | node (n : Node)
  | other
deriving Repr

/-- `AVLTree.__create_node_from_value(value)`: `TypeError` unless the
argument is an `int` or a `Node`; a `Node` passes through, an `int` is
wrapped in a fresh `Node`. -/
def AVLTree.create_node_from_value : PyValue → Except Err Node
  | .other => .error .typeErrorValue
  | .node n => .ok n
  | .int v => .ok { value := v }

/-- Body of `AVLTree.find` after the node argument is built. -/
def AVLTree.findCore (s : AVLTree) (node : Node) :
    Except (Err × AVLTree) (Option Nat) :=
  match s.search_node node.value with
  | .error e => .error e
  | .ok r => .ok (if r.is_found then r.searched_node else none)

/-- Body of `AVLTree.insert` after the node argument is built. -/
def AVLTree.insertCore (s : AVLTree) (node : Node) :
    Except (Err × AVLTree) (Bool × AVLTree) :=
  match s.bst_insert node with
  | .error e => .error e
  | .ok (none, s') => .ok (false, s')
  | .ok (some newId, s') =>
    match s'.balance newId with
    | .error e => .error e
    | .ok s'' => .ok (true, s'')

/-- Body of `AVLTree.remove` after the node argument is built: rebalance
from the physically deleted node's parent, when it has one. -/
def AVLTree.removeCore (s : AVLTree) (node : Node) :
    Except (Err × AVLTree) (Bool × AVLTree) :=
  match s.bst_remove node with
  | .error e => .error e
  | .ok (none, s') => .ok (false, s')
  | .ok (some d, s') =>
    match (s'.get d).parent with
    | none => .ok (true, s')
    | some p =>
      match s'.balance p with
      | .error e => .error e
      | .ok s'' => .ok (true, s'')

/-- `AVLTree.find(value)` on an integer key. -/
def AVLTree.find (s : AVLTree) (v : Int) : Except (Err × AVLTree) (Option Nat) :=
  s.findCore { value := v }

/-- `AVLTree.insert(value)` on an integer key. -/
def AVLTree.insert (s : AVLTree) (v : Int) : Except (Err × AVLTree) (Bool × AVLTree) :=
  s.insertCore { value := v }

/-- `AVLTree.remove(value)` on an integer key. -/
def AVLTree.remove (s : AVLTree) (v : Int) : Except (Err × AVLTree) (Bool × AVLTree) :=
  s.removeCore { value := v }

/-- `AVLTree.find(value)` on an arbitrary Python argument. -/
def AVLTree.findP (s : AVLTree) (value : PyValue) :
    Except (Err × AVLTree) (Option Nat) :=
  match AVLTree.create_node_from_value value with
  | .error e => .error (e, s)
  | .ok n => s.findCore n

/-- `AVLTree.insert(value)` on an arbitrary Python argument. -/
def AVLTree.insertP (s : AVLTree) (value : PyValue) :
    Except (Err × AVLTree) (Bool × AVLTree) :=
  match AVLTree.create_node_from_value value with
  | .error e => .error (e, s)
  | .ok n => s.insertCore n

/-- `AVLTree.remove(value)` on an arbitrary Python argument. -/
def AVLTree.removeP (s : AVLTree) (value : PyValue) :
    Except (Err × AVLTree) (Bool × AVLTree) :=
  match AVLTree.create_node_from_value value with
  | .error e => .error (e, s)
  | .ok n => s.removeCore n

/-- A public mutating call with an integer key. -/
inductive Op
  | ins (v : Int)
  | del (v : Int)
deriving DecidableEq, Repr

/-- Apply one public call, keeping only the state. -/
def AVLTree.applyOp (s : AVLTree) : Op → Except (Err × AVLTree) AVLTree
  | .ins v => match s.insert v with | .error e => .error e | .ok (_, s') => .ok s'
  | .del v => match s.remove v with | .error e => .error e | .ok (_, s') => .ok s'

/-- Apply a sequence of public calls from left to right. -/
def AVLTree.runOps (s : AVLTree) : List Op → Except (Err × AVLTree) AVLTree
  | [] => .ok s
  | op :: ops =>
    match s.applyOp op with
    | .error e => .error e
    | .ok s' => s'.runOps ops

/-- In-order traversal observer (specification side, fuel-bounded by the
recursion depth; the public entry point passes `nextId + 1`, enough for
any well-formed tree). -/
def AVLTree.inorderAux (s : AVLTree) : Nat → Option Nat → List Int
  | _, none => []
  | 0, some _ => []
  | fuel+1, some i =>
    s.inorderAux fuel (s.get i).left ++ (s.get i).value :: s.inorderAux fuel (s.get i).right

/-- In-order key sequence of the whole tree. -/
def AVLTree.inorder (s : AVLTree) : List Int :=
  s.inorderAux (s.nextId + 1) s.root

/-- The ascending insertion sequence of concrete scenario B. -/
def scenarioB : Except (Err × AVLTree) AVLTree :=
  AVLTree.mkEmpty.runOps
    [Op.ins 1, Op.ins 2, Op.ins 3, Op.ins 4, Op.ins 5, Op.ins 6, Op.ins 7]

/-- C8: inserting 1,2,3,4,5,6,7 ascending into an empty tree succeeds and
yields a root node with value 4 and stored height 2. -/
theorem C8_ascending_inserts_give_root4_height2 :
    ∃ s : AVLTree, scenarioB = .ok s ∧
      (s.root.map fun r => ((s.get r).value, (s.get r).height)) = some (4, 2) :=
  ⟨_, rfl, rfl⟩

/-- C9: with an argument that is neither an `int` nor a `Node`, each of
`find`, `insert` and `remove` raises `TypeError` with the tree in its
original, unmutated state. -/
theorem C9_bad_argument_type_raises_before_mutation (s : AVLTree) :
    s.findP .other = .error (.typeErrorValue, s) ∧
    s.insertP .other = .error (.typeErrorValue, s) ∧
    s.removeP .other = .error (.typeErrorValue, s) :=
  ⟨rfl, rfl, rfl⟩

/-- A two-node object graph: node 0 (value 1) with left child node 1
(value 0). -/
def twoNodeHeap : Heap := fun j =>
  if j = 0 then some { value := 1, left := some 1 }
  else if j = 1 then some { value := 0, parent := some 0 }
  else none

/-- C10: `AVLTree.__init__` with a present root always sets `size` to 1,
whatever hangs below the root; on a concrete two-node graph the reported
size 1 differs from the 2 keys reachable from the root, so size
accounting holds only for trees built from the empty constructor. -/
theorem C10_init_with_root_sets_size_one :
    (∀ (h : Heap) (nid : Nat) (r : Nat), (AVLTree.init h nid (some r)).size = 1) ∧
    (AVLTree.init twoNodeHeap 2 (some 0)).size = 1 ∧
    ((AVLTree.init twoNodeHeap 2 (some 0)).inorder.length : Int) = 2 :=
  ⟨fun _ _ _ => rfl, rfl, rfl⟩

/-! ## Abstraction layer: finite trees and the representation predicate -/

/-- A finite binary tree abstracting the reachable object graph: each node
carries its arena id, its key and its stored height. -/
inductive FTree
  | nil
  | node (l : FTree) (id : Nat) (v : Int) (h : Int) (r : FTree)
deriving DecidableEq, Repr

namespace FTree

/-- Arena id of the root, `none` for the empty tree. -/
def rootId : FTree → Option Nat
  | nil => none
  | node _ i _ _ _ => some i

/-- In-order list of arena ids. -/
def ids : FTree → List Nat
  | nil => []
  | node l i _ _ r => l.ids ++ i :: r.ids

/-- In-order list of keys. -/
def keys : FTree → List Int
  | nil => []
  | node l _ v _ r => l.keys ++ v :: r.keys

/-- Number of nodes. -/
def cnt : FTree → Nat
  | nil => 0
  | node l _ _ _ r => l.cnt + r.cnt + 1

/-- True height: `-1` for the empty tree. -/
def hgt : FTree → Int
  | nil => -1
  | node l _ _ _ r => max l.hgt r.hgt + 1

/-- BST ordering: at every node, the keys of the left subtree are below
the node's key and the keys of the right subtree above it. -/
def BstOk : FTree → Prop
  | nil => True
  | node l _ v _ r =>
      (∀ k ∈ l.keys, k < v) ∧ (∀ k ∈ r.keys, v < k) ∧ BstOk l ∧ BstOk r

/-- Every stored height equals `1 + max` of the children's true heights. -/
def HeightsOk : FTree → Prop
  | nil => True
  | node l _ _ h r => h = max l.hgt r.hgt + 1 ∧ HeightsOk l ∧ HeightsOk r

/-- Every balance factor (on true heights) lies in `{-1, 0, 1}`. -/
def BalOk : FTree → Prop
  | nil => True
  | node l _ _ _ r => r.hgt - l.hgt ≤ 1 ∧ l.hgt - r.hgt ≤ 1 ∧ BalOk l ∧ BalOk r

theorem hgt_ge (t : FTree) : -1 ≤ t.hgt := by
  cases t with
  | nil => simp [hgt]
  | node l i v h r => simp [hgt]; have := hgt_ge l; omega

theorem length_ids (t : FTree) : t.ids.length = t.cnt := by
  induction t with
  | nil => rfl
  | node l i v h r ihl ihr => simp [ids, cnt, ihl, ihr]; omega

theorem length_keys (t : FTree) : t.keys.length = t.cnt := by
  induction t with
  | nil => rfl
  | node l i v h r ihl ihr => simp [keys, cnt, ihl, ihr]; omega

theorem rootId_mem {t : FTree} {i : Nat} (h : t.rootId = some i) : i ∈ t.ids := by
  cases t with
  | nil => simp [rootId] at h
  | node l j v hh r => simp [rootId] at h; simp [ids, h]

theorem hgt_lt_cnt (t : FTree) : t.hgt < (t.cnt : Int) := by
  induction t with
  | nil => simp [hgt, cnt]
  | node l i v h r ihl ihr => simp [hgt, cnt]; omega

end FTree

/-! ## Zipper: a context of ancestor frames, innermost first -/

/-- One ancestor frame: the hole is the left (`fl`) or right (`fr`) child
of node `i` (key `v`, stored height `h`), whose other subtree is `sib`. -/
inductive Frame
  | fl (i : Nat) (v : Int) (h : Int) (sib : FTree)
  | fr (i : Nat) (v : Int) (h : Int) (sib : FTree)
deriving DecidableEq, Repr

/-- A path from a subtree position up to the root, innermost frame first. -/
def Ctx : Type := List Frame

/-- Rebuild the whole tree from a context and the subtree in the hole. -/
def plugT : Ctx → FTree → FTree
  | [], t => t
  | Frame.fl i v h sib :: ctx, t => plugT ctx (.node t i v h sib)
  | Frame.fr i v h sib :: ctx, t => plugT ctx (.node sib i v h t)

/-- Ids of the frames of a context: the frame node's own id and its
sibling subtree's ids. -/
def ctxIds : Ctx → List Nat
  | [] => []
  | Frame.fl i _ _ sib :: ctx => i :: sib.ids ++ ctxIds ctx
  | Frame.fr i _ _ sib :: ctx => i :: sib.ids ++ ctxIds ctx

theorem ids_plugT_perm (ctx : Ctx) (t : FTree) :
    (plugT ctx t).ids.Perm (t.ids ++ ctxIds ctx) := by
  induction ctx generalizing t with
  | nil => simp [plugT, ctxIds]
  | cons f ctx ih =>
    cases f with
    | fl i v h sib =>
      have h1 := ih (.node t i v h sib)
      simpa [FTree.ids, ctxIds, List.append_assoc] using h1
    | fr i v h sib =>
      have h1 := ih (.node sib i v h t)
      simp only [FTree.ids, ctxIds, List.cons_append, List.append_assoc] at h1 ⊢
      refine h1.trans ?_
      have pm1 : (sib.ids ++ i :: (t.ids ++ ctxIds ctx)).Perm
          (i :: (sib.ids ++ (t.ids ++ ctxIds ctx))) := List.perm_middle
      have pm3 : (i :: (t.ids ++ (sib.ids ++ ctxIds ctx))).Perm
          (t.ids ++ i :: (sib.ids ++ ctxIds ctx)) := List.perm_middle.symm
      have pm2 : (i :: (sib.ids ++ (t.ids ++ ctxIds ctx))).Perm
          (i :: (t.ids ++ (sib.ids ++ ctxIds ctx))) := by
        refine List.Perm.cons i ?_
        rw [show sib.ids ++ (t.ids ++ ctxIds ctx) = (sib.ids ++ t.ids) ++ ctxIds ctx from
              (List.append_assoc _ _ _).symm,
           show t.ids ++ (sib.ids ++ ctxIds ctx) = (t.ids ++ sib.ids) ++ ctxIds ctx from
              (List.append_assoc _ _ _).symm]
        exact List.perm_append_comm.append_right _
      exact (pm1.trans pm2).trans pm3

theorem keys_plugT_congr {t1 t2 : FTree} (ctx : Ctx) (h : t1.keys = t2.keys) :
    (plugT ctx t1).keys = (plugT ctx t2).keys := by
  induction ctx generalizing t1 t2 with
  | nil => simpa [plugT] using h
  | cons f ctx ih =>
    cases f with
    | fl i v hh sib => exact ih (by simp [FTree.keys, h])
    | fr i v hh sib => exact ih (by simp [FTree.keys, h])

theorem ids_plugT_congr {t1 t2 : FTree} (ctx : Ctx) (h : t1.ids = t2.ids) :
    (plugT ctx t1).ids = (plugT ctx t2).ids := by
  induction ctx generalizing t1 t2 with
  | nil => simpa [plugT] using h
  | cons f ctx ih =>
    cases f with
    | fl i v hh sib => exact ih (by simp [FTree.ids, h])
    | fr i v hh sib => exact ih (by simp [FTree.ids, h])

theorem bstOk_plugT_sub {t : FTree} : ∀ ctx : Ctx, (plugT ctx t).BstOk → t.BstOk := by
  intro ctx
  induction ctx generalizing t with
  | nil => simp [plugT]
  | cons f ctx ih =>
    cases f with
    | fl i v hh sib =>
      intro h
      exact (ih (t := .node t i v hh sib) h).2.2.1
    | fr i v hh sib =>
      intro h
      exact (ih (t := .node sib i v hh t) h).2.2.2

theorem bstOk_plugT_congr {t1 t2 : FTree} (ctx : Ctx) (hk : t1.keys = t2.keys)
    (h1 : (plugT ctx t1).BstOk) (h2 : t2.BstOk) : (plugT ctx t2).BstOk := by
  induction ctx generalizing t1 t2 with
  | nil => simpa [plugT] using h2
  | cons f ctx ih =>
    cases f with
    | fl i v hh sib =>
      refine @ih (.node t1 i v hh sib) (.node t2 i v hh sib)
        (by simp [FTree.keys, hk]) h1 ?_
      have h3 : (FTree.node t1 i v hh sib).BstOk := bstOk_plugT_sub ctx h1
      obtain ⟨ha, hb, _, hd⟩ := h3
      exact ⟨by rw [← hk]; exact ha, hb, h2, hd⟩
    | fr i v hh sib =>
      refine @ih (.node sib i v hh t1) (.node sib i v hh t2)
        (by simp [FTree.keys, hk]) h1 ?_
      have h3 : (FTree.node sib i v hh t1).BstOk := bstOk_plugT_sub ctx h1
      obtain ⟨ha, hb, hc, _⟩ := h3
      exact ⟨ha, by rw [← hk]; exact hb, hc, h2⟩

theorem bstOk_keys_nodup {t : FTree} (h : t.BstOk) : t.keys.Nodup := by
  induction t with
  | nil => simp [FTree.keys]
  | node l i v hh r ihl ihr =>
    obtain ⟨ha, hb, hc, hd⟩ := h
    simp only [FTree.keys]
    refine List.Nodup.append (ihl hc) ?_ ?_
    · refine List.nodup_cons.2 ⟨fun hm => ?_, ihr hd⟩
      exact absurd (hb v hm) (lt_irrefl v)
    · intro a hal har
      rcases List.mem_cons.1 har with h' | h'
      · exact absurd (h' ▸ ha a hal) (lt_irrefl _)
      · exact absurd ((ha a hal).trans (hb a h')) (lt_irrefl _)

/-- Spine data recoverable from a well-formed tree around a hole whose old
subtree had true height `h0`: each frame's stored height is the old true
height of its subtree, and the sibling is within one of the hole. -/
def CtxSpine : Ctx → Int → Prop
  | [], _ => True
  | Frame.fl _ _ h sib :: ctx, h0 =>
      h = max h0 sib.hgt + 1 ∧ h0 - sib.hgt ≤ 1 ∧ sib.hgt - h0 ≤ 1 ∧
      sib.HeightsOk ∧ sib.BalOk ∧ CtxSpine ctx h
  | Frame.fr _ _ h sib :: ctx, h0 =>
      h = max sib.hgt h0 + 1 ∧ h0 - sib.hgt ≤ 1 ∧ sib.hgt - h0 ≤ 1 ∧
      sib.HeightsOk ∧ sib.BalOk ∧ CtxSpine ctx h

theorem spine_of_plugT {t : FTree} : ∀ ctx : Ctx,
    (plugT ctx t).HeightsOk → (plugT ctx t).BalOk →
    CtxSpine ctx t.hgt ∧ t.HeightsOk ∧ t.BalOk := by
  intro ctx
  induction ctx generalizing t with
  | nil => intro h b; exact ⟨trivial, h, b⟩
  | cons f ctx ih =>
    cases f with
    | fl i v hh sib =>
      intro h b
      obtain ⟨hs, hh1, hb1⟩ := ih (t := .node t i v hh sib) h b
      obtain ⟨he, hht, hhs⟩ := hh1
      obtain ⟨b1, b2, bt, bs⟩ := hb1
      refine ⟨⟨he, by omega, by omega, hhs, bs, ?_⟩, hht, bt⟩
      have : (FTree.node t i v hh sib).hgt = hh := by
        simp only [FTree.hgt]; omega
      rwa [this] at hs
    | fr i v hh sib =>
      intro h b
      obtain ⟨hs, hh1, hb1⟩ := ih (t := .node sib i v hh t) h b
      obtain ⟨he, hhs, hht⟩ := hh1
      obtain ⟨b1, b2, bs, bt⟩ := hb1
      refine ⟨⟨he, by omega, by omega, hhs, bs, ?_⟩, hht, bt⟩
      have : (FTree.node sib i v hh t).hgt = hh := by
        simp only [FTree.hgt]; omega
      rwa [this] at hs

/-! ## Representation predicate tying the arena to finite trees -/

theorem hupd_same (h : Heap) (i : Nat) (n : Node) : hupd h i n i = some n := by
  simp [hupd]

theorem hupd_other (h : Heap) (i j : Nat) (n : Node) (hne : j ≠ i) :
    hupd h i n j = h j := by
  simp [hupd, hne]

theorem get_of_heap {s : AVLTree} {i : Nat} {n : Node} (h : s.heap i = some n) :
    s.get i = n := by
  simp [AVLTree.get, h]

/-- All allocated ids are below `nextId`. -/
def Bounded (s : AVLTree) : Prop :=
  ∀ j, s.nextId ≤ j → s.heap j = none

/-- `ReprAt s par t`: the subtree `t` is laid out in the arena of `s`, with
every node's record agreeing with `t` field for field and the root's
parent back-reference equal to `par`. -/
inductive ReprAt (s : AVLTree) : Option Nat → FTree → Prop
  | nil (par : Option Nat) : ReprAt s par .nil
  | node (par : Option Nat) (i : Nat) (v hh : Int) {l r : FTree} :
      s.heap i = some { value := v, parent := par, left := l.rootId,
                        right := r.rootId, height := hh } →
      ReprAt s (some i) l →
      ReprAt s (some i) r →
      ReprAt s par (.node l i v hh r)

/-- `CtxRepr s ctx par hole`: the ancestor frames of `ctx` are laid out in
the arena above a hole slot; `par` is the hole's parent id (the innermost
frame's node) and `hole` the pointer that slot currently stores. -/
inductive CtxRepr (s : AVLTree) : Ctx → Option Nat → Option Nat → Prop
  | nil (hole : Option Nat) : s.root = hole → CtxRepr s [] none hole
  | consL {ctx : Ctx} (i : Nat) (v hh : Int) (sib : FTree) {gpar hole : Option Nat} :
      s.heap i = some { value := v, parent := gpar, left := hole,
                        right := sib.rootId, height := hh } →
      ReprAt s (some i) sib →
      CtxRepr s ctx gpar (some i) →
      CtxRepr s (.fl i v hh sib :: ctx) (some i) hole
  | consR {ctx : Ctx} (i : Nat) (v hh : Int) (sib : FTree) {gpar hole : Option Nat} :
      s.heap i = some { value := v, parent := gpar, left := sib.rootId,
                        right := hole, height := hh } →
      ReprAt s (some i) sib →
      CtxRepr s ctx gpar (some i) →
      CtxRepr s (.fr i v hh sib :: ctx) (some i) hole

theorem ReprAt.heap_mem {s : AVLTree} {par : Option Nat} {t : FTree}
    (h : ReprAt s par t) : ∀ j ∈ t.ids, ∃ n : Node, s.heap j = some n := by
  induction h with
  | nil => simp [FTree.ids]
  | node par i v hh hheap hl hr ihl ihr =>
    intro j hj
    simp only [FTree.ids, List.mem_append, List.mem_cons] at hj
    rcases hj with hj | hj | hj
    · exact ihl j hj
    · exact ⟨_, hj ▸ hheap⟩
    · exact ihr j hj

theorem ReprAt.ids_lt {s : AVLTree} {par : Option Nat} {t : FTree}
    (h : ReprAt s par t) (hb : Bounded s) : ∀ j ∈ t.ids, j < s.nextId := by
  intro j hj
  obtain ⟨n, hn⟩ := h.heap_mem j hj
  by_contra hlt
  rw [hb j (by omega)] at hn
  exact Option.noConfusion hn

theorem ReprAt.mono {s s' : AVLTree} {par : Option Nat} {t : FTree}
    (h : ReprAt s par t) (hs : ∀ j ∈ t.ids, s'.heap j = s.heap j) :
    ReprAt s' par t := by
  induction h with
  | nil par => exact .nil par
  | node par i v hh hheap hl hr ihl ihr =>
    refine .node par i v hh ?_ ?_ ?_
    · rw [hs i (by simp [FTree.ids])]; exact hheap
    · exact ihl fun j hj => hs j (by simp [FTree.ids, hj])
    · exact ihr fun j hj => hs j (by simp [FTree.ids, hj])

theorem CtxRepr.monoC {s s' : AVLTree} {ctx : Ctx} {par hole : Option Nat}
    (h : CtxRepr s ctx par hole) (hs : ∀ j ∈ ctxIds ctx, s'.heap j = s.heap j)
    (hr : s'.root = s.root) : CtxRepr s' ctx par hole := by
  induction h with
  | nil hole he => exact CtxRepr.nil hole (hr.trans he)
  | consL i v hh sib hheap hsib hctx ih =>
    refine .consL i v hh sib ?_ ?_ (ih ?_)
    · rw [hs i (by simp [ctxIds])]; exact hheap
    · exact hsib.mono fun j hj => hs j (by simp [ctxIds, hj])
    · intro j hj; exact hs j (by simp [ctxIds]; tauto)
  | consR i v hh sib hheap hsib hctx ih =>
    refine .consR i v hh sib ?_ ?_ (ih ?_)
    · rw [hs i (by simp [ctxIds])]; exact hheap
    · exact hsib.mono fun j hj => hs j (by simp [ctxIds, hj])
    · intro j hj; exact hs j (by simp [ctxIds]; tauto)

theorem CtxRepr.none_elim {s : AVLTree} {ctx : Ctx} {hole : Option Nat}
    (h : CtxRepr s ctx none hole) : ctx = [] ∧ hole = s.root := by
  cases h with
  | nil hole he => exact ⟨rfl, he.symm⟩

theorem CtxRepr.ids_sub {s : AVLTree} {ctx : Ctx} {par hole : Option Nat}
    (h : CtxRepr s ctx par hole) : ∀ j ∈ ctxIds ctx, ∃ n : Node, s.heap j = some n := by
  induction h with
  | nil hole he => simp [ctxIds]
  | consL i v hh sib hheap hsib hctx ih =>
    intro j hj
    simp only [ctxIds, List.cons_append, List.mem_cons, List.mem_append] at hj
    rcases hj with hj | hj | hj
    · exact ⟨_, hj ▸ hheap⟩
    · exact hsib.heap_mem j hj
    · exact ih j hj
  | consR i v hh sib hheap hsib hctx ih =>
    intro j hj
    simp only [ctxIds, List.cons_append, List.mem_cons, List.mem_append] at hj
    rcases hj with hj | hj | hj
    · exact ⟨_, hj ▸ hheap⟩
    · exact hsib.heap_mem j hj
    · exact ih j hj

theorem reprAt_plugT {s : AVLTree} {ctx : Ctx} {par hole : Option Nat} {t : FTree}
    (hc : CtxRepr s ctx par hole) (ht : ReprAt s par t) (he : t.rootId = hole) :
    ReprAt s none (plugT ctx t) ∧ s.root = (plugT ctx t).rootId := by
  induction hc generalizing t with
  | nil hole hroot => exact ⟨ht, hroot.trans he.symm⟩
  | consL i v hh sib hheap hsib hctx ih =>
    subst he
    exact ih (.node _ i v hh hheap ht hsib) rfl
  | consR i v hh sib hheap hsib hctx ih =>
    subst he
    exact ih (.node _ i v hh hheap hsib ht) rfl

theorem plugT_reprAt {s : AVLTree} {t : FTree} : ∀ {ctx : Ctx},
    ReprAt s none (plugT ctx t) → s.root = (plugT ctx t).rootId →
    ∃ par, CtxRepr s ctx par t.rootId ∧ ReprAt s par t := by
  intro ctx
  induction ctx generalizing t with
  | nil =>
    intro h hr
    exact ⟨none, CtxRepr.nil _ hr, h⟩
  | cons f ctx ih =>
    cases f with
    | fl i v hh sib =>
      intro h hr
      obtain ⟨par, hc, hn⟩ := ih (t := .node t i v hh sib) h hr
      cases hn with
      | node _ _ _ _ hheap hl hr' =>
        exact ⟨some i, .consL i v hh sib hheap hr' hc, hl⟩
    | fr i v hh sib =>
      intro h hr
      obtain ⟨par, hc, hn⟩ := ih (t := .node sib i v hh t) h hr
      cases hn with
      | node _ _ _ _ hheap hl hr' =>
        exact ⟨some i, .consR i v hh sib hheap hl hc, hr'⟩

/-! ## Search correctness -/

/-- Id of the node holding `v`, following the search path. -/
def FTree.findId (v : Int) : FTree → Option Nat
  | nil => none
  | node l i v' _ r => if v' = v then some i else if v < v' then l.findId v else r.findId v

/-- Id of the node under which `v` would be attached (the last node on the
fall-off search path); meaningful when `v` is absent. -/
def FTree.insPos (v : Int) : FTree → Option Nat
  | nil => none
  | node l i v' _ r =>
    if v < v' then (match l with | nil => some i | _ => l.insPos v)
    else (match r with | nil => some i | _ => r.insPos v)

theorem FTree.insPos_isSome {t : FTree} (h : t ≠ .nil) (v : Int) :
    (t.insPos v).isSome := by
  induction t with
  | nil => exact absurd rfl h
  | node l i v' hh r ihl ihr =>
    simp only [insPos]
    split
    · cases l with
      | nil => simp
      | node a b c d e => exact ihl (by simp)
    · cases r with
      | nil => simp
      | node a b c d e => exact ihr (by simp)

theorem FTree.mem_left_of_lt {l r : FTree} {i : Nat} {v' hh : Int} {k : Int}
    (hb : (FTree.node l i v' hh r).BstOk)
    (hm : k ∈ (FTree.node l i v' hh r).keys) (hk : k < v') : k ∈ l.keys := by
  obtain ⟨ha, hb', _, _⟩ := hb
  simp only [keys, List.mem_append, List.mem_cons] at hm
  rcases hm with h | h | h
  · exact h
  · omega
  · exact absurd (hb' k h) (by omega)

theorem FTree.mem_right_of_gt {l r : FTree} {i : Nat} {v' hh : Int} {k : Int}
    (hb : (FTree.node l i v' hh r).BstOk)
    (hm : k ∈ (FTree.node l i v' hh r).keys) (hk : v' < k) : k ∈ r.keys := by
  obtain ⟨ha, hb', _, _⟩ := hb
  simp only [keys, List.mem_append, List.mem_cons] at hm
  rcases hm with h | h | h
  · exact absurd (ha k h) (by omega)
  · omega
  · exact h

theorem FTree.root_mem_keys {l r : FTree} {i : Nat} {v' hh : Int} :
    v' ∈ (FTree.node l i v' hh r).keys := by
  simp [keys]

theorem FTree.mem_keys_node {l r : FTree} {i : Nat} {v' hh k : Int} :
    k ∈ (FTree.node l i v' hh r).keys ↔ k ∈ l.keys ∨ k = v' ∨ k ∈ r.keys := by
  simp [keys]

/-- The `__search_node` loop on a represented BST subtree: on a hit it
records the matching node, on a miss it records the fall-off parent. -/
theorem searchLoop_spec {s : AVLTree} {par : Option Nat} {t : FTree} {v : Int}
    (h : ReprAt s par t) (hb : t.BstOk) :
    ∀ (fuel : Nat) (res : NodeSearchResult), t.cnt < fuel →
    s.searchLoop v fuel t.rootId res =
      (if v ∈ t.keys then .ok { res with searched_node := t.findId v }
       else .ok { res with insert_place := (t.insPos v).or res.insert_place }) := by
  induction t generalizing par with
  | nil =>
    intro fuel res hf
    simp [FTree.rootId, FTree.keys, FTree.insPos, AVLTree.searchLoop]
  | node l i v' hh r ihl ihr =>
    intro fuel res hf
    cases fuel with
    | zero => simp [FTree.cnt] at hf
    | succ f =>
      cases h with
      | node _ _ _ _ hheap hl hr =>
        have hcur := get_of_heap hheap
        simp only [FTree.rootId, AVLTree.searchLoop, hcur]
        rcases lt_trichotomy v v' with hvv | hvv | hvv
        · -- descend left
          have hne : ¬ (v' = v) := by omega
          simp only [if_neg hne, if_pos hvv]
          have hmem : (v ∈ (FTree.node l i v' hh r).keys) ↔ v ∈ l.keys := by
            constructor
            · intro hm; exact FTree.mem_left_of_lt ⟨hb.1, hb.2.1, hb.2.2.1, hb.2.2.2⟩ hm hvv
            · intro hm; exact FTree.mem_keys_node.2 (Or.inl hm)
          have hfind : (FTree.node l i v' hh r).findId v = l.findId v := by
            simp [FTree.findId, hne, hvv]
          cases l with
          | nil =>
            simp only [FTree.rootId, reduceIte]
            have : s.searchLoop v f none { res with insert_place := some i } =
                .ok { res with insert_place := some i } := by
              cases f <;> simp [AVLTree.searchLoop]
            rw [this]
            have hnm : ¬ (v ∈ (FTree.node .nil i v' hh r).keys) := by
              rw [hmem]; simp [FTree.keys]
            simp [hnm, FTree.insPos, if_pos hvv]
          | node ll li lv lh lr =>
            simp only [FTree.rootId]
            have hstep := ihl hl hb.2.2.1 f res
              (by simp [FTree.cnt] at hf ⊢; omega)
            simp only [FTree.rootId] at hstep
            simp only [if_neg (show ¬ (some li = (none : Option Nat)) by simp)]
            rw [hstep]
            simp only [hmem, hfind]
            rw [show (FTree.node (.node ll li lv lh lr) i v' hh r).insPos v =
                  (FTree.node ll li lv lh lr).insPos v from by
                    simp [FTree.insPos, if_pos hvv]]
        · -- hit
          subst hvv
          simp only [if_pos rfl]
          have : (FTree.node l i v hh r).findId v = some i := by simp [FTree.findId]
          simp [FTree.root_mem_keys, this]
        · -- descend right
          have hne : ¬ (v' = v) := by omega
          have hnlt : ¬ (v < v') := by omega
          simp only [if_neg hne, if_neg hnlt]
          have hmem : (v ∈ (FTree.node l i v' hh r).keys) ↔ v ∈ r.keys := by
            constructor
            · intro hm; exact FTree.mem_right_of_gt ⟨hb.1, hb.2.1, hb.2.2.1, hb.2.2.2⟩ hm hvv
            · intro hm; exact FTree.mem_keys_node.2 (Or.inr (Or.inr hm))
          have hfind : (FTree.node l i v' hh r).findId v = r.findId v := by
            simp [FTree.findId, hne, hnlt]
          cases r with
          | nil =>
            simp only [FTree.rootId, reduceIte]
            have : s.searchLoop v f none { res with insert_place := some i } =
                .ok { res with insert_place := some i } := by
              cases f <;> simp [AVLTree.searchLoop]
            rw [this]
            have hnm : ¬ (v ∈ (FTree.node l i v' hh .nil).keys) := by
              rw [hmem]; simp [FTree.keys]
            simp [hnm, FTree.insPos, if_neg hnlt]
          | node rl ri rv rh rr =>
            simp only [FTree.rootId]
            have hstep := ihr hr hb.2.2.2 f res
              (by simp [FTree.cnt] at hf ⊢; omega)
            simp only [FTree.rootId] at hstep
            simp only [if_neg (show ¬ (some ri = (none : Option Nat)) by simp)]
            rw [hstep]
            simp only [hmem, hfind]
            rw [show (FTree.node l i v' hh (.node rl ri rv rh rr)).insPos v =
                  (FTree.node rl ri rv rh rr).insPos v from by
                    simp [FTree.insPos, if_neg hnlt]]

theorem cnt_le_nextId {s : AVLTree} {par : Option Nat} {t : FTree}
    (h : ReprAt s par t) (hb : Bounded s) (hnd : t.ids.Nodup) :
    t.cnt ≤ s.nextId := by
  have hlt := h.ids_lt hb
  have hsub : t.ids.toFinset ⊆ Finset.range s.nextId := by
    intro j hj
    simp only [List.mem_toFinset] at hj
    simpa using hlt j hj
  have hcard := Finset.card_le_card hsub
  rwa [List.toFinset_card_of_nodup hnd, Finset.card_range, FTree.length_ids] at hcard

theorem FTree.findId_mem {t : FTree} {v : Int} {j : Nat}
    (h : t.findId v = some j) : v ∈ t.keys := by
  induction t with
  | nil => simp [findId] at h
  | node l i v' hh r ihl ihr =>
    simp only [findId] at h
    split at h
    · simp only [Option.some_inj] at h
      subst h
      simp_all [keys]
    · split at h
      · exact mem_keys_node.2 (Or.inl (ihl h))
      · exact mem_keys_node.2 (Or.inr (Or.inr (ihr h)))

theorem FTree.findId_isSome {t : FTree} {v : Int} (hb : t.BstOk)
    (hm : v ∈ t.keys) : ∃ j, t.findId v = some j := by
  induction t with
  | nil => simp [keys] at hm
  | node l i v' hh r ihl ihr =>
    simp only [findId]
    rcases lt_trichotomy v v' with hvv | hvv | hvv
    · rw [if_neg (by omega), if_pos hvv]
      exact ihl hb.2.2.1 (mem_left_of_lt hb hm hvv)
    · subst hvv; simp
    · rw [if_neg (by omega), if_neg (by omega)]
      exact ihr hb.2.2.2 (mem_right_of_gt hb hm hvv)

theorem FTree.findId_value {s : AVLTree} {par : Option Nat} {t : FTree} {v : Int} {j : Nat}
    (h : ReprAt s par t) (hf : t.findId v = some j) :
    (s.get j).value = v ∧ j ∈ t.ids := by
  induction h with
  | nil => simp [findId] at hf
  | node par i v' hh hheap hl hr ihl ihr =>
    simp only [findId] at hf
    split at hf
    · simp only [Option.some_inj] at hf
      subst hf
      constructor
      · rw [get_of_heap hheap]; assumption
      · simp [ids]
    · split at hf
      · obtain ⟨h1, h2⟩ := ihl hf
        exact ⟨h1, by simp [ids, h2]⟩
      · obtain ⟨h1, h2⟩ := ihr hf
        exact ⟨h1, by simp [ids, h2]⟩

theorem FTree.insPos_mem {t : FTree} {v : Int} {p : Nat}
    (h : t.insPos v = some p) : p ∈ t.ids := by
  induction t with
  | nil => simp [insPos] at h
  | node l i v' hh r ihl ihr =>
    simp only [insPos] at h
    split at h
    · cases l with
      | nil => simp only [Option.some_inj] at h; simp [ids, h.symm]
      | node a b c d e =>
        have := ihl h
        simp only [ids, List.mem_append, List.mem_cons] at this ⊢
        tauto
    · cases r with
      | nil => simp only [Option.some_inj] at h; simp [ids, h.symm]
      | node a b c d e =>
        have := ihr h
        simp only [ids, List.mem_append, List.mem_cons] at this ⊢
        tauto

/-- The well-formedness invariant of a tree state: a representing
finite tree exists and satisfies all five documented invariants, and
`size` counts its keys. -/
structure WF (s : AVLTree) (t : FTree) : Prop where
  reprR : ReprAt s none t
  rootR : s.root = t.rootId
  nodup : t.ids.Nodup
  bounded : Bounded s
  bst : t.BstOk
  hts : t.HeightsOk
  bal : t.BalOk
  sz : s.size = (t.keys.length : Int)

theorem search_node_spec {s : AVLTree} {t : FTree} {v : Int}
    (hr : ReprAt s none t) (hroot : s.root = t.rootId) (hnd : t.ids.Nodup)
    (hbd : Bounded s) (hb : t.BstOk) :
    s.search_node v =
      (if v ∈ t.keys then .ok { searched_node := t.findId v, insert_place := none }
       else .ok { searched_node := none, insert_place := t.insPos v }) := by
  have hcnt : t.cnt < s.nextId + 1 :=
    Nat.lt_succ_of_le (cnt_le_nextId hr hbd hnd)
  have := searchLoop_spec (v := v) hr hb (s.nextId + 1) {} hcnt
  rw [AVLTree.search_node, hroot, this]
  split
  · rfl
  · simp

theorem findCore_spec {s : AVLTree} {t : FTree} (hw : WF s t) (node : Node) :
    s.findCore node = .ok (t.findId node.value) := by
  have hs := search_node_spec (v := node.value) hw.reprR hw.rootR hw.nodup hw.bounded hw.bst
  rw [AVLTree.findCore, hs]
  by_cases hm : node.value ∈ t.keys
  · rw [if_pos hm]
    obtain ⟨j, hj⟩ := FTree.findId_isSome hw.bst hm
    simp [NodeSearchResult.is_found, hj]
  · rw [if_neg hm]
    have hnone : t.findId node.value = none := by
      cases hf : t.findId node.value with
      | none => rfl
      | some j => exact absurd (FTree.findId_mem hf) hm
    simp [NodeSearchResult.is_found, hnone]

/-- `find` under the invariant: it returns exactly the id of the node
holding `v` when `v` is present, and `none` otherwise. -/
theorem find_spec {s : AVLTree} {t : FTree} {v : Int} (hw : WF s t) :
    s.find v = .ok (t.findId v) := by
  have h := findCore_spec hw { value := v }
  simpa [AVLTree.find] using h

/-! ## Functional insertion -/

/-- The tree produced by `__bst_insert` when `v` is absent: a fresh leaf
with id `nid` attached at the search fall-off position. -/
def FTree.bstInsertF (v : Int) (nid : Nat) : FTree → FTree
  | nil => node nil nid v 0 nil
  | node l i v' h r =>
    if v < v' then node (l.bstInsertF v nid) i v' h r
    else node l i v' h (r.bstInsertF v nid)

/-- Context of the insertion hole, built while descending the search path. -/
def FTree.insCtx (v : Int) : FTree → Ctx → Ctx
  | nil, acc => acc
  | node l i v' h r, acc =>
    if v < v' then l.insCtx v (.fl i v' h r :: acc)
    else r.insCtx v (.fr i v' h l :: acc)

/-- Id of the innermost frame's node. -/
def ctxHead : Ctx → Option Nat
  | [] => none
  | Frame.fl i _ _ _ :: _ => some i
  | Frame.fr i _ _ _ :: _ => some i

/-- Direction constraint the head frame of an insertion context satisfies. -/
def CtxInsOk (v : Int) : Ctx → Prop
  | [] => True
  | Frame.fl _ v' _ _ :: _ => v < v'
  | Frame.fr _ v' _ _ :: _ => v' < v

theorem CtxRepr.par_eq {s : AVLTree} {ctx : Ctx} {par hole : Option Nat}
    (h : CtxRepr s ctx par hole) : par = ctxHead ctx := by
  cases h <;> rfl

theorem FTree.plugT_insCtx_nil {v : Int} : ∀ (t : FTree) (acc : Ctx),
    plugT (t.insCtx v acc) .nil = plugT acc t := by
  intro t
  induction t with
  | nil => intro acc; rfl
  | node l i v' h r ihl ihr =>
    intro acc
    simp only [insCtx]
    split
    · rw [ihl]; rfl
    · rw [ihr]; rfl

theorem FTree.plugT_insCtx_leaf {v : Int} {nid : Nat} : ∀ (t : FTree) (acc : Ctx),
    plugT (t.insCtx v acc) (.node .nil nid v 0 .nil) = plugT acc (t.bstInsertF v nid) := by
  intro t
  induction t with
  | nil => intro acc; rfl
  | node l i v' h r ihl ihr =>
    intro acc
    simp only [insCtx, bstInsertF]
    split
    · rw [ihl]; rfl
    · rw [ihr]; rfl

theorem FTree.ctxHead_insCtx {v : Int} : ∀ (t : FTree) (acc : Ctx),
    ctxHead (t.insCtx v acc) = (t.insPos v).or (ctxHead acc) := by
  intro t
  induction t with
  | nil => intro acc; simp [insCtx, insPos]
  | node l i v' h r ihl ihr =>
    intro acc
    simp only [insCtx, insPos]
    split
    · rw [ihl]
      cases l with
      | nil => simp [insPos, ctxHead]
      | node a b c d e =>
        have := insPos_isSome (t := FTree.node a b c d e) (by simp) v
        cases hi : (FTree.node a b c d e).insPos v with
        | none => rw [hi] at this; simp at this
        | some q => simp [hi]
    · rw [ihr]
      cases r with
      | nil => simp [insPos, ctxHead]
      | node a b c d e =>
        have := insPos_isSome (t := FTree.node a b c d e) (by simp) v
        cases hi : (FTree.node a b c d e).insPos v with
        | none => rw [hi] at this; simp at this
        | some q => simp [hi]

theorem FTree.insCtx_headOk {v : Int} : ∀ (t : FTree), v ∉ t.keys →
    ∀ acc : Ctx, CtxInsOk v acc → CtxInsOk v (t.insCtx v acc) := by
  intro t
  induction t with
  | nil => intro _ acc h; exact h
  | node l i v' h r ihl ihr =>
    intro hm acc hacc
    have hne : v ≠ v' := fun he => hm (he ▸ root_mem_keys)
    have hml : v ∉ l.keys := fun h' => hm (mem_keys_node.2 (Or.inl h'))
    have hmr : v ∉ r.keys := fun h' => hm (mem_keys_node.2 (Or.inr (Or.inr h')))
    simp only [insCtx]
    split
    · exact ihl hml _ (by rename_i hlt; exact hlt)
    · refine ihr hmr _ ?_
      rename_i hlt
      show v' < v
      omega

theorem FTree.keys_bstInsertF_perm (v : Int) (nid : Nat) : ∀ t : FTree,
    (t.bstInsertF v nid).keys.Perm (v :: t.keys) := by
  intro t
  induction t with
  | nil => simp [bstInsertF, keys]
  | node l i v' h r ihl ihr =>
    simp only [bstInsertF]
    split
    · simp only [keys]
      refine (ihl.append_right _).trans ?_
      simp
    · simp only [keys]
      refine (List.Perm.append_left _ (List.Perm.cons _ ihr)).trans ?_
      refine (List.Perm.append_left _ (List.Perm.swap v v' _)).trans ?_
      exact List.perm_middle

theorem FTree.ids_bstInsertF_perm (v : Int) (nid : Nat) : ∀ t : FTree,
    (t.bstInsertF v nid).ids.Perm (nid :: t.ids) := by
  intro t
  induction t with
  | nil => simp [bstInsertF, ids]
  | node l i v' h r ihl ihr =>
    simp only [bstInsertF]
    split
    · simp only [ids]
      refine (ihl.append_right _).trans ?_
      simp
    · simp only [ids]
      refine (List.Perm.append_left _ (List.Perm.cons _ ihr)).trans ?_
      refine (List.Perm.append_left _ (List.Perm.swap nid i _)).trans ?_
      exact List.perm_middle

theorem FTree.bstOk_bstInsertF {v : Int} {nid : Nat} : ∀ t : FTree,
    t.BstOk → v ∉ t.keys → (t.bstInsertF v nid).BstOk := by
  intro t
  induction t with
  | nil => intro _ _; exact ⟨by simp [keys], by simp [keys], trivial, trivial⟩
  | node l i v' h r ihl ihr =>
    intro hb hm
    have hne : v ≠ v' := fun he => hm (he ▸ root_mem_keys)
    have hml : v ∉ l.keys := fun h' => hm (mem_keys_node.2 (Or.inl h'))
    have hmr : v ∉ r.keys := fun h' => hm (mem_keys_node.2 (Or.inr (Or.inr h')))
    simp only [bstInsertF]
    split
    · rename_i hlt
      refine ⟨?_, hb.2.1, ihl hb.2.2.1 hml, hb.2.2.2⟩
      intro k hk
      have := (keys_bstInsertF_perm v nid l).mem_iff.1 hk
      rcases List.mem_cons.1 this with h' | h'
      · omega
      · exact hb.1 k h'
    · rename_i hlt
      have hgt : v' < v := by omega
      refine ⟨hb.1, ?_, hb.2.2.1, ihr hb.2.2.2 hmr⟩
      intro k hk
      have := (keys_bstInsertF_perm v nid r).mem_iff.1 hk
      rcases List.mem_cons.1 this with h' | h'
      · omega
      · exact hb.2.1 k h'

theorem attach_left_repr {s u : AVLTree} {p : Nat} {pv ph : Int} {gpar : Option Nat}
    {sib : FTree} {rest : Ctx} {v : Int}
    (hheapP : s.heap p = some ⟨pv, gpar, none, sib.rootId, ph⟩)
    (hsib : ReprAt s (some p) sib)
    (hrest : CtxRepr s rest gpar (some p))
    (hplt : p < s.nextId)
    (hctxlt : ∀ j ∈ ctxIds (Frame.fl p pv ph sib :: rest), j < s.nextId)
    (hpn : p ∉ sib.ids ∧ p ∉ ctxIds rest)
    (hheap' : u.heap = hupd (hupd s.heap s.nextId ⟨v, some p, none, none, 0⟩) p
        ⟨pv, gpar, some s.nextId, sib.rootId, ph⟩)
    (hroot' : u.root = s.root) :
    ReprAt u none (plugT (Frame.fl p pv ph sib :: rest) (FTree.node .nil s.nextId v 0 .nil)) ∧
    u.root = (plugT (Frame.fl p pv ph sib :: rest) (FTree.node .nil s.nextId v 0 .nil)).rootId := by
  have hleaf : ReprAt u (some p) (FTree.node .nil s.nextId v 0 .nil) := by
    refine ReprAt.node (some p) s.nextId v 0 ?_ (.nil _) (.nil _)
    rw [hheap', hupd_other _ _ _ _ (by omega), hupd_same]
    rfl
  have hA : u.heap p = some ⟨pv, gpar, some s.nextId, sib.rootId, ph⟩ := by
    rw [hheap', hupd_same]
  have hB : ReprAt u (some p) sib := by
    refine hsib.mono ?_
    intro j hj
    have hj1 : j < s.nextId := hctxlt j (by simp [ctxIds, hj])
    rw [hheap', hupd_other _ _ _ _ (by intro he; subst he; exact absurd hj hpn.1),
        hupd_other _ _ _ _ (by omega)]
  have hC : CtxRepr u rest gpar (some p) := by
    refine hrest.monoC ?_ hroot'
    intro j hj
    have hj1 : j < s.nextId := hctxlt j (by simp [ctxIds, hj])
    rw [hheap', hupd_other _ _ _ _ (by intro he; subst he; exact absurd hj hpn.2),
        hupd_other _ _ _ _ (by omega)]
  exact reprAt_plugT (CtxRepr.consL p pv ph sib hA hB hC) hleaf rfl

theorem attach_right_repr {s u : AVLTree} {p : Nat} {pv ph : Int} {gpar : Option Nat}
    {sib : FTree} {rest : Ctx} {v : Int}
    (hheapP : s.heap p = some ⟨pv, gpar, sib.rootId, none, ph⟩)
    (hsib : ReprAt s (some p) sib)
    (hrest : CtxRepr s rest gpar (some p))
    (hplt : p < s.nextId)
    (hctxlt : ∀ j ∈ ctxIds (Frame.fr p pv ph sib :: rest), j < s.nextId)
    (hpn : p ∉ sib.ids ∧ p ∉ ctxIds rest)
    (hheap' : u.heap = hupd (hupd s.heap s.nextId ⟨v, some p, none, none, 0⟩) p
        ⟨pv, gpar, sib.rootId, some s.nextId, ph⟩)
    (hroot' : u.root = s.root) :
    ReprAt u none (plugT (Frame.fr p pv ph sib :: rest) (FTree.node .nil s.nextId v 0 .nil)) ∧
    u.root = (plugT (Frame.fr p pv ph sib :: rest) (FTree.node .nil s.nextId v 0 .nil)).rootId := by
  have hleaf : ReprAt u (some p) (FTree.node .nil s.nextId v 0 .nil) := by
    refine ReprAt.node (some p) s.nextId v 0 ?_ (.nil _) (.nil _)
    rw [hheap', hupd_other _ _ _ _ (by omega), hupd_same]
    rfl
  have hA : u.heap p = some ⟨pv, gpar, sib.rootId, some s.nextId, ph⟩ := by
    rw [hheap', hupd_same]
  have hB : ReprAt u (some p) sib := by
    refine hsib.mono ?_
    intro j hj
    have hj1 : j < s.nextId := hctxlt j (by simp [ctxIds, hj])
    rw [hheap', hupd_other _ _ _ _ (by intro he; subst he; exact absurd hj hpn.1),
        hupd_other _ _ _ _ (by omega)]
  have hC : CtxRepr u rest gpar (some p) := by
    refine hrest.monoC ?_ hroot'
    intro j hj
    have hj1 : j < s.nextId := hctxlt j (by simp [ctxIds, hj])
    rw [hheap', hupd_other _ _ _ _ (by intro he; subst he; exact absurd hj hpn.2),
        hupd_other _ _ _ _ (by omega)]
  exact reprAt_plugT (CtxRepr.consR p pv ph sib hA hB hC) hleaf rfl

/-- `__bst_insert` of a fresh node on a well-formed arena with the key
absent: it allocates id `nextId`, links it under the fall-off parent, and
the arena then represents the functional insertion. -/
theorem bst_insert_spec {s : AVLTree} {t : FTree} {v : Int}
    (hr : ReprAt s none t) (hroot : s.root = t.rootId) (hnd : t.ids.Nodup)
    (hbd : Bounded s) (hb : t.BstOk) (hm : v ∉ t.keys) :
    ∃ s', s.bst_insert { value := v } = .ok (some s.nextId, s') ∧
      ReprAt s' none (t.bstInsertF v s.nextId) ∧
      s'.root = (t.bstInsertF v s.nextId).rootId ∧
      (t.bstInsertF v s.nextId).ids.Nodup ∧
      Bounded s' ∧ s'.nextId = s.nextId + 1 ∧ s'.size = s.size + 1 := by
  have hs := search_node_spec (v := v) hr hroot hnd hbd hb
  rw [if_neg hm] at hs
  have hplug : plugT (t.insCtx v []) .nil = t := by
    rw [FTree.plugT_insCtx_nil]; rfl
  have hplugL : plugT (t.insCtx v []) (.node .nil s.nextId v 0 .nil) =
      t.bstInsertF v s.nextId := by
    rw [FTree.plugT_insCtx_leaf]; rfl
  have hr' : ReprAt s none (plugT (t.insCtx v []) .nil) := hplug.symm ▸ hr
  have hroot' : s.root = (plugT (t.insCtx v []) .nil).rootId := by
    rw [hplug]; exact hroot
  obtain ⟨par0, hctx, -⟩ := plugT_reprAt hr' hroot'
  have hpar0 : par0 = t.insPos v := by
    have h1 := hctx.par_eq
    rw [FTree.ctxHead_insCtx] at h1
    simpa [ctxHead] using h1
  have hndctx : (ctxIds (t.insCtx v [])).Nodup := by
    have hperm := ids_plugT_perm (t.insCtx v []) .nil
    rw [hplug] at hperm
    simp only [FTree.ids, List.nil_append] at hperm
    exact hperm.nodup hnd
  have hctxlt : ∀ j ∈ ctxIds (t.insCtx v []), j < s.nextId := by
    intro j hj
    obtain ⟨n, hn⟩ := hctx.ids_sub j hj
    by_contra hlt
    rw [hbd j (by omega)] at hn
    exact Option.noConfusion hn
  have hio : CtxInsOk v (t.insCtx v []) := FTree.insCtx_headOk t hm [] trivial
  have hperm2 : (plugT (t.insCtx v []) (FTree.node .nil s.nextId v 0 .nil)).ids.Perm
      (s.nextId :: ctxIds (t.insCtx v [])) := by
    have h2 := ids_plugT_perm (t.insCtx v []) (FTree.node .nil s.nextId v 0 .nil)
    simpa [FTree.ids] using h2
  -- unfold the insertion body
  rw [AVLTree.bst_insert]
  simp only [hs]
  rw [show NodeSearchResult.is_found
        { searched_node := none, insert_place := t.insPos v } = false from rfl]
  simp only [Bool.false_eq_true, if_false]
  rcases hctxE : t.insCtx v [] with - | ⟨f, rest⟩
  · -- empty context: the tree is empty, new node becomes the root
    rw [hctxE] at hplugL
    have htnil : t = .nil := by
      rw [← hplug, hctxE]; rfl
    have hip : t.insPos v = none := by rw [htnil]; rfl
    rw [hip]
    subst htnil
    refine ⟨_, rfl, ?_, ?_, ?_, ?_, ?_, ?_⟩
    · refine ReprAt.node none s.nextId v 0 (l := .nil) (r := .nil) ?_ (.nil _) (.nil _)
      simp only
      exact hupd_same _ _ _
    · rfl
    · simp [FTree.bstInsertF, FTree.ids]
    · intro j hj
      simp only at hj ⊢
      rw [hupd_other _ _ _ _ (by omega)]
      exact hbd j (by omega)
    · rfl
    · rfl
  · rw [hctxE] at hctx hndctx hctxlt hio hplugL hperm2
    have hipEq : t.insPos v = ctxHead (f :: rest) := by
      have h1 := FTree.ctxHead_insCtx (v := v) t []
      rw [hctxE] at h1
      simpa [ctxHead] using h1.symm
    cases f with
    | fl p pv ph sib =>
      have hip : t.insPos v = some p := by simpa [ctxHead] using hipEq
      rw [hip]
      rw [hpar0, hip] at hctx
      cases hctx
      case consL =>
        rename_i gpar hsib hrest hheapP
        have hvlt : v < pv := hio
        have hplt : p < s.nextId := by
          by_contra hlt
          rw [hbd p (by omega)] at hheapP
          exact Option.noConfusion hheapP
        have hpn : p ∉ sib.ids ∧ p ∉ ctxIds rest ∧ (ctxIds rest).Nodup ∧ sib.ids.Disjoint (ctxIds rest) := by
          simp only [ctxIds, List.cons_append, List.nodup_cons, List.mem_append,
            List.nodup_append] at hndctx
          tauto
        have h1 : hupd s.heap s.nextId ⟨v, some p, none, none, 0⟩ p = s.heap p :=
          hupd_other _ _ _ _ (by omega)
        simp only [AVLTree.get, h1, hheapP, Option.getD_some]
        rw [if_pos hvlt]
        have hrep := attach_left_repr (u := ⟨hupd (hupd s.heap s.nextId
              ⟨v, some p, none, none, 0⟩) p ⟨pv, gpar, some s.nextId, sib.rootId, ph⟩,
              s.root, s.size + 1, s.nextId + 1⟩)
          hheapP hsib hrest hplt hctxlt ⟨hpn.1, hpn.2.1⟩ rfl rfl
        rw [hplugL] at hrep
        refine ⟨_, rfl, hrep.1, hrep.2, ?_, ?_, rfl, rfl⟩
        · rw [← hplugL]
          refine (hperm2.nodup_iff).2 ?_
          refine List.nodup_cons.2 ⟨fun hmem => ?_, hndctx⟩
          exact absurd (hctxlt _ hmem) (by omega)
        · intro j hj
          simp only at hj ⊢
          rw [hupd_other _ _ _ _ (by omega), hupd_other _ _ _ _ (by omega)]
          exact hbd j (by omega)
    | fr p pv ph sib =>
      have hip : t.insPos v = some p := by simpa [ctxHead] using hipEq
      rw [hip]
      rw [hpar0, hip] at hctx
      cases hctx
      case consR =>
        rename_i gpar hsib hrest hheapP
        have hvgt : pv < v := hio
        have hplt : p < s.nextId := by
          by_contra hlt
          rw [hbd p (by omega)] at hheapP
          exact Option.noConfusion hheapP
        have hpn : p ∉ sib.ids ∧ p ∉ ctxIds rest ∧ (ctxIds rest).Nodup ∧ sib.ids.Disjoint (ctxIds rest) := by
          simp only [ctxIds, List.cons_append, List.nodup_cons, List.mem_append,
            List.nodup_append] at hndctx
          tauto
        have h1 : hupd s.heap s.nextId ⟨v, some p, none, none, 0⟩ p = s.heap p :=
          hupd_other _ _ _ _ (by omega)
        simp only [AVLTree.get, h1, hheapP, Option.getD_some]
        rw [if_neg (by omega)]
        have hrep := attach_right_repr (u := ⟨hupd (hupd s.heap s.nextId
              ⟨v, some p, none, none, 0⟩) p ⟨pv, gpar, sib.rootId, some s.nextId, ph⟩,
              s.root, s.size + 1, s.nextId + 1⟩)
          hheapP hsib hrest hplt hctxlt ⟨hpn.1, hpn.2.1⟩ rfl rfl
        rw [hplugL] at hrep
        refine ⟨_, rfl, hrep.1, hrep.2, ?_, ?_, rfl, rfl⟩
        · rw [← hplugL]
          refine (hperm2.nodup_iff).2 ?_
          refine List.nodup_cons.2 ⟨fun hmem => ?_, hndctx⟩
          exact absurd (hctxlt _ hmem) (by omega)
        · intro j hj
          simp only at hj ⊢
          rw [hupd_other _ _ _ _ (by omega), hupd_other _ _ _ _ (by omega)]
          exact hbd j (by omega)

/-- `__bst_insert` with the key already present: no mutation, `False`. -/
theorem bst_insert_dup {s : AVLTree} {t : FTree} {v : Int}
    (hr : ReprAt s none t) (hroot : s.root = t.rootId) (hnd : t.ids.Nodup)
    (hbd : Bounded s) (hb : t.BstOk) (hm : v ∈ t.keys) :
    s.bst_insert { value := v } = .ok (none, s) := by
  have hs := search_node_spec (v := v) hr hroot hnd hbd hb
  rw [if_pos hm] at hs
  rw [AVLTree.bst_insert]
  simp only [hs]
  obtain ⟨j, hj⟩ := FTree.findId_isSome hb hm
  rw [show NodeSearchResult.is_found { searched_node := t.findId v, insert_place := none } = true
      from by simp [NodeSearchResult.is_found, hj]]
  simp

/-- The parent-slot redirect at the end of a rotation: the hole that pointed
at the demoted node `i` (either the tree root or one child slot of the
parent) is made to point at the promoted node `j`. -/
def AVLTree.retarget (s : AVLTree) (par : Option Nat) (i j : Nat) : AVLTree :=
  match par with
  | none => { s with root := some j }
  | some p =>
    if (s.get p).left = some i then
      { s with heap := hupd s.heap p { s.get p with left := some j } }
    else
      { s with heap := hupd s.heap p { s.get p with right := some j } }

/-- Retargeting the hole slot: the step of a rotation that redirects the
parent's child pointer (or the tree root) from the demoted node `i` to the
promoted node `j`. -/
theorem ctx_retarget {s : AVLTree} {ctx : Ctx} {par : Option Nat} {i : Nat}
    (h : CtxRepr s ctx par (some i))
    (hnotin : i ∉ ctxIds ctx) (hnd : (ctxIds ctx).Nodup) (j : Nat) :
    CtxRepr (s.retarget par i j) ctx par (some j) ∧
    (s.retarget par i j).nextId = s.nextId ∧
    (s.retarget par i j).size = s.size ∧
    (∀ q, q ∉ ctxIds ctx → (s.retarget par i j).heap q = s.heap q) := by
  cases h with
  | nil hole he =>
    refine ⟨CtxRepr.nil _ rfl, rfl, rfl, fun q _ => rfl⟩
  | consL p pv ph sib hheapP hsib hrest =>
    rename_i d gpar
    have hget : s.get p = { value := pv, parent := gpar, left := some i, right := sib.rootId, height := ph } :=
      get_of_heap hheapP
    simp only [ctxIds, List.cons_append, List.nodup_cons, List.mem_append] at hnd
    simp only [AVLTree.retarget, hget, if_true]
    refine ⟨?_, by trivial, by trivial, ?_⟩
    · have hB : ReprAt { heap := hupd s.heap p { value := pv, parent := gpar, left := some j, right := sib.rootId, height := ph }, root := s.root, size := s.size, nextId := s.nextId : AVLTree } (some p) sib := by
        refine hsib.mono ?_
        intro q hq
        show hupd s.heap p _ q = s.heap q
        refine hupd_other _ _ _ _ ?_
        intro he; subst he; exact hnd.1 (Or.inl hq)
      have hC : CtxRepr { heap := hupd s.heap p { value := pv, parent := gpar, left := some j, right := sib.rootId, height := ph }, root := s.root, size := s.size, nextId := s.nextId : AVLTree } d gpar (some p) := by
        refine hrest.monoC ?_ rfl
        intro q hq
        show hupd s.heap p _ q = s.heap q
        refine hupd_other _ _ _ _ ?_
        intro he; subst he; exact hnd.1 (Or.inr hq)
      exact CtxRepr.consL p pv ph sib (hupd_same _ _ _) hB hC
    · intro q hq
      show hupd s.heap p _ q = s.heap q
      refine hupd_other _ _ _ _ ?_
      intro he
      exact hq (by simp [ctxIds, he])
  | consR p pv ph sib hheapP hsib hrest =>
    rename_i d gpar
    have hget : s.get p = { value := pv, parent := gpar, left := sib.rootId, right := some i, height := ph } :=
      get_of_heap hheapP
    have hne : ¬ (sib.rootId = some i) := by
      intro he
      exact hnotin (by simp [ctxIds, FTree.rootId_mem he])
    simp only [ctxIds, List.cons_append, List.nodup_cons, List.mem_append] at hnd
    simp only [AVLTree.retarget, hget, if_neg hne]
    refine ⟨?_, by trivial, by trivial, ?_⟩
    · have hB : ReprAt { heap := hupd s.heap p { value := pv, parent := gpar, left := sib.rootId, right := some j, height := ph }, root := s.root, size := s.size, nextId := s.nextId : AVLTree } (some p) sib := by
        refine hsib.mono ?_
        intro q hq
        show hupd s.heap p _ q = s.heap q
        refine hupd_other _ _ _ _ ?_
        intro he; subst he; exact hnd.1 (Or.inl hq)
      have hC : CtxRepr { heap := hupd s.heap p { value := pv, parent := gpar, left := sib.rootId, right := some j, height := ph }, root := s.root, size := s.size, nextId := s.nextId : AVLTree } d gpar (some p) := by
        refine hrest.monoC ?_ rfl
        intro q hq
        show hupd s.heap p _ q = s.heap q
        refine hupd_other _ _ _ _ ?_
        intro he; subst he; exact hnd.1 (Or.inr hq)
      exact CtxRepr.consR p pv ph sib (hupd_same _ _ _) hB hC
    · intro q hq
      show hupd s.heap p _ q = s.heap q
      refine hupd_other _ _ _ _ ?_
      intro he
      exact hq (by simp [ctxIds, he])

theorem childHeight_of_repr {s : AVLTree} {par : Option Nat} {t : FTree}
    (h : ReprAt s par t) (hh : t.HeightsOk) : s.childHeight t.rootId = t.hgt := by
  cases h with
  | nil => rfl
  | node par i v hh0 hheap hl hr =>
    show s.childHeight (some i) = _
    simp only [AVLTree.childHeight, get_of_heap hheap]
    rename_i l r
    have : hh0 = max l.hgt r.hgt + 1 := by
      have := hh
      simp only [FTree.HeightsOk] at this
      exact this.1
    simp [FTree.hgt, this]

/-- Distinctness bundle for a rotation site: the ids laid out as
`(A ++ j :: B) ++ i :: C` inside the subtree plus `D` for the context. -/
theorem nodup_rot {A B C D : List Nat} {i j : Nat}
    (h : (((A ++ j :: B) ++ i :: C) ++ D).Nodup) :
    (i ≠ j ∧ i ∉ A ∧ i ∉ B ∧ i ∉ C ∧ i ∉ D) ∧
    (j ∉ A ∧ j ∉ B ∧ j ∉ C ∧ j ∉ D) ∧
    (∀ x ∈ A, x ∉ B ∧ x ∉ C ∧ x ∉ D) ∧
    (∀ x ∈ B, x ∉ C ∧ x ∉ D) ∧
    (∀ x ∈ C, x ∉ D) ∧
    A.Nodup ∧ B.Nodup ∧ C.Nodup ∧ D.Nodup := by
  simp only [List.nodup_append, List.nodup_cons, List.mem_append, List.mem_cons,
    List.disjoint_left] at h
  obtain ⟨⟨⟨hA, ⟨hjB, hB⟩, hAjB⟩, ⟨hiC, hC⟩, hABjiC⟩, hD, hall⟩ := h
  refine ⟨⟨?_, ?_, ?_, hiC, ?_⟩, ⟨?_, hjB, ?_, ?_⟩, ?_, ?_, ?_, hA, hB, hC, hD⟩
  · intro he
    exact hABjiC (Or.inr (Or.inl rfl)) (Or.inl he.symm)
  · intro hx
    exact hABjiC (Or.inl hx) (Or.inl rfl)
  · intro hx
    exact hABjiC (Or.inr (Or.inr hx)) (Or.inl rfl)
  · exact hall (Or.inr (Or.inl rfl))
  · intro hx
    exact hAjB hx (Or.inl rfl)
  · intro hx
    exact hABjiC (Or.inr (Or.inl rfl)) (Or.inr hx)
  · exact hall (Or.inl (Or.inr (Or.inl rfl)))
  · intro x hx
    refine ⟨fun hb => hAjB hx (Or.inr hb), fun hc => hABjiC (Or.inl hx) (Or.inr hc),
      fun hd => hall (Or.inl (Or.inl hx)) hd⟩
  · intro x hx
    refine ⟨fun hc => hABjiC (Or.inr (Or.inr hx)) (Or.inr hc),
      fun hd => hall (Or.inl (Or.inr (Or.inr hx))) hd⟩
  · intro x hx
    exact fun hd => hall (Or.inr (Or.inr hx)) hd

/-- Final phase of `__rotate_right`: the two height recomputations on the
relinked arena, yielding the rotated tree's representation. -/
theorem rotate_assemble_right {S : AVLTree} {par : Option Nat} {ctx : Ctx}
    {a b c : FTree} {j i : Nat} {jv jh v hh : Int}
    (h6i : S.heap i = some ⟨v, some j, b.rootId, c.rootId, hh⟩)
    (h6j : S.heap j = some ⟨jv, par, a.rootId, some i, jh⟩)
    (hA : ReprAt S (some j) a) (hB : ReprAt S (some i) b) (hC : ReprAt S (some i) c)
    (hctx : CtxRepr S ctx par (some j))
    (hha : a.HeightsOk) (hhb : b.HeightsOk) (hhc : c.HeightsOk)
    (hij : i ≠ j) (hiA : i ∉ a.ids) (hjA : j ∉ a.ids)
    (hiB : i ∉ b.ids) (hjB : j ∉ b.ids) (hiC : i ∉ c.ids) (hjC : j ∉ c.ids)
    (hiD : i ∉ ctxIds ctx) (hjD : j ∉ ctxIds ctx) :
    ReprAt ((S.update_height i).update_height j) par
      (.node a j jv (max a.hgt (max b.hgt c.hgt + 1) + 1)
        (.node b i v (max b.hgt c.hgt + 1) c)) ∧
    CtxRepr ((S.update_height i).update_height j) ctx par (some j) ∧
    ((S.update_height i).update_height j).nextId = S.nextId ∧
    ((S.update_height i).update_height j).size = S.size ∧
    ((S.update_height i).update_height j).root = S.root ∧
    (∀ q, q ≠ i → q ≠ j → ((S.update_height i).update_height j).heap q = S.heap q) := by
  have hgi : S.get i = ⟨v, some j, b.rootId, c.rootId, hh⟩ := get_of_heap h6i
  have hcb : S.childHeight b.rootId = b.hgt := childHeight_of_repr hB hhb
  have hcc : S.childHeight c.rootId = c.hgt := childHeight_of_repr hC hhc
  have h7 : (S.update_height i).heap =
      hupd S.heap i ⟨v, some j, b.rootId, c.rootId, max b.hgt c.hgt + 1⟩ := by
    simp only [AVLTree.update_height, hgi]
    rw [hcb, hcc]
  have h7root : (S.update_height i).root = S.root := rfl
  have h7i : (S.update_height i).heap i =
      some ⟨v, some j, b.rootId, c.rootId, max b.hgt c.hgt + 1⟩ := by
    rw [h7, hupd_same]
  have h7j : (S.update_height i).heap j = S.heap j := by
    rw [h7]; exact hupd_other _ _ _ _ (Ne.symm hij)
  have h7frameA : ∀ q ∈ a.ids, (S.update_height i).heap q = S.heap q := by
    intro q hq
    rw [h7]
    refine hupd_other _ _ _ _ ?_
    intro he; subst he; exact hiA hq
  have h7A : ReprAt (S.update_height i) (some j) a := hA.mono h7frameA
  have h7getj : (S.update_height i).get j = ⟨jv, par, a.rootId, some i, jh⟩ := by
    rw [AVLTree.get, h7j, h6j]; rfl
  have h7ca : (S.update_height i).childHeight a.rootId = a.hgt :=
    childHeight_of_repr h7A hha
  have h7ci : (S.update_height i).childHeight (some i) = max b.hgt c.hgt + 1 := by
    simp only [AVLTree.childHeight, AVLTree.get, h7i]
    rfl
  set T := S.update_height i with hT
  have h8 : (T.update_height j).heap =
      hupd T.heap j
        ⟨jv, par, a.rootId, some i, max a.hgt (max b.hgt c.hgt + 1) + 1⟩ := by
    simp only [AVLTree.update_height, h7getj]
    rw [h7ca, h7ci]
  have h8i : (T.update_height j).heap i =
      some ⟨v, some j, b.rootId, c.rootId, max b.hgt c.hgt + 1⟩ := by
    rw [h8, hupd_other _ _ _ _ hij, h7i]
  have h8j : (T.update_height j).heap j =
      some ⟨jv, par, a.rootId, some i, max a.hgt (max b.hgt c.hgt + 1) + 1⟩ := by
    rw [h8, hupd_same]
  have hframe : ∀ q, q ≠ i → q ≠ j →
      (T.update_height j).heap q = S.heap q := by
    intro q hqi hqj
    rw [h8, hupd_other _ _ _ _ hqj, h7, hupd_other _ _ _ _ hqi]
  refine ⟨?_, ?_, rfl, rfl, rfl, hframe⟩
  · refine ReprAt.node par j jv _ ?_ ?_ ?_
    · exact h8j
    · refine hA.mono ?_
      intro q hq
      exact hframe q (fun he => hiA (he ▸ hq)) (fun he => hjA (he ▸ hq))
    · refine ReprAt.node (some j) i v _ ?_ ?_ ?_
      · exact h8i
      · refine hB.mono ?_
        intro q hq
        exact hframe q (fun he => hiB (he ▸ hq)) (fun he => hjB (he ▸ hq))
      · refine hC.mono ?_
        intro q hq
        exact hframe q (fun he => hiC (he ▸ hq)) (fun he => hjC (he ▸ hq))
  · refine hctx.monoC ?_ rfl
    intro q hq
    exact hframe q (fun he => hiD (he ▸ hq)) (fun he => hjD (he ▸ hq))

/-- Final phase of `__rotate_left`: mirror image. -/
theorem rotate_assemble_left {S : AVLTree} {par : Option Nat} {ctx : Ctx}
    {a b c : FTree} {k i : Nat} {kv kh v hh : Int}
    (h6i : S.heap i = some ⟨v, some k, a.rootId, b.rootId, hh⟩)
    (h6k : S.heap k = some ⟨kv, par, some i, c.rootId, kh⟩)
    (hA : ReprAt S (some i) a) (hB : ReprAt S (some i) b) (hC : ReprAt S (some k) c)
    (hctx : CtxRepr S ctx par (some k))
    (hha : a.HeightsOk) (hhb : b.HeightsOk) (hhc : c.HeightsOk)
    (hik : i ≠ k) (hiA : i ∉ a.ids) (hkA : k ∉ a.ids)
    (hiB : i ∉ b.ids) (hkB : k ∉ b.ids) (hiC : i ∉ c.ids) (hkC : k ∉ c.ids)
    (hiD : i ∉ ctxIds ctx) (hkD : k ∉ ctxIds ctx) :
    ReprAt ((S.update_height i).update_height k) par
      (.node (.node a i v (max a.hgt b.hgt + 1) b) k kv
        (max (max a.hgt b.hgt + 1) c.hgt + 1) c) ∧
    CtxRepr ((S.update_height i).update_height k) ctx par (some k) ∧
    ((S.update_height i).update_height k).nextId = S.nextId ∧
    ((S.update_height i).update_height k).size = S.size ∧
    ((S.update_height i).update_height k).root = S.root ∧
    (∀ q, q ≠ i → q ≠ k → ((S.update_height i).update_height k).heap q = S.heap q) := by
  have hgi : S.get i = ⟨v, some k, a.rootId, b.rootId, hh⟩ := get_of_heap h6i
  have hca : S.childHeight a.rootId = a.hgt := childHeight_of_repr hA hha
  have hcb : S.childHeight b.rootId = b.hgt := childHeight_of_repr hB hhb
  have h7 : (S.update_height i).heap =
      hupd S.heap i ⟨v, some k, a.rootId, b.rootId, max a.hgt b.hgt + 1⟩ := by
    simp only [AVLTree.update_height, hgi]
    rw [hca, hcb]
  have h7i : (S.update_height i).heap i =
      some ⟨v, some k, a.rootId, b.rootId, max a.hgt b.hgt + 1⟩ := by
    rw [h7, hupd_same]
  have h7k : (S.update_height i).heap k = S.heap k := by
    rw [h7]; exact hupd_other _ _ _ _ (Ne.symm hik)
  have h7frameC : ∀ q ∈ c.ids, (S.update_height i).heap q = S.heap q := by
    intro q hq
    rw [h7]
    refine hupd_other _ _ _ _ ?_
    intro he; subst he; exact hiC hq
  have h7C : ReprAt (S.update_height i) (some k) c := hC.mono h7frameC
  have h7getk : (S.update_height i).get k = ⟨kv, par, some i, c.rootId, kh⟩ := by
    rw [AVLTree.get, h7k, h6k]; rfl
  have h7cc : (S.update_height i).childHeight c.rootId = c.hgt :=
    childHeight_of_repr h7C hhc
  have h7ci : (S.update_height i).childHeight (some i) = max a.hgt b.hgt + 1 := by
    simp only [AVLTree.childHeight, AVLTree.get, h7i]
    rfl
  set T := S.update_height i with hT
  have h8 : (T.update_height k).heap =
      hupd T.heap k
        ⟨kv, par, some i, c.rootId, max (max a.hgt b.hgt + 1) c.hgt + 1⟩ := by
    simp only [AVLTree.update_height, h7getk]
    rw [h7cc, h7ci]
  have h8i : (T.update_height k).heap i =
      some ⟨v, some k, a.rootId, b.rootId, max a.hgt b.hgt + 1⟩ := by
    rw [h8, hupd_other _ _ _ _ hik, h7i]
  have h8k : (T.update_height k).heap k =
      some ⟨kv, par, some i, c.rootId, max (max a.hgt b.hgt + 1) c.hgt + 1⟩ := by
    rw [h8, hupd_same]
  have hframe : ∀ q, q ≠ i → q ≠ k →
      (T.update_height k).heap q = S.heap q := by
    intro q hqi hqk
    rw [h8, hupd_other _ _ _ _ hqk, h7, hupd_other _ _ _ _ hqi]
  refine ⟨?_, ?_, rfl, rfl, rfl, hframe⟩
  · refine ReprAt.node par k kv _ ?_ ?_ ?_
    · exact h8k
    · refine ReprAt.node (some k) i v _ ?_ ?_ ?_
      · exact h8i
      · refine hA.mono ?_
        intro q hq
        exact hframe q (fun he => hiA (he ▸ hq)) (fun he => hkA (he ▸ hq))
      · refine hB.mono ?_
        intro q hq
        exact hframe q (fun he => hiB (he ▸ hq)) (fun he => hkB (he ▸ hq))
    · refine hC.mono ?_
      intro q hq
      exact hframe q (fun he => hiC (he ▸ hq)) (fun he => hkC (he ▸ hq))
  · refine hctx.monoC ?_ rfl
    intro q hq
    exact hframe q (fun he => hiD (he ▸ hq)) (fun he => hkD (he ▸ hq))

/-- `__rotate_right` on a represented subtree `node (node a j b) i c` in an
arbitrary context: the arena afterwards represents `node a j (node b i c)`
with both recomputed heights, and the context now points at `j`. -/
theorem rotate_right_spec {s : AVLTree} {par : Option Nat} {ctx : Ctx}
    {a b c : FTree} {j i : Nat} {jv jh v hh : Int}
    (hrep : ReprAt s par (.node (.node a j jv jh b) i v hh c))
    (hctx : CtxRepr s ctx par (some i))
    (hnd : (plugT ctx (FTree.node (.node a j jv jh b) i v hh c)).ids.Nodup)
    (hbd : Bounded s)
    (hha : a.HeightsOk) (hhb : b.HeightsOk) (hhc : c.HeightsOk) :
    ∃ s', s.rotate_right i = .ok s' ∧
      ReprAt s' par (.node a j jv (max a.hgt (max b.hgt c.hgt + 1) + 1)
        (.node b i v (max b.hgt c.hgt + 1) c)) ∧
      CtxRepr s' ctx par (some j) ∧
      s'.nextId = s.nextId ∧ s'.size = s.size ∧ Bounded s' := by
  have hperm := (ids_plugT_perm ctx _).nodup hnd
  simp only [FTree.ids] at hperm
  have hF := nodup_rot (A := a.ids) (B := b.ids) (C := c.ids) (D := ctxIds ctx)
    (i := i) (j := j) (by
      refine List.Perm.nodup ?_ hperm
      simp [List.append_assoc])
  obtain ⟨⟨hij, hiA, hiB, hiC, hiD⟩, ⟨hjA, hjB, hjC, hjD⟩, hAB, hBC, hCD,
    hndA, hndB, hndC, hndD⟩ := hF
  cases hrep
  rename_i hL hRc hHi
  cases hL
  rename_i hA0 hB0 hHj
  have hHi' : s.heap i = some ⟨v, par, some j, c.rootId, hh⟩ := by
    simpa [FTree.rootId] using hHi
  have hHj' : s.heap j = some ⟨jv, some i, a.rootId, b.rootId, jh⟩ := hHj
  have hiLT : i < s.nextId := by
    by_contra hlt
    rw [hbd i (by omega)] at hHi'
    exact Option.noConfusion hHi'
  have hjLT : j < s.nextId := by
    by_contra hlt
    rw [hbd j (by omega)] at hHj'
    exact Option.noConfusion hHj'
  have hDlt : ∀ q ∈ ctxIds ctx, q < s.nextId := by
    intro q hq
    obtain ⟨n, hn⟩ := hctx.ids_sub q hq
    by_contra hlt
    rw [hbd q (by omega)] at hn
    exact Option.noConfusion hn
  cases b with
  | nil =>
    set S5 : AVLTree := ⟨hupd (hupd (hupd (hupd s.heap j ⟨jv, some i, a.rootId, some i, jh⟩)
        i ⟨v, par, none, c.rootId, hh⟩) j ⟨jv, par, a.rootId, some i, jh⟩)
        i ⟨v, some j, none, c.rootId, hh⟩, s.root, s.size, s.nextId⟩ with hS5def
    have hrun : s.rotate_right i =
        .ok (((S5.retarget par i j).update_height i).update_height j) := by
      rw [AVLTree.rotate_right]
      cases par with
      | none =>
        simp only [hS5def, hHi', hHj', FTree.rootId, AVLTree.retarget,
          AVLTree.get, hupd, hij, Ne.symm hij, Option.getD_some, ite_true, ite_false]
      | some p =>
        simp only [hS5def, hHi', hHj', FTree.rootId, AVLTree.retarget,
          AVLTree.get, hupd, hij, Ne.symm hij, Option.getD_some, ite_true, ite_false]
    have hS5frameD : ∀ q ∈ ctxIds ctx, S5.heap q = s.heap q := by
      intro q hq
      rw [hS5def]
      show hupd _ _ _ q = _
      rw [hupd_other _ _ _ _ (by intro he; subst he; exact hiD hq),
          hupd_other _ _ _ _ (by intro he; subst he; exact hjD hq),
          hupd_other _ _ _ _ (by intro he; subst he; exact hiD hq),
          hupd_other _ _ _ _ (by intro he; subst he; exact hjD hq)]
    have hS5other : ∀ q, q ≠ i → q ≠ j → S5.heap q = s.heap q := by
      intro q h1 h2
      rw [hS5def]
      show hupd _ _ _ q = _
      rw [hupd_other _ _ _ _ h1, hupd_other _ _ _ _ h2,
          hupd_other _ _ _ _ h1, hupd_other _ _ _ _ h2]
    have hS5i : S5.heap i = some ⟨v, some j, none, c.rootId, hh⟩ := by
      rw [hS5def]; exact hupd_same _ _ _
    have hS5j : S5.heap j = some ⟨jv, par, a.rootId, some i, jh⟩ := by
      rw [hS5def]
      show hupd _ _ _ j = _
      rw [hupd_other _ _ _ _ (Ne.symm hij), hupd_same]
    have hctx5 : CtxRepr S5 ctx par (some i) := hctx.monoC hS5frameD (by rw [hS5def])
    have hrt := ctx_retarget hctx5 hiD hndD j
    obtain ⟨hctx6, hnid6, hsz6, hfr6⟩ := hrt
    have h6i : (S5.retarget par i j).heap i =
        some ⟨v, some j, FTree.nil.rootId, c.rootId, hh⟩ := by
      rw [hfr6 i hiD, hS5i]; rfl
    have h6j : (S5.retarget par i j).heap j =
        some ⟨jv, par, a.rootId, some i, jh⟩ := by
      rw [hfr6 j hjD, hS5j]
    have hA6 : ReprAt (S5.retarget par i j) (some j) a := by
      refine hA0.mono ?_
      intro q hq
      rw [hfr6 q (hAB q hq).2.2,
        hS5other q (by intro he; subst he; exact hiA hq) (by intro he; subst he; exact hjA hq)]
    have hC6 : ReprAt (S5.retarget par i j) (some i) c := by
      refine hRc.mono ?_
      intro q hq
      rw [hfr6 q (hCD q hq),
        hS5other q (by intro he; subst he; exact hiC hq) (by intro he; subst he; exact hjC hq)]
    have hasm := rotate_assemble_right h6i h6j hA6 (ReprAt.nil _) hC6 hctx6
      hha hhb hhc hij hiA hjA hiB hjB hiC hjC hiD hjD
    have hS5nid : S5.nextId = s.nextId := by rw [hS5def]
    have hS5sz : S5.size = s.size := by rw [hS5def]
    refine ⟨_, hrun, hasm.1, hasm.2.1, ?_, ?_, ?_⟩
    · rw [hasm.2.2.1, hnid6, hS5nid]
    · rw [hasm.2.2.2.1, hsz6, hS5sz]
    · intro q hq
      rw [hasm.2.2.1, hnid6, hS5nid] at hq
      have hq1 : q ≠ i := by intro he; subst he; omega
      have hq2 : q ≠ j := by intro he; subst he; omega
      rw [hasm.2.2.2.2.2 q hq1 hq2, hfr6 q (fun hmem => by have := hDlt q hmem; omega),
          hS5other q hq1 hq2]
      exact hbd q (by omega)
  | node bl bg bv bh2 br =>
    cases hB0
    rename_i hBL hBR hHbg
    have hbgB : bg ∈ (bl.node bg bv bh2 br).ids := by simp [FTree.ids]
    have hibg : i ≠ bg := fun he => hiB (he ▸ hbgB)
    have hjbg : j ≠ bg := fun he => hjB (he ▸ hbgB)
    have hbgC : bg ∉ c.ids := (hBC bg hbgB).1
    have hbgD : bg ∉ ctxIds ctx := (hBC bg hbgB).2
    have hbgA : bg ∉ a.ids := fun hm => (hAB bg hm).1 hbgB
    have hndB' := hndB
    simp only [FTree.ids, List.nodup_append, List.nodup_cons, List.disjoint_left,
      List.mem_cons] at hndB'
    obtain ⟨hndBL, ⟨hbgBR, hndBR⟩, hdisjB⟩ := hndB'
    have hbgBL : bg ∉ bl.ids := fun hm => hdisjB hm (Or.inl rfl)
    have hbgLT : bg < s.nextId := by
      by_contra hlt
      rw [hbd bg (by omega)] at hHbg
      exact Option.noConfusion hHbg
    set S5 : AVLTree := ⟨hupd (hupd (hupd (hupd (hupd s.heap
        j ⟨jv, some i, a.rootId, some i, jh⟩)
        i ⟨v, par, some bg, c.rootId, hh⟩)
        j ⟨jv, par, a.rootId, some i, jh⟩)
        i ⟨v, some j, some bg, c.rootId, hh⟩)
        bg ⟨bv, some i, bl.rootId, br.rootId, bh2⟩,
        s.root, s.size, s.nextId⟩ with hS5def
    have hrun : s.rotate_right i =
        .ok (((S5.retarget par i j).update_height i).update_height j) := by
      rw [AVLTree.rotate_right]
      cases par with
      | none =>
        simp only [hS5def, hHi', hHj', hHbg, FTree.rootId, AVLTree.retarget,
          AVLTree.get, hupd, hij, Ne.symm hij, hibg, Ne.symm hibg, hjbg, Ne.symm hjbg,
          Option.getD_some, ite_true, ite_false]
      | some p =>
        simp only [hS5def, hHi', hHj', hHbg, FTree.rootId, AVLTree.retarget,
          AVLTree.get, hupd, hij, Ne.symm hij, hibg, Ne.symm hibg, hjbg, Ne.symm hjbg,
          Option.getD_some, ite_true, ite_false]
    have hS5frameD : ∀ q ∈ ctxIds ctx, S5.heap q = s.heap q := by
      intro q hq
      rw [hS5def]
      show hupd _ _ _ q = _
      rw [hupd_other _ _ _ _ (by intro he; subst he; exact hbgD hq),
          hupd_other _ _ _ _ (by intro he; subst he; exact hiD hq),
          hupd_other _ _ _ _ (by intro he; subst he; exact hjD hq),
          hupd_other _ _ _ _ (by intro he; subst he; exact hiD hq),
          hupd_other _ _ _ _ (by intro he; subst he; exact hjD hq)]
    have hS5other : ∀ q, q ≠ i → q ≠ j → q ≠ bg → S5.heap q = s.heap q := by
      intro q h1 h2 h3
      rw [hS5def]
      show hupd _ _ _ q = _
      rw [hupd_other _ _ _ _ h3, hupd_other _ _ _ _ h1, hupd_other _ _ _ _ h2,
          hupd_other _ _ _ _ h1, hupd_other _ _ _ _ h2]
    have hS5i : S5.heap i = some ⟨v, some j, some bg, c.rootId, hh⟩ := by
      rw [hS5def]
      show hupd _ _ _ i = _
      rw [hupd_other _ _ _ _ hibg, hupd_same]
    have hS5j : S5.heap j = some ⟨jv, par, a.rootId, some i, jh⟩ := by
      rw [hS5def]
      show hupd _ _ _ j = _
      rw [hupd_other _ _ _ _ hjbg, hupd_other _ _ _ _ (Ne.symm hij), hupd_same]
    have hS5bg : S5.heap bg = some ⟨bv, some i, bl.rootId, br.rootId, bh2⟩ := by
      rw [hS5def]; exact hupd_same _ _ _
    have hctx5 : CtxRepr S5 ctx par (some i) := hctx.monoC hS5frameD (by rw [hS5def])
    have hrt := ctx_retarget hctx5 hiD hndD j
    obtain ⟨hctx6, hnid6, hsz6, hfr6⟩ := hrt
    have h6i : (S5.retarget par i j).heap i =
        some ⟨v, some j, (bl.node bg bv bh2 br).rootId, c.rootId, hh⟩ := by
      rw [hfr6 i hiD, hS5i]; rfl
    have h6j : (S5.retarget par i j).heap j =
        some ⟨jv, par, a.rootId, some i, jh⟩ := by
      rw [hfr6 j hjD, hS5j]
    have hA6 : ReprAt (S5.retarget par i j) (some j) a := by
      refine hA0.mono ?_
      intro q hq
      rw [hfr6 q (hAB q hq).2.2,
        hS5other q (by intro he; subst he; exact hiA hq) (by intro he; subst he; exact hjA hq)
          (by intro he; subst he; exact hbgA hq)]
    have hC6 : ReprAt (S5.retarget par i j) (some i) c := by
      refine hRc.mono ?_
      intro q hq
      rw [hfr6 q (hCD q hq),
        hS5other q (by intro he; subst he; exact hiC hq) (by intro he; subst he; exact hjC hq)
          (by intro he; subst he; exact hbgC hq)]
    have hB6 : ReprAt (S5.retarget par i j) (some i) (bl.node bg bv bh2 br) := by
      refine ReprAt.node (some i) bg bv bh2 ?_ ?_ ?_
      · rw [hfr6 bg hbgD, hS5bg]
      · refine hBL.mono ?_
        intro q hq
        have hqB : q ∈ (bl.node bg bv bh2 br).ids := by
          simpa [FTree.ids] using Or.inl hq
        rw [hfr6 q (hBC q hqB).2,
          hS5other q (by intro he; subst he; exact hiB hqB)
            (by intro he; subst he; exact hjB hqB)
            (by intro he; subst he; exact hbgBL hq)]
      · refine hBR.mono ?_
        intro q hq
        have hqB : q ∈ (bl.node bg bv bh2 br).ids := by
          simpa [FTree.ids] using Or.inr (Or.inr hq)
        rw [hfr6 q (hBC q hqB).2,
          hS5other q (by intro he; subst he; exact hiB hqB)
            (by intro he; subst he; exact hjB hqB)
            (by intro he; subst he; exact hbgBR hq)]
    have hasm := rotate_assemble_right h6i h6j hA6 hB6 hC6 hctx6
      hha hhb hhc hij hiA hjA hiB hjB hiC hjC hiD hjD
    have hS5nid : S5.nextId = s.nextId := by rw [hS5def]
    have hS5sz : S5.size = s.size := by rw [hS5def]
    refine ⟨_, hrun, hasm.1, hasm.2.1, ?_, ?_, ?_⟩
    · rw [hasm.2.2.1, hnid6, hS5nid]
    · rw [hasm.2.2.2.1, hsz6, hS5sz]
    · intro q hq
      rw [hasm.2.2.1, hnid6, hS5nid] at hq
      have hq1 : q ≠ i := by intro he; subst he; omega
      have hq2 : q ≠ j := by intro he; subst he; omega
      have hq3 : q ≠ bg := by intro he; subst he; omega
      rw [hasm.2.2.2.2.2 q hq1 hq2, hfr6 q (fun hmem => by have := hDlt q hmem; omega),
          hS5other q hq1 hq2 hq3]
      exact hbd q (by omega)

/-- `__rotate_left` on a represented subtree `node a i (node b k c)` in an
arbitrary context: the arena afterwards represents `node (node a i b) k c`
with both recomputed heights, and the context now points at `k`. -/
theorem rotate_left_spec {s : AVLTree} {par : Option Nat} {ctx : Ctx}
    {a b c : FTree} {k i : Nat} {kv kh v hh : Int}
    (hrep : ReprAt s par (.node a i v hh (.node b k kv kh c)))
    (hctx : CtxRepr s ctx par (some i))
    (hnd : (plugT ctx (FTree.node a i v hh (.node b k kv kh c))).ids.Nodup)
    (hbd : Bounded s)
    (hha : a.HeightsOk) (hhb : b.HeightsOk) (hhc : c.HeightsOk) :
    ∃ s', s.rotate_left i = .ok s' ∧
      ReprAt s' par (.node (.node a i v (max a.hgt b.hgt + 1) b) k kv
        (max (max a.hgt b.hgt + 1) c.hgt + 1) c) ∧
      CtxRepr s' ctx par (some k) ∧
      s'.nextId = s.nextId ∧ s'.size = s.size ∧ Bounded s' := by
  have hperm := (ids_plugT_perm ctx _).nodup hnd
  simp only [FTree.ids] at hperm
  have hF := nodup_rot (A := a.ids) (B := b.ids) (C := c.ids) (D := ctxIds ctx)
    (i := k) (j := i) (by
      refine List.Perm.nodup ?_ hperm
      simp [List.append_assoc])
  obtain ⟨⟨hki, hkA, hkB, hkC, hkD⟩, ⟨hiA, hiB, hiC, hiD⟩, hAB, hBC, hCD,
    hndA, hndB, hndC, hndD⟩ := hF
  have hik : i ≠ k := Ne.symm hki
  cases hrep
  rename_i hA0 hR hHi
  cases hR
  rename_i hB0 hC0 hHk
  have hHi' : s.heap i = some ⟨v, par, a.rootId, some k, hh⟩ := by
    simpa [FTree.rootId] using hHi
  have hHk' : s.heap k = some ⟨kv, some i, b.rootId, c.rootId, kh⟩ := hHk
  have hiLT : i < s.nextId := by
    by_contra hlt
    rw [hbd i (by omega)] at hHi'
    exact Option.noConfusion hHi'
  have hkLT : k < s.nextId := by
    by_contra hlt
    rw [hbd k (by omega)] at hHk'
    exact Option.noConfusion hHk'
  have hDlt : ∀ q ∈ ctxIds ctx, q < s.nextId := by
    intro q hq
    obtain ⟨n, hn⟩ := hctx.ids_sub q hq
    by_contra hlt
    rw [hbd q (by omega)] at hn
    exact Option.noConfusion hn
  cases b with
  | nil =>
    set S5 : AVLTree := ⟨hupd (hupd (hupd (hupd s.heap k ⟨kv, some i, some i, c.rootId, kh⟩)
        i ⟨v, par, a.rootId, none, hh⟩) k ⟨kv, par, some i, c.rootId, kh⟩)
        i ⟨v, some k, a.rootId, none, hh⟩, s.root, s.size, s.nextId⟩ with hS5def
    have hrun : s.rotate_left i =
        .ok (((S5.retarget par i k).update_height i).update_height k) := by
      rw [AVLTree.rotate_left]
      cases par with
      | none =>
        simp only [hS5def, hHi', hHk', FTree.rootId, AVLTree.retarget,
          AVLTree.get, hupd, hik, Ne.symm hik, Option.getD_some, ite_true, ite_false]
      | some p =>
        simp only [hS5def, hHi', hHk', FTree.rootId, AVLTree.retarget,
          AVLTree.get, hupd, hik, Ne.symm hik, Option.getD_some, ite_true, ite_false]
    have hS5frameD : ∀ q ∈ ctxIds ctx, S5.heap q = s.heap q := by
      intro q hq
      rw [hS5def]
      show hupd _ _ _ q = _
      rw [hupd_other _ _ _ _ (by intro he; subst he; exact hiD hq),
          hupd_other _ _ _ _ (by intro he; subst he; exact hkD hq),
          hupd_other _ _ _ _ (by intro he; subst he; exact hiD hq),
          hupd_other _ _ _ _ (by intro he; subst he; exact hkD hq)]
    have hS5other : ∀ q, q ≠ i → q ≠ k → S5.heap q = s.heap q := by
      intro q h1 h2
      rw [hS5def]
      show hupd _ _ _ q = _
      rw [hupd_other _ _ _ _ h1, hupd_other _ _ _ _ h2,
          hupd_other _ _ _ _ h1, hupd_other _ _ _ _ h2]
    have hS5i : S5.heap i = some ⟨v, some k, a.rootId, none, hh⟩ := by
      rw [hS5def]; exact hupd_same _ _ _
    have hS5k : S5.heap k = some ⟨kv, par, some i, c.rootId, kh⟩ := by
      rw [hS5def]
      show hupd _ _ _ k = _
      rw [hupd_other _ _ _ _ hki, hupd_same]
    have hctx5 : CtxRepr S5 ctx par (some i) := hctx.monoC hS5frameD (by rw [hS5def])
    have hrt := ctx_retarget hctx5 hiD hndD k
    obtain ⟨hctx6, hnid6, hsz6, hfr6⟩ := hrt
    have h6i : (S5.retarget par i k).heap i =
        some ⟨v, some k, a.rootId, FTree.nil.rootId, hh⟩ := by
      rw [hfr6 i hiD, hS5i]; rfl
    have h6k : (S5.retarget par i k).heap k =
        some ⟨kv, par, some i, c.rootId, kh⟩ := by
      rw [hfr6 k hkD, hS5k]
    have hA6 : ReprAt (S5.retarget par i k) (some i) a := by
      refine hA0.mono ?_
      intro q hq
      rw [hfr6 q (hAB q hq).2.2,
        hS5other q (by intro he; subst he; exact hiA hq) (by intro he; subst he; exact hkA hq)]
    have hC6 : ReprAt (S5.retarget par i k) (some k) c := by
      refine hC0.mono ?_
      intro q hq
      rw [hfr6 q (hCD q hq),
        hS5other q (by intro he; subst he; exact hiC hq) (by intro he; subst he; exact hkC hq)]
    have hasm := rotate_assemble_left h6i h6k hA6 (ReprAt.nil _) hC6 hctx6
      hha hhb hhc hik hiA hkA hiB hkB hiC hkC hiD hkD
    have hS5nid : S5.nextId = s.nextId := by rw [hS5def]
    have hS5sz : S5.size = s.size := by rw [hS5def]
    refine ⟨_, hrun, hasm.1, hasm.2.1, ?_, ?_, ?_⟩
    · rw [hasm.2.2.1, hnid6, hS5nid]
    · rw [hasm.2.2.2.1, hsz6, hS5sz]
    · intro q hq
      rw [hasm.2.2.1, hnid6, hS5nid] at hq
      have hq1 : q ≠ i := by intro he; subst he; omega
      have hq2 : q ≠ k := by intro he; subst he; omega
      rw [hasm.2.2.2.2.2 q hq1 hq2, hfr6 q (fun hmem => by have := hDlt q hmem; omega),
          hS5other q hq1 hq2]
      exact hbd q (by omega)
  | node bl bg bv bh2 br =>
    cases hB0
    rename_i hBL hBR hHbg
    have hbgB : bg ∈ (bl.node bg bv bh2 br).ids := by simp [FTree.ids]
    have hibg : i ≠ bg := fun he => hiB (he ▸ hbgB)
    have hkbg : k ≠ bg := fun he => hkB (he ▸ hbgB)
    have hbgC : bg ∉ c.ids := (hBC bg hbgB).1
    have hbgD : bg ∉ ctxIds ctx := (hBC bg hbgB).2
    have hbgA : bg ∉ a.ids := fun hm => (hAB bg hm).1 hbgB
    have hndB' := hndB
    simp only [FTree.ids, List.nodup_append, List.nodup_cons, List.disjoint_left,
      List.mem_cons] at hndB'
    obtain ⟨hndBL, ⟨hbgBR, hndBR⟩, hdisjB⟩ := hndB'
    have hbgBL : bg ∉ bl.ids := fun hm => hdisjB hm (Or.inl rfl)
    have hbgLT : bg < s.nextId := by
      by_contra hlt
      rw [hbd bg (by omega)] at hHbg
      exact Option.noConfusion hHbg
    set S5 : AVLTree := ⟨hupd (hupd (hupd (hupd (hupd s.heap
        k ⟨kv, some i, some i, c.rootId, kh⟩)
        i ⟨v, par, a.rootId, some bg, hh⟩)
        k ⟨kv, par, some i, c.rootId, kh⟩)
        i ⟨v, some k, a.rootId, some bg, hh⟩)
        bg ⟨bv, some i, bl.rootId, br.rootId, bh2⟩,
        s.root, s.size, s.nextId⟩ with hS5def
    have hrun : s.rotate_left i =
        .ok (((S5.retarget par i k).update_height i).update_height k) := by
      rw [AVLTree.rotate_left]
      cases par with
      | none =>
        simp only [hS5def, hHi', hHk', hHbg, FTree.rootId, AVLTree.retarget,
          AVLTree.get, hupd, hik, Ne.symm hik, hibg, Ne.symm hibg, hkbg, Ne.symm hkbg,
          Option.getD_some, ite_true, ite_false]
      | some p =>
        simp only [hS5def, hHi', hHk', hHbg, FTree.rootId, AVLTree.retarget,
          AVLTree.get, hupd, hik, Ne.symm hik, hibg, Ne.symm hibg, hkbg, Ne.symm hkbg,
          Option.getD_some, ite_true, ite_false]
    have hS5frameD : ∀ q ∈ ctxIds ctx, S5.heap q = s.heap q := by
      intro q hq
      rw [hS5def]
      show hupd _ _ _ q = _
      rw [hupd_other _ _ _ _ (by intro he; subst he; exact hbgD hq),
          hupd_other _ _ _ _ (by intro he; subst he; exact hiD hq),
          hupd_other _ _ _ _ (by intro he; subst he; exact hkD hq),
          hupd_other _ _ _ _ (by intro he; subst he; exact hiD hq),
          hupd_other _ _ _ _ (by intro he; subst he; exact hkD hq)]
    have hS5other : ∀ q, q ≠ i → q ≠ k → q ≠ bg → S5.heap q = s.heap q := by
      intro q h1 h2 h3
      rw [hS5def]
      show hupd _ _ _ q = _
      rw [hupd_other _ _ _ _ h3, hupd_other _ _ _ _ h1, hupd_other _ _ _ _ h2,
          hupd_other _ _ _ _ h1, hupd_other _ _ _ _ h2]
    have hS5i : S5.heap i = some ⟨v, some k, a.rootId, some bg, hh⟩ := by
      rw [hS5def]
      show hupd _ _ _ i = _
      rw [hupd_other _ _ _ _ hibg, hupd_same]
    have hS5k : S5.heap k = some ⟨kv, par, some i, c.rootId, kh⟩ := by
      rw [hS5def]
      show hupd _ _ _ k = _
      rw [hupd_other _ _ _ _ hkbg, hupd_other _ _ _ _ hki, hupd_same]
    have hS5bg : S5.heap bg = some ⟨bv, some i, bl.rootId, br.rootId, bh2⟩ := by
      rw [hS5def]; exact hupd_same _ _ _
    have hctx5 : CtxRepr S5 ctx par (some i) := hctx.monoC hS5frameD (by rw [hS5def])
    have hrt := ctx_retarget hctx5 hiD hndD k
    obtain ⟨hctx6, hnid6, hsz6, hfr6⟩ := hrt
    have h6i : (S5.retarget par i k).heap i =
        some ⟨v, some k, a.rootId, (bl.node bg bv bh2 br).rootId, hh⟩ := by
      rw [hfr6 i hiD, hS5i]; rfl
    have h6k : (S5.retarget par i k).heap k =
        some ⟨kv, par, some i, c.rootId, kh⟩ := by
      rw [hfr6 k hkD, hS5k]
    have hA6 : ReprAt (S5.retarget par i k) (some i) a := by
      refine hA0.mono ?_
      intro q hq
      rw [hfr6 q (hAB q hq).2.2,
        hS5other q (by intro he; subst he; exact hiA hq) (by intro he; subst he; exact hkA hq)
          (by intro he; subst he; exact hbgA hq)]
    have hC6 : ReprAt (S5.retarget par i k) (some k) c := by
      refine hC0.mono ?_
      intro q hq
      rw [hfr6 q (hCD q hq),
        hS5other q (by intro he; subst he; exact hiC hq) (by intro he; subst he; exact hkC hq)
          (by intro he; subst he; exact hbgC hq)]
    have hB6 : ReprAt (S5.retarget par i k) (some i) (bl.node bg bv bh2 br) := by
      refine ReprAt.node (some i) bg bv bh2 ?_ ?_ ?_
      · rw [hfr6 bg hbgD, hS5bg]
      · refine hBL.mono ?_
        intro q hq
        have hqB : q ∈ (bl.node bg bv bh2 br).ids := by
          simpa [FTree.ids] using Or.inl hq
        rw [hfr6 q (hBC q hqB).2,
          hS5other q (by intro he; subst he; exact hiB hqB)
            (by intro he; subst he; exact hkB hqB)
            (by intro he; subst he; exact hbgBL hq)]
      · refine hBR.mono ?_
        intro q hq
        have hqB : q ∈ (bl.node bg bv bh2 br).ids := by
          simpa [FTree.ids] using Or.inr (Or.inr hq)
        rw [hfr6 q (hBC q hqB).2,
          hS5other q (by intro he; subst he; exact hiB hqB)
            (by intro he; subst he; exact hkB hqB)
            (by intro he; subst he; exact hbgBR hq)]
    have hasm := rotate_assemble_left h6i h6k hA6 hB6 hC6 hctx6
      hha hhb hhc hik hiA hkA hiB hkB hiC hkC hiD hkD
    have hS5nid : S5.nextId = s.nextId := by rw [hS5def]
    have hS5sz : S5.size = s.size := by rw [hS5def]
    refine ⟨_, hrun, hasm.1, hasm.2.1, ?_, ?_, ?_⟩
    · rw [hasm.2.2.1, hnid6, hS5nid]
    · rw [hasm.2.2.2.1, hsz6, hS5sz]
    · intro q hq
      rw [hasm.2.2.1, hnid6, hS5nid] at hq
      have hq1 : q ≠ i := by intro he; subst he; omega
      have hq2 : q ≠ k := by intro he; subst he; omega
      have hq3 : q ≠ bg := by intro he; subst he; omega
      rw [hasm.2.2.2.2.2 q hq1 hq2, hfr6 q (fun hmem => by have := hDlt q hmem; omega),
          hS5other q hq1 hq2 hq3]
      exact hbd q (by omega)

/-! ## The rebalancing walk of `__balance` -/

theorem ctx_length_le_ctxIds (ctx : Ctx) : ctx.length ≤ (ctxIds ctx).length := by
  induction ctx with
  | nil => simp [ctxIds]
  | cons f rest ih =>
    cases f with
    | fl i v h sib =>
      simp only [ctxIds, List.length_cons, List.cons_append, List.length_append] at *
      omega
    | fr i v h sib =>
      simp only [ctxIds, List.length_cons, List.cons_append, List.length_append] at *
      omega

theorem ctxIds_length_le {s : AVLTree} {ctx : Ctx} {par hole : Option Nat}
    (h : CtxRepr s ctx par hole) (hb : Bounded s) (hnd : (ctxIds ctx).Nodup) :
    (ctxIds ctx).length ≤ s.nextId := by
  have hlt : ∀ j ∈ ctxIds ctx, j < s.nextId := by
    intro j hj
    obtain ⟨n, hn⟩ := h.ids_sub j hj
    by_contra hl
    rw [hb j (by omega)] at hn
    exact Option.noConfusion hn
  have hsub : (ctxIds ctx).toFinset ⊆ Finset.range s.nextId := by
    intro j hj
    simp only [List.mem_toFinset] at hj
    simpa using hlt j hj
  have hcard := Finset.card_le_card hsub
  rwa [List.toFinset_card_of_nodup hnd, Finset.card_range] at hcard

/-- `Node.balance_factor` at a represented node, in terms of the
children's true heights. -/
theorem balance_factor_node {s : AVLTree} {par : Option Nat} {l r : FTree}
    {i : Nat} {v hS : Int}
    (hrep : ReprAt s par (.node l i v hS r))
    (hhl : l.HeightsOk) (hhr : r.HeightsOk) :
    s.balance_factor i = r.hgt - l.hgt := by
  cases hrep
  rename_i hL hR hH
  simp only [AVLTree.balance_factor, get_of_heap hH]
  rw [childHeight_of_repr hL hhl, childHeight_of_repr hR hhr]

/-- Effect of `__update_height` at the start of a walk iteration: the
stored height of the visited node becomes `1 + max` of its children's
true heights; everything else is untouched. -/
theorem update_height_step {s : AVLTree} {par : Option Nat} {ctx : Ctx}
    {l r : FTree} {i : Nat} {v hS : Int}
    (hrep : ReprAt s par (.node l i v hS r))
    (hctx : CtxRepr s ctx par (some i))
    (hnd : (plugT ctx (FTree.node l i v hS r)).ids.Nodup)
    (hbd : Bounded s)
    (hhl : l.HeightsOk) (hhr : r.HeightsOk) :
    ReprAt (s.update_height i) par (.node l i v (max l.hgt r.hgt + 1) r) ∧
    CtxRepr (s.update_height i) ctx par (some i) ∧
    (s.update_height i).root = s.root ∧
    (s.update_height i).size = s.size ∧
    (s.update_height i).nextId = s.nextId ∧
    Bounded (s.update_height i) ∧
    (s.update_height i).heap i =
      some ⟨v, par, l.rootId, r.rootId, max l.hgt r.hgt + 1⟩ := by
  have hperm := (ids_plugT_perm ctx _).nodup hnd
  have hAnd : ((l.ids ++ i :: r.ids) ++ ctxIds ctx).Nodup := by
    simpa [FTree.ids] using hperm
  have hiD : i ∉ ctxIds ctx :=
    fun hm => (List.disjoint_of_nodup_append hAnd) (by simp) hm
  have hA : (l.ids ++ i :: r.ids).Nodup := hAnd.of_append_left
  have hiL : i ∉ l.ids :=
    fun hm => (List.disjoint_of_nodup_append hA) hm (by simp)
  have hiR : i ∉ r.ids := (List.nodup_cons.1 hA.of_append_right).1
  cases hrep
  rename_i hL hR hH
  have hcl := childHeight_of_repr hL hhl
  have hcr := childHeight_of_repr hR hhr
  have hheq : (s.update_height i).heap =
      hupd s.heap i ⟨v, par, l.rootId, r.rootId, max l.hgt r.hgt + 1⟩ := by
    simp only [AVLTree.update_height, get_of_heap hH]
    rw [hcl, hcr]
  have hfr : ∀ q, q ≠ i → (s.update_height i).heap q = s.heap q := by
    intro q hq
    rw [hheq]
    exact hupd_other _ _ _ _ hq
  have hi' : (s.update_height i).heap i =
      some ⟨v, par, l.rootId, r.rootId, max l.hgt r.hgt + 1⟩ := by
    rw [hheq]; exact hupd_same _ _ _
  have hiLT : i < s.nextId := by
    by_contra hlt
    rw [hbd i (by omega)] at hH
    exact Option.noConfusion hH
  refine ⟨?_, ?_, rfl, rfl, rfl, ?_, hi'⟩
  · refine ReprAt.node par i v _ hi' ?_ ?_
    · exact hL.mono (fun q hq => hfr q (fun he => hiL (he ▸ hq)))
    · exact hR.mono (fun q hq => hfr q (fun he => hiR (he ▸ hq)))
  · exact hctx.monoC (fun q hq => hfr q (fun he => hiD (he ▸ hq))) rfl
  · intro q hq
    have hq' : s.nextId ≤ q := hq
    rw [hfr q (by omega)]
    exact hbd q hq'

theorem FTree.keys_rotR (a b c : FTree) (j i : Nat) (jv jh v hh h1 h2 : Int) :
    (FTree.node a j jv h1 (.node b i v h2 c)).keys =
    (FTree.node (.node a j jv jh b) i v hh c).keys := by
  simp [keys, List.append_assoc]

theorem FTree.ids_rotR (a b c : FTree) (j i : Nat) (jv jh v hh h1 h2 : Int) :
    (FTree.node a j jv h1 (.node b i v h2 c)).ids =
    (FTree.node (.node a j jv jh b) i v hh c).ids := by
  simp [ids, List.append_assoc]

theorem FTree.keys_rotL (a b c : FTree) (i k : Nat) (v hh kv kh h1 h2 : Int) :
    (FTree.node (.node a i v h1 b) k kv h2 c).keys =
    (FTree.node a i v hh (.node b k kv kh c)).keys := by
  simp [keys, List.append_assoc]

theorem FTree.ids_rotL (a b c : FTree) (i k : Nat) (v hh kv kh h1 h2 : Int) :
    (FTree.node (.node a i v h1 b) k kv h2 c).ids =
    (FTree.node a i v hh (.node b k kv kh c)).ids := by
  simp [ids, List.append_assoc]

theorem FTree.bstOk_rotR {a b c : FTree} {j i : Nat} {jv jh v hh h1 h2 : Int}
    (h : (FTree.node (.node a j jv jh b) i v hh c).BstOk) :
    (FTree.node a j jv h1 (.node b i v h2 c)).BstOk := by
  obtain ⟨hlt, hgt2, ⟨hla, hlb, hba, hbb⟩, hbc⟩ := h
  have hjv : jv < v := hlt jv (mem_keys_node.2 (Or.inr (Or.inl rfl)))
  refine ⟨hla, ?_, hba, ?_, ?_, hbb, hbc⟩
  · intro k hk
    rcases mem_keys_node.1 hk with hk | hk | hk
    · exact hlb k hk
    · omega
    · exact hjv.trans (hgt2 k hk)
  · intro k hk
    exact hlt k (mem_keys_node.2 (Or.inr (Or.inr hk)))
  · exact hgt2

theorem FTree.bstOk_rotL {a b c : FTree} {i k : Nat} {v hh kv kh h1 h2 : Int}
    (h : (FTree.node a i v hh (.node b k kv kh c)).BstOk) :
    (FTree.node (.node a i v h1 b) k kv h2 c).BstOk := by
  obtain ⟨hlt, hgt2, hba, ⟨hbk, hck, hbb, hbc⟩⟩ := h
  have hkv : v < kv := hgt2 kv (mem_keys_node.2 (Or.inr (Or.inl rfl)))
  refine ⟨?_, hck, ⟨hlt, ?_, hba, hbb⟩, hbc⟩
  · intro x hx
    rcases mem_keys_node.1 hx with hx | hx | hx
    · exact (hlt x hx).trans hkv
    · omega
    · exact hbk x hx
  · intro x hx
    exact hgt2 x (mem_keys_node.2 (Or.inl hx))

/-- The rebalancing walk of `AVLTree.__balance`, entered at the position
of the subtree `node l i v hS r` inside the context `ctx`.  `h0` is the
pre-operation true height of the subtree at this position, matching the
spine data recorded from the old tree.  The walk terminates at the root
with the stored heights and balance factors restored tree-wide, without
touching keys, ids, size or allocation.  The fuel hypothesis has a
relaxed form for a clean position (stored height already correct and
balance factor in range), which is the state of the promoted node right
after a rotation. -/
theorem balanceLoop_walk : ∀ (fuel : Nat) {s : AVLTree} {par : Option Nat}
    {ctx : Ctx} {l r : FTree} {i : Nat} {v hS h0 : Int},
    ReprAt s par (.node l i v hS r) →
    CtxRepr s ctx par (some i) →
    (plugT ctx (FTree.node l i v hS r)).ids.Nodup →
    Bounded s →
    (plugT ctx (FTree.node l i v hS r)).BstOk →
    l.HeightsOk → r.HeightsOk → l.BalOk → r.BalOk →
    CtxSpine ctx h0 →
    (max l.hgt r.hgt + 1 = h0 + 1 ∨ max l.hgt r.hgt + 1 = h0 ∨
      (max l.hgt r.hgt + 1 = h0 - 1 ∧ -1 ≤ l.hgt - r.hgt ∧ l.hgt - r.hgt ≤ 1)) →
    -2 ≤ l.hgt - r.hgt → l.hgt - r.hgt ≤ 2 →
    (2 * ctx.length + 2 ≤ fuel ∨
      (2 * ctx.length + 1 ≤ fuel ∧ hS = max l.hgt r.hgt + 1 ∧
        -1 ≤ l.hgt - r.hgt ∧ l.hgt - r.hgt ≤ 1)) →
    ∃ s' t', s.balanceLoop fuel (some i) = .ok s' ∧
      ReprAt s' none t' ∧ s'.root = t'.rootId ∧
      t'.ids = (plugT ctx (FTree.node l i v hS r)).ids ∧
      t'.keys = (plugT ctx (FTree.node l i v hS r)).keys ∧
      t'.BstOk ∧ t'.HeightsOk ∧ t'.BalOk ∧
      s'.nextId = s.nextId ∧ s'.size = s.size ∧ Bounded s' := by
  intro fuel
  induction fuel with
  | zero =>
    intro s par ctx l r i v hS h0 _ _ _ _ _ _ _ _ _ _ _ _ _ hfuel
    omega
  | succ m ih =>
    intro s par ctx l r i v hS h0 hrep hctx hnd hbd hbst hhl hhr hbll hblr
      hspine hcase himb1 himb2 hfuel
    obtain ⟨hrep1, hctx1, hroot1, hsz1, hnid1, hbd1, hH1⟩ :=
      update_height_step hrep hctx hnd hbd hhl hhr
    set s1 := s.update_height i with hs1def
    have hbf : s1.balance_factor i = r.hgt - l.hgt :=
      balance_factor_node hrep1 hhl hhr
    have hpar1 : (s1.get i).parent = par := by simp [AVLTree.get, hH1]
    have hnd1 : (plugT ctx (FTree.node l i v (max l.hgt r.hgt + 1) r)).ids.Nodup := by
      rwa [@ids_plugT_congr (FTree.node l i v (max l.hgt r.hgt + 1) r)
        (FTree.node l i v hS r) ctx rfl]
    have hbst1 : (plugT ctx (FTree.node l i v (max l.hgt r.hgt + 1) r)).BstOk :=
      @bstOk_plugT_congr (FTree.node l i v hS r)
        (FTree.node l i v (max l.hgt r.hgt + 1) r) ctx rfl hbst
        (bstOk_plugT_sub (t := FTree.node l i v hS r) ctx hbst)
    by_cases hc1 : r.hgt - l.hgt < -1
    · -- left-heavy by 2: a right rotation at `i`, possibly preceded by a
      -- left rotation of the left child
      have hfuel' : 2 * ctx.length + 2 ≤ m + 1 := by
        rcases hfuel with h | h
        · exact h
        · omega
      cases l with
      | nil =>
        exfalso
        have := FTree.hgt_ge r
        simp only [FTree.hgt] at hc1
        omega
      | node a j jv jh b =>
        obtain ⟨hjh, hha, hhb⟩ := hhl
        obtain ⟨hab1, hab2, hba, hbb⟩ := hbll
        cases hrep1
        rename_i hL1 hR1 hH1x
        have hgetl : (s1.get i).left = some j := by
          simp [AVLTree.get, hH1x, FTree.rootId]
        have hbfj : s1.balance_factor j = b.hgt - a.hgt :=
          balance_factor_node hL1 hha hhb
        have hc1x : s1.balance_factor i < -1 := by rw [hbf]; exact hc1
        have hc1N := hc1
        have himbN := himb2
        have hcaseN := hcase
        simp only [FTree.hgt] at hc1N himbN hcaseN
        by_cases hjpos : s1.balance_factor j > 0
        · -- double rotation: left at `j`, then right at `i`
          have hjposB : b.hgt - a.hgt > 0 := by rwa [hbfj] at hjpos
          cases b with
          | nil =>
            exfalso
            have := FTree.hgt_ge a
            simp only [FTree.hgt] at hjposB
            omega
          | node b1 k kv kh b2 =>
            obtain ⟨hkh, hhb1, hhb2⟩ := hhb
            obtain ⟨hkb1, hkb2, hbb1, hbb2⟩ := hbb
            simp only [FTree.hgt] at hc1N himbN hcaseN hjposB hab1 hab2
            have hctxE : CtxRepr s1
                (Frame.fl i v (max (FTree.node a j jv jh (FTree.node b1 k kv kh b2)).hgt r.hgt + 1) r :: ctx)
                (some i) (some j) :=
              CtxRepr.consL i v _ r hH1x hR1 hctx1
            obtain ⟨s2, hrotL, hrepL2, hctxL2, hnidL2, hszL2, hbdL2⟩ :=
              rotate_left_spec hL1 hctxE hnd1 hbd1 hha hhb1 hhb2
            cases hctxL2 with
            | consL i2 v2 hh2 sib2 hH2i hsibR2 hrest2 =>
            rename_i gpar2
            have hids1 : (FTree.node
                (FTree.node (FTree.node a j jv (max a.hgt b1.hgt + 1) b1) k kv
                  (max (max a.hgt b1.hgt + 1) b2.hgt + 1) b2)
                i v (max (FTree.node a j jv jh (FTree.node b1 k kv kh b2)).hgt r.hgt + 1) r).ids =
                (FTree.node (FTree.node a j jv jh (FTree.node b1 k kv kh b2)) i v
                  (max (FTree.node a j jv jh (FTree.node b1 k kv kh b2)).hgt r.hgt + 1) r).ids := by
              simp [FTree.ids, List.append_assoc]
            have hnd2 : (plugT ctx (FTree.node
                (FTree.node (FTree.node a j jv (max a.hgt b1.hgt + 1) b1) k kv
                  (max (max a.hgt b1.hgt + 1) b2.hgt + 1) b2)
                i v (max (FTree.node a j jv jh (FTree.node b1 k kv kh b2)).hgt r.hgt + 1)
                r)).ids.Nodup := by
              rw [ids_plugT_congr ctx hids1]
              exact hnd1
            obtain ⟨s3, hrotR, hrep3, hctx3, hnid3, hsz3, hbd3⟩ :=
              rotate_right_spec
                (ReprAt.node gpar2 i v _ hH2i hrepL2 hsibR2)
                hrest2 hnd2 hbdL2 ⟨rfl, hha, hhb1⟩ hhb2 hhr
            cases hrep3
            rename_i hA3 hRs3 hHk3
            cases hRs3
            rename_i hB3 hR3 hHi3
            have hpar3 : (s3.get i).parent = some k := by simp [AVLTree.get, hHi3]
            have hloop : s.balanceLoop (m+1) (some i) =
                s3.balanceLoop m ((s3.get i).parent) := by
              conv_lhs => rw [AVLTree.balanceLoop]
              simp only [if_pos hc1x, hgetl, if_pos hjpos, hrotL, hrotR]
            have hbstS : (FTree.node (FTree.node a j jv jh (FTree.node b1 k kv kh b2)) i v
                (max (FTree.node a j jv jh (FTree.node b1 k kv kh b2)).hgt r.hgt + 1) r).BstOk :=
              bstOk_plugT_sub ctx hbst1
            obtain ⟨hbu1, hbu2, hbul, hbur⟩ := hbstS
            have hbstL2 : (FTree.node (FTree.node a j jv (max a.hgt b1.hgt + 1) b1) k kv
                (max (max a.hgt b1.hgt + 1) b2.hgt + 1) b2).BstOk :=
              FTree.bstOk_rotL hbul
            have hbstMid : (FTree.node
                (FTree.node (FTree.node a j jv (max a.hgt b1.hgt + 1) b1) k kv
                  (max (max a.hgt b1.hgt + 1) b2.hgt + 1) b2)
                i v (max (FTree.node a j jv jh (FTree.node b1 k kv kh b2)).hgt r.hgt + 1)
                r).BstOk := by
              refine ⟨?_, hbu2, hbstL2, hbur⟩
              intro x hx
              refine hbu1 x ?_
              rw [← FTree.keys_rotL a b1 b2 j k jv jh kv kh
                (max a.hgt b1.hgt + 1) (max (max a.hgt b1.hgt + 1) b2.hgt + 1)]
              exact hx
            have hkeys2 : (FTree.node (FTree.node a j jv jh (FTree.node b1 k kv kh b2)) i v
                  (max (FTree.node a j jv jh (FTree.node b1 k kv kh b2)).hgt r.hgt + 1) r).keys =
                (FTree.node (FTree.node a j jv (max a.hgt b1.hgt + 1) b1) k kv
                  (max (FTree.node a j jv (max a.hgt b1.hgt + 1) b1).hgt
                    (max b2.hgt r.hgt + 1) + 1)
                  (FTree.node b2 i v (max b2.hgt r.hgt + 1) r)).keys := by
              simp [FTree.keys, List.append_assoc]
            have hbstF : (plugT ctx
                (FTree.node (FTree.node a j jv (max a.hgt b1.hgt + 1) b1) k kv
                  (max (FTree.node a j jv (max a.hgt b1.hgt + 1) b1).hgt
                    (max b2.hgt r.hgt + 1) + 1)
                  (FTree.node b2 i v (max b2.hgt r.hgt + 1) r))).BstOk :=
              bstOk_plugT_congr ctx hkeys2 hbst1 (FTree.bstOk_rotR hbstMid)
            have hids2 : (FTree.node (FTree.node a j jv (max a.hgt b1.hgt + 1) b1) k kv
                  (max (FTree.node a j jv (max a.hgt b1.hgt + 1) b1).hgt
                    (max b2.hgt r.hgt + 1) + 1)
                  (FTree.node b2 i v (max b2.hgt r.hgt + 1) r)).ids =
                (FTree.node (FTree.node a j jv jh (FTree.node b1 k kv kh b2)) i v
                  (max (FTree.node a j jv jh (FTree.node b1 k kv kh b2)).hgt r.hgt + 1) r).ids := by
              simp [FTree.ids, List.append_assoc]
            have hndF : (plugT ctx
                (FTree.node (FTree.node a j jv (max a.hgt b1.hgt + 1) b1) k kv
                  (max (FTree.node a j jv (max a.hgt b1.hgt + 1) b1).hgt
                    (max b2.hgt r.hgt + 1) + 1)
                  (FTree.node b2 i v (max b2.hgt r.hgt + 1) r))).ids.Nodup := by
              rw [ids_plugT_congr ctx hids2]
              exact hnd1
            obtain ⟨s', t', hrun', hrep', hroot', hids', hkeys', hbst', hhts', hbal',
              hnid', hsz', hbd'⟩ :=
              ih (ReprAt.node gpar2 k kv _ hHk3 hA3 (ReprAt.node (some k) i v _ hHi3 hB3 hR3))
                hctx3 hndF hbd3 hbstF
                ⟨rfl, hha, hhb1⟩ ⟨rfl, hhb2, hhr⟩
                ⟨by omega, by omega, hba, hbb1⟩
                ⟨by omega, by omega, hbb2, hblr⟩
                hspine
                (by simp only [FTree.hgt]; omega)
                (by simp only [FTree.hgt]; omega)
                (by simp only [FTree.hgt]; omega)
                (Or.inr ⟨by omega, by simp [FTree.hgt],
                  by simp only [FTree.hgt]; omega, by simp only [FTree.hgt]; omega⟩)
            have hidsO : (FTree.node (FTree.node a j jv (max a.hgt b1.hgt + 1) b1) k kv
                  (max (FTree.node a j jv (max a.hgt b1.hgt + 1) b1).hgt
                    (max b2.hgt r.hgt + 1) + 1)
                  (FTree.node b2 i v (max b2.hgt r.hgt + 1) r)).ids =
                (FTree.node (FTree.node a j jv jh (FTree.node b1 k kv kh b2)) i v hS r).ids := by
              simp [FTree.ids, List.append_assoc]
            have hkeysO : (FTree.node (FTree.node a j jv (max a.hgt b1.hgt + 1) b1) k kv
                  (max (FTree.node a j jv (max a.hgt b1.hgt + 1) b1).hgt
                    (max b2.hgt r.hgt + 1) + 1)
                  (FTree.node b2 i v (max b2.hgt r.hgt + 1) r)).keys =
                (FTree.node (FTree.node a j jv jh (FTree.node b1 k kv kh b2)) i v hS r).keys := by
              simp [FTree.keys, List.append_assoc]
            refine ⟨s', t', ?_, hrep', hroot', ?_, ?_, hbst', hhts', hbal', ?_, ?_, hbd'⟩
            · rw [hloop, hpar3]; exact hrun'
            · exact hids'.trans (ids_plugT_congr ctx hidsO)
            · exact hkeys'.trans (keys_plugT_congr ctx hkeysO)
            · rw [hnid', hnid3, hnidL2, hnid1]
            · rw [hsz', hsz3, hszL2, hsz1]
        · -- single right rotation at `i`
          have hjposB : ¬ b.hgt - a.hgt > 0 := by rwa [hbfj] at hjpos
          obtain ⟨s2, hrot, hrep2, hctx2, hnid2, hsz2, hbd2⟩ :=
            rotate_right_spec (ReprAt.node par i v _ hH1x hL1 hR1) hctx1 hnd1 hbd1
              hha hhb hhr
          cases hrep2
          rename_i hA2 hRs2 hHj2
          cases hRs2
          rename_i hB2 hR2 hHi2
          have hpar2 : (s2.get i).parent = some j := by simp [AVLTree.get, hHi2]
          have hloop : s.balanceLoop (m+1) (some i) =
              s2.balanceLoop m ((s2.get i).parent) := by
            conv_lhs => rw [AVLTree.balanceLoop]
            simp only [if_pos hc1x, hgetl, if_neg hjpos, hrot]
          have hbstS : (FTree.node (FTree.node a j jv jh b) i v
              (max (FTree.node a j jv jh b).hgt r.hgt + 1) r).BstOk :=
            bstOk_plugT_sub ctx hbst1
          have hkeys2 : (FTree.node (FTree.node a j jv jh b) i v
                (max (FTree.node a j jv jh b).hgt r.hgt + 1) r).keys =
              (FTree.node a j jv (max a.hgt (max b.hgt r.hgt + 1) + 1)
                (FTree.node b i v (max b.hgt r.hgt + 1) r)).keys := by
            simp [FTree.keys, List.append_assoc]
          have hbstF : (plugT ctx
              (FTree.node a j jv (max a.hgt (max b.hgt r.hgt + 1) + 1)
                (FTree.node b i v (max b.hgt r.hgt + 1) r))).BstOk :=
            bstOk_plugT_congr ctx hkeys2 hbst1 (FTree.bstOk_rotR hbstS)
          have hids2 : (FTree.node a j jv (max a.hgt (max b.hgt r.hgt + 1) + 1)
                (FTree.node b i v (max b.hgt r.hgt + 1) r)).ids =
              (FTree.node (FTree.node a j jv jh b) i v
                (max (FTree.node a j jv jh b).hgt r.hgt + 1) r).ids := by
            simp [FTree.ids, List.append_assoc]
          have hndF : (plugT ctx
              (FTree.node a j jv (max a.hgt (max b.hgt r.hgt + 1) + 1)
                (FTree.node b i v (max b.hgt r.hgt + 1) r))).ids.Nodup := by
            rw [ids_plugT_congr ctx hids2]
            exact hnd1
          obtain ⟨s', t', hrun', hrep', hroot', hids', hkeys', hbst', hhts', hbal',
            hnid', hsz', hbd'⟩ :=
            ih (ReprAt.node par j jv _ hHj2 hA2 (ReprAt.node (some j) i v _ hHi2 hB2 hR2))
              hctx2 hndF hbd2 hbstF
              hha ⟨rfl, hhb, hhr⟩ hba
              ⟨by omega, by omega, hbb, hblr⟩
              hspine
              (by simp only [FTree.hgt]; omega)
              (by simp only [FTree.hgt]; omega)
              (by simp only [FTree.hgt]; omega)
              (Or.inr ⟨by omega, by simp [FTree.hgt],
                by simp only [FTree.hgt]; omega, by simp only [FTree.hgt]; omega⟩)
          have hidsO : (FTree.node a j jv (max a.hgt (max b.hgt r.hgt + 1) + 1)
                (FTree.node b i v (max b.hgt r.hgt + 1) r)).ids =
              (FTree.node (FTree.node a j jv jh b) i v hS r).ids := by
            simp [FTree.ids, List.append_assoc]
          have hkeysO : (FTree.node a j jv (max a.hgt (max b.hgt r.hgt + 1) + 1)
                (FTree.node b i v (max b.hgt r.hgt + 1) r)).keys =
              (FTree.node (FTree.node a j jv jh b) i v hS r).keys := by
            simp [FTree.keys, List.append_assoc]
          refine ⟨s', t', ?_, hrep', hroot', ?_, ?_, hbst', hhts', hbal', ?_, ?_, hbd'⟩
          · rw [hloop, hpar2]; exact hrun'
          · exact hids'.trans (ids_plugT_congr ctx hidsO)
          · exact hkeys'.trans (keys_plugT_congr ctx hkeysO)
          · rw [hnid', hnid2, hnid1]
          · rw [hsz', hsz2, hsz1]
    · by_cases hc2 : r.hgt - l.hgt > 1
      · -- right-heavy by 2: a left rotation at `i`, possibly preceded by a
        -- right rotation of the right child
        have hfuel' : 2 * ctx.length + 2 ≤ m + 1 := by
          rcases hfuel with h | h
          · exact h
          · omega
        cases r with
        | nil =>
          exfalso
          have := FTree.hgt_ge l
          simp only [FTree.hgt] at hc2
          omega
        | node b k kv kh c =>
          obtain ⟨hkh, hhb, hhc⟩ := hhr
          obtain ⟨hcb1, hcb2, hbb, hbcc⟩ := hblr
          cases hrep1
          rename_i hL1 hR1 hH1x
          have hgetr : (s1.get i).right = some k := by
            simp [AVLTree.get, hH1x, FTree.rootId]
          have hbfk : s1.balance_factor k = c.hgt - b.hgt :=
            balance_factor_node hR1 hhb hhc
          have hc1n : ¬ s1.balance_factor i < -1 := by rw [hbf]; exact hc1
          have hc2x : s1.balance_factor i > 1 := by rw [hbf]; exact hc2
          have hc2N := hc2
          have himbN := himb1
          have hcaseN := hcase
          simp only [FTree.hgt] at hc2N himbN hcaseN
          by_cases hkneg : s1.balance_factor k < 0
          · -- double rotation: right at `k`, then left at `i`
            have hknegB : c.hgt - b.hgt < 0 := by rwa [hbfk] at hkneg
            cases b with
            | nil =>
              exfalso
              have := FTree.hgt_ge c
              simp only [FTree.hgt] at hknegB
              omega
            | node b1 g gv gh b2 =>
              obtain ⟨hgh, hhb1, hhb2⟩ := hhb
              obtain ⟨hgb1, hgb2, hbb1, hbb2⟩ := hbb
              simp only [FTree.hgt] at hc2N himbN hcaseN hknegB hcb1 hcb2
              have hctxE : CtxRepr s1
                  (Frame.fr i v (max l.hgt (FTree.node (FTree.node b1 g gv gh b2) k kv kh c).hgt + 1) l :: ctx)
                  (some i) (some k) :=
                CtxRepr.consR i v _ l hH1x hL1 hctx1
              obtain ⟨s2, hrotR1, hrepR2, hctxR2, hnidR2, hszR2, hbdR2⟩ :=
                rotate_right_spec hR1 hctxE hnd1 hbd1 hhb1 hhb2 hhc
              cases hctxR2 with
              | consR i2 v2 hh2 sib2 hH2i hsibL2 hrest2 =>
              rename_i gpar2
              have hids1 : (FTree.node l i v
                  (max l.hgt (FTree.node (FTree.node b1 g gv gh b2) k kv kh c).hgt + 1)
                  (FTree.node b1 g gv (max b1.hgt (max b2.hgt c.hgt + 1) + 1)
                    (FTree.node b2 k kv (max b2.hgt c.hgt + 1) c))).ids =
                  (FTree.node l i v
                    (max l.hgt (FTree.node (FTree.node b1 g gv gh b2) k kv kh c).hgt + 1)
                    (FTree.node (FTree.node b1 g gv gh b2) k kv kh c)).ids := by
                simp [FTree.ids, List.append_assoc]
              have hnd2 : (plugT ctx (FTree.node l i v
                  (max l.hgt (FTree.node (FTree.node b1 g gv gh b2) k kv kh c).hgt + 1)
                  (FTree.node b1 g gv (max b1.hgt (max b2.hgt c.hgt + 1) + 1)
                    (FTree.node b2 k kv (max b2.hgt c.hgt + 1) c)))).ids.Nodup := by
                rw [ids_plugT_congr ctx hids1]
                exact hnd1
              obtain ⟨s3, hrotL3, hrep3, hctx3, hnid3, hsz3, hbd3⟩ :=
                rotate_left_spec
                  (ReprAt.node gpar2 i v _ hH2i hsibL2 hrepR2)
                  hrest2 hnd2 hbdR2 hhl hhb1 ⟨rfl, hhb2, hhc⟩
              cases hrep3
              rename_i hL3 hC3 hHg3
              cases hL3
              rename_i hA3 hB13 hHi3
              have hpar3 : (s3.get i).parent = some g := by simp [AVLTree.get, hHi3]
              have hloop : s.balanceLoop (m+1) (some i) =
                  s3.balanceLoop m ((s3.get i).parent) := by
                conv_lhs => rw [AVLTree.balanceLoop]
                simp only [if_neg hc1n, if_pos hc2x, hgetr, if_pos hkneg, hrotR1, hrotL3]
              have hbstS : (FTree.node l i v
                  (max l.hgt (FTree.node (FTree.node b1 g gv gh b2) k kv kh c).hgt + 1)
                  (FTree.node (FTree.node b1 g gv gh b2) k kv kh c)).BstOk :=
                bstOk_plugT_sub ctx hbst1
              obtain ⟨hbu1, hbu2, hbul, hbur⟩ := hbstS
              have hbstR2 : (FTree.node b1 g gv (max b1.hgt (max b2.hgt c.hgt + 1) + 1)
                  (FTree.node b2 k kv (max b2.hgt c.hgt + 1) c)).BstOk :=
                FTree.bstOk_rotR hbur
              have hbstMid : (FTree.node l i v
                  (max l.hgt (FTree.node (FTree.node b1 g gv gh b2) k kv kh c).hgt + 1)
                  (FTree.node b1 g gv (max b1.hgt (max b2.hgt c.hgt + 1) + 1)
                    (FTree.node b2 k kv (max b2.hgt c.hgt + 1) c))).BstOk := by
                refine ⟨hbu1, ?_, hbul, hbstR2⟩
                intro x hx
                refine hbu2 x ?_
                rw [← FTree.keys_rotR b1 b2 c g k gv gh kv kh
                  (max b1.hgt (max b2.hgt c.hgt + 1) + 1) (max b2.hgt c.hgt + 1)]
                exact hx
              have hkeys2 : (FTree.node l i v
                    (max l.hgt (FTree.node (FTree.node b1 g gv gh b2) k kv kh c).hgt + 1)
                    (FTree.node (FTree.node b1 g gv gh b2) k kv kh c)).keys =
                  (FTree.node (FTree.node l i v (max l.hgt b1.hgt + 1) b1) g gv
                    (max (max l.hgt b1.hgt + 1)
                      (FTree.node b2 k kv (max b2.hgt c.hgt + 1) c).hgt + 1)
                    (FTree.node b2 k kv (max b2.hgt c.hgt + 1) c)).keys := by
                simp [FTree.keys, List.append_assoc]
              have hbstF : (plugT ctx
                  (FTree.node (FTree.node l i v (max l.hgt b1.hgt + 1) b1) g gv
                    (max (max l.hgt b1.hgt + 1)
                      (FTree.node b2 k kv (max b2.hgt c.hgt + 1) c).hgt + 1)
                    (FTree.node b2 k kv (max b2.hgt c.hgt + 1) c))).BstOk :=
                bstOk_plugT_congr ctx hkeys2 hbst1 (FTree.bstOk_rotL hbstMid)
              have hids2 : (FTree.node (FTree.node l i v (max l.hgt b1.hgt + 1) b1) g gv
                    (max (max l.hgt b1.hgt + 1)
                      (FTree.node b2 k kv (max b2.hgt c.hgt + 1) c).hgt + 1)
                    (FTree.node b2 k kv (max b2.hgt c.hgt + 1) c)).ids =
                  (FTree.node l i v
                    (max l.hgt (FTree.node (FTree.node b1 g gv gh b2) k kv kh c).hgt + 1)
                    (FTree.node (FTree.node b1 g gv gh b2) k kv kh c)).ids := by
                simp [FTree.ids, List.append_assoc]
              have hndF : (plugT ctx
                  (FTree.node (FTree.node l i v (max l.hgt b1.hgt + 1) b1) g gv
                    (max (max l.hgt b1.hgt + 1)
                      (FTree.node b2 k kv (max b2.hgt c.hgt + 1) c).hgt + 1)
                    (FTree.node b2 k kv (max b2.hgt c.hgt + 1) c))).ids.Nodup := by
                rw [ids_plugT_congr ctx hids2]
                exact hnd1
              obtain ⟨s', t', hrun', hrep', hroot', hids', hkeys', hbst', hhts', hbal',
                hnid', hsz', hbd'⟩ :=
                ih (ReprAt.node gpar2 g gv _ hHg3 (ReprAt.node (some g) i v _ hHi3 hA3 hB13) hC3)
                  hctx3 hndF hbd3 hbstF
                  ⟨rfl, hhl, hhb1⟩ ⟨rfl, hhb2, hhc⟩
                  ⟨by omega, by omega, hbll, hbb1⟩
                  ⟨by omega, by omega, hbb2, hbcc⟩
                  hspine
                  (by simp only [FTree.hgt]; omega)
                  (by simp only [FTree.hgt]; omega)
                  (by simp only [FTree.hgt]; omega)
                  (Or.inr ⟨by omega, by simp [FTree.hgt],
                    by simp only [FTree.hgt]; omega, by simp only [FTree.hgt]; omega⟩)
              have hidsO : (FTree.node (FTree.node l i v (max l.hgt b1.hgt + 1) b1) g gv
                    (max (max l.hgt b1.hgt + 1)
                      (FTree.node b2 k kv (max b2.hgt c.hgt + 1) c).hgt + 1)
                    (FTree.node b2 k kv (max b2.hgt c.hgt + 1) c)).ids =
                  (FTree.node l i v hS (FTree.node (FTree.node b1 g gv gh b2) k kv kh c)).ids := by
                simp [FTree.ids, List.append_assoc]
              have hkeysO : (FTree.node (FTree.node l i v (max l.hgt b1.hgt + 1) b1) g gv
                    (max (max l.hgt b1.hgt + 1)
                      (FTree.node b2 k kv (max b2.hgt c.hgt + 1) c).hgt + 1)
                    (FTree.node b2 k kv (max b2.hgt c.hgt + 1) c)).keys =
                  (FTree.node l i v hS (FTree.node (FTree.node b1 g gv gh b2) k kv kh c)).keys := by
                simp [FTree.keys, List.append_assoc]
              refine ⟨s', t', ?_, hrep', hroot', ?_, ?_, hbst', hhts', hbal', ?_, ?_, hbd'⟩
              · rw [hloop, hpar3]; exact hrun'
              · exact hids'.trans (ids_plugT_congr ctx hidsO)
              · exact hkeys'.trans (keys_plugT_congr ctx hkeysO)
              · rw [hnid', hnid3, hnidR2, hnid1]
              · rw [hsz', hsz3, hszR2, hsz1]
          · -- single left rotation at `i`
            have hknegB : ¬ c.hgt - b.hgt < 0 := by rwa [hbfk] at hkneg
            obtain ⟨s2, hrot, hrep2, hctx2, hnid2, hsz2, hbd2⟩ :=
              rotate_left_spec (ReprAt.node par i v _ hH1x hL1 hR1) hctx1 hnd1 hbd1
                hhl hhb hhc
            cases hrep2
            rename_i hL2 hC2 hHk2
            cases hL2
            rename_i hA2 hB2 hHi2
            have hpar2 : (s2.get i).parent = some k := by simp [AVLTree.get, hHi2]
            have hloop : s.balanceLoop (m+1) (some i) =
                s2.balanceLoop m ((s2.get i).parent) := by
              conv_lhs => rw [AVLTree.balanceLoop]
              simp only [if_neg hc1n, if_pos hc2x, hgetr, if_neg hkneg, hrot]
            have hbstS : (FTree.node l i v
                (max l.hgt (FTree.node b k kv kh c).hgt + 1)
                (FTree.node b k kv kh c)).BstOk :=
              bstOk_plugT_sub ctx hbst1
            have hkeys2 : (FTree.node l i v
                  (max l.hgt (FTree.node b k kv kh c).hgt + 1)
                  (FTree.node b k kv kh c)).keys =
                (FTree.node (FTree.node l i v (max l.hgt b.hgt + 1) b) k kv
                  (max (max l.hgt b.hgt + 1) c.hgt + 1) c).keys := by
              simp [FTree.keys, List.append_assoc]
            have hbstF : (plugT ctx
                (FTree.node (FTree.node l i v (max l.hgt b.hgt + 1) b) k kv
                  (max (max l.hgt b.hgt + 1) c.hgt + 1) c)).BstOk :=
              bstOk_plugT_congr ctx hkeys2 hbst1 (FTree.bstOk_rotL hbstS)
            have hids2 : (FTree.node (FTree.node l i v (max l.hgt b.hgt + 1) b) k kv
                  (max (max l.hgt b.hgt + 1) c.hgt + 1) c).ids =
                (FTree.node l i v
                  (max l.hgt (FTree.node b k kv kh c).hgt + 1)
                  (FTree.node b k kv kh c)).ids := by
              simp [FTree.ids, List.append_assoc]
            have hndF : (plugT ctx
                (FTree.node (FTree.node l i v (max l.hgt b.hgt + 1) b) k kv
                  (max (max l.hgt b.hgt + 1) c.hgt + 1) c)).ids.Nodup := by
              rw [ids_plugT_congr ctx hids2]
              exact hnd1
            obtain ⟨s', t', hrun', hrep', hroot', hids', hkeys', hbst', hhts', hbal',
              hnid', hsz', hbd'⟩ :=
              ih (ReprAt.node par k kv _ hHk2 (ReprAt.node (some k) i v _ hHi2 hA2 hB2) hC2)
                hctx2 hndF hbd2 hbstF
                ⟨rfl, hhl, hhb⟩ hhc
                ⟨by omega, by omega, hbll, hbb⟩
                hbcc
                hspine
                (by simp only [FTree.hgt]; omega)
                (by simp only [FTree.hgt]; omega)
                (by simp only [FTree.hgt]; omega)
                (Or.inr ⟨by omega, by simp [FTree.hgt],
                  by simp only [FTree.hgt]; omega, by simp only [FTree.hgt]; omega⟩)
            have hidsO : (FTree.node (FTree.node l i v (max l.hgt b.hgt + 1) b) k kv
                  (max (max l.hgt b.hgt + 1) c.hgt + 1) c).ids =
                (FTree.node l i v hS (FTree.node b k kv kh c)).ids := by
              simp [FTree.ids, List.append_assoc]
            have hkeysO : (FTree.node (FTree.node l i v (max l.hgt b.hgt + 1) b) k kv
                  (max (max l.hgt b.hgt + 1) c.hgt + 1) c).keys =
                (FTree.node l i v hS (FTree.node b k kv kh c)).keys := by
              simp [FTree.keys, List.append_assoc]
            refine ⟨s', t', ?_, hrep', hroot', ?_, ?_, hbst', hhts', hbal', ?_, ?_, hbd'⟩
            · rw [hloop, hpar2]; exact hrun'
            · exact hids'.trans (ids_plugT_congr ctx hidsO)
            · exact hkeys'.trans (keys_plugT_congr ctx hkeysO)
            · rw [hnid', hnid2, hnid1]
            · rw [hsz', hsz2, hsz1]
      · -- balance factor in range: no rotation, climb to the parent
        have hloop : s.balanceLoop (m+1) (some i) =
            s1.balanceLoop m ((s1.get i).parent) := by
          conv_lhs => rw [AVLTree.balanceLoop]
          simp only [hbf, if_neg hc1, if_neg hc2]
        rw [hpar1] at hloop
        cases hctx1 with
        | nil hole he =>
          refine ⟨s1, FTree.node l i v (max l.hgt r.hgt + 1) r, ?_, hrep1, ?_, rfl, rfl,
            hbst1, ⟨rfl, hhl, hhr⟩, ⟨by omega, by omega, hbll, hblr⟩, rfl, hsz1, hbd1⟩
          · rw [hloop]
            cases m <;> rfl
          · exact he
        | consL p pv phS sib hHp hsib hrest =>
          rename_i d gpar
          simp only [CtxSpine] at hspine
          obtain ⟨hphS, hsd1, hsd2, hsibH, hsibB, hspine'⟩ := hspine
          have hrepP : ReprAt s1 gpar
              (.node (.node l i v (max l.hgt r.hgt + 1) r) p pv phS sib) :=
            ReprAt.node gpar p pv phS hHp hrep1 hsib
          obtain ⟨s', t', hrun', hrep', hroot', hids', hkeys', hbst', hhts', hbal',
            hnid', hsz', hbd'⟩ :=
            ih hrepP hrest hnd1 hbd1 hbst1 ⟨rfl, hhl, hhr⟩ hsibH
              ⟨by omega, by omega, hbll, hblr⟩ hsibB hspine'
              (by simp only [FTree.hgt]; omega)
              (by simp only [FTree.hgt]; omega)
              (by simp only [FTree.hgt]; omega)
              (Or.inl (by simp only [List.length_cons] at hfuel ⊢; omega))
          refine ⟨s', t', ?_, hrep', hroot', ?_, ?_, hbst', hhts', hbal', ?_, ?_, hbd'⟩
          · rw [hloop]; exact hrun'
          · exact hids'.trans (ids_plugT_congr d rfl)
          · exact hkeys'.trans (keys_plugT_congr d rfl)
          · rw [hnid']; exact hnid1
          · rw [hsz']; exact hsz1
        | consR p pv phS sib hHp hsib hrest =>
          rename_i d gpar
          simp only [CtxSpine] at hspine
          obtain ⟨hphS, hsd1, hsd2, hsibH, hsibB, hspine'⟩ := hspine
          have hrepP : ReprAt s1 gpar
              (.node sib p pv phS (.node l i v (max l.hgt r.hgt + 1) r)) :=
            ReprAt.node gpar p pv phS hHp hsib hrep1
          obtain ⟨s', t', hrun', hrep', hroot', hids', hkeys', hbst', hhts', hbal',
            hnid', hsz', hbd'⟩ :=
            ih hrepP hrest hnd1 hbd1 hbst1 hsibH ⟨rfl, hhl, hhr⟩ hsibB
              ⟨by omega, by omega, hbll, hblr⟩ hspine'
              (by simp only [FTree.hgt]; omega)
              (by simp only [FTree.hgt]; omega)
              (by simp only [FTree.hgt]; omega)
              (Or.inl (by simp only [List.length_cons] at hfuel ⊢; omega))
          refine ⟨s', t', ?_, hrep', hroot', ?_, ?_, hbst', hhts', hbal', ?_, ?_, hbd'⟩
          · rw [hloop]; exact hrun'
          · exact hids'.trans (ids_plugT_congr d rfl)
          · exact hkeys'.trans (keys_plugT_congr d rfl)
          · rw [hnid']; exact hnid1
          · rw [hsz']; exact hsz1

/-! ## Removal machinery -/

instance : Append Ctx := inferInstanceAs (Append (List Frame))

theorem plugT_append : ∀ (c1 c2 : List Frame) (t : FTree),
    plugT (c1 ++ c2) t = plugT c2 (plugT c1 t) := by
  intro c1
  induction c1 with
  | nil => intro c2 t; rfl
  | cons f c1 ih =>
    intro c2 t
    cases f with
    | fl i v h sib => exact ih c2 (.node t i v h sib)
    | fr i v h sib => exact ih c2 (.node sib i v h t)

/-- The keys of a plugged tree decompose as a fixed prefix and suffix
around the keys of the subtree in the hole. -/
theorem keys_plugT_decomp (ctx : Ctx) : ∃ A B : List Int,
    ∀ u : FTree, (plugT ctx u).keys = A ++ (u.keys ++ B) := by
  induction ctx with
  | nil => exact ⟨[], [], fun u => by simp [plugT]⟩
  | cons f ctx ih =>
    obtain ⟨A, B, hAB⟩ := ih
    cases f with
    | fl i v h sib =>
      refine ⟨A, v :: sib.keys ++ B, fun u => ?_⟩
      rw [show plugT (Frame.fl i v h sib :: ctx) u = plugT ctx (.node u i v h sib) from rfl,
        hAB]
      simp [FTree.keys, List.append_assoc]
    | fr i v h sib =>
      refine ⟨A ++ sib.keys ++ [v], B, fun u => ?_⟩
      rw [show plugT (Frame.fr i v h sib :: ctx) u = plugT ctx (.node sib i v h u) from rfl,
        hAB]
      simp [FTree.keys, List.append_assoc]

/-- `BstOk` survives replacing the hole subtree by one with fewer keys. -/
theorem bstOk_plugT_mono {t1 t2 : FTree} (ctx : Ctx)
    (hk : ∀ x ∈ t2.keys, x ∈ t1.keys)
    (h1 : (plugT ctx t1).BstOk) (h2 : t2.BstOk) : (plugT ctx t2).BstOk := by
  induction ctx generalizing t1 t2 with
  | nil => simpa [plugT] using h2
  | cons f ctx ih =>
    cases f with
    | fl i v hh sib =>
      refine @ih (.node t1 i v hh sib) (.node t2 i v hh sib) ?_ h1 ?_
      · intro x hx
        rcases FTree.mem_keys_node.1 hx with hx | hx | hx
        · exact FTree.mem_keys_node.2 (Or.inl (hk x hx))
        · exact FTree.mem_keys_node.2 (Or.inr (Or.inl hx))
        · exact FTree.mem_keys_node.2 (Or.inr (Or.inr hx))
      · have h3 : (FTree.node t1 i v hh sib).BstOk := bstOk_plugT_sub ctx h1
        obtain ⟨ha, hb, _, hd⟩ := h3
        exact ⟨fun x hx => ha x (hk x hx), hb, h2, hd⟩
    | fr i v hh sib =>
      refine @ih (.node sib i v hh t1) (.node sib i v hh t2) ?_ h1 ?_
      · intro x hx
        rcases FTree.mem_keys_node.1 hx with hx | hx | hx
        · exact FTree.mem_keys_node.2 (Or.inl hx)
        · exact FTree.mem_keys_node.2 (Or.inr (Or.inl hx))
        · exact FTree.mem_keys_node.2 (Or.inr (Or.inr (hk x hx)))
      · have h3 : (FTree.node sib i v hh t1).BstOk := bstOk_plugT_sub ctx h1
        obtain ⟨ha, hb, hc, _⟩ := h3
        exact ⟨ha, fun x hx => hb x (hk x hx), hc, h2⟩

/-- Distinct ids survive replacing the hole subtree by one whose ids are
a subset. -/
theorem nodup_plugT_sub {t1 t2 : FTree} (ctx : Ctx)
    (hsub : ∀ x ∈ t2.ids, x ∈ t1.ids) (hnd2 : t2.ids.Nodup)
    (h : (plugT ctx t1).ids.Nodup) : (plugT ctx t2).ids.Nodup := by
  have h1 := (ids_plugT_perm ctx t1).nodup h
  have hctxnd : (ctxIds ctx).Nodup := h1.of_append_right
  have hdisj := List.disjoint_of_nodup_append h1
  refine (ids_plugT_perm ctx t2).symm.nodup ?_
  refine List.Nodup.append hnd2 hctxnd ?_
  intro x hx1 hx2
  exact hdisj (hsub x hx1) hx2

theorem FTree.bstOk_keys_pairwise {t : FTree} (h : t.BstOk) :
    t.keys.Pairwise (· < ·) := by
  induction t with
  | nil => simp [keys]
  | node l i v hh r ihl ihr =>
    obtain ⟨ha, hb, hc, hd⟩ := h
    simp only [keys]
    rw [List.pairwise_append]
    refine ⟨ihl hc, ?_, ?_⟩
    · rw [List.pairwise_cons]
      exact ⟨hb, ihr hd⟩
    · intro x hx y hy
      rcases List.mem_cons.1 hy with hy | hy
      · exact hy ▸ ha x hx
      · exact (ha x hx).trans (hb y hy)

theorem heightsOk_plugT_sub {t : FTree} : ∀ ctx : Ctx,
    (plugT ctx t).HeightsOk → t.HeightsOk := by
  intro ctx
  induction ctx generalizing t with
  | nil => simp [plugT]
  | cons f ctx ih =>
    cases f with
    | fl i v hh sib =>
      intro h
      exact (ih (t := .node t i v hh sib) h).2.1
    | fr i v hh sib =>
      intro h
      exact (ih (t := .node sib i v hh t) h).2.2

theorem balOk_plugT_sub {t : FTree} : ∀ ctx : Ctx,
    (plugT ctx t).BalOk → t.BalOk := by
  intro ctx
  induction ctx generalizing t with
  | nil => simp [plugT]
  | cons f ctx ih =>
    cases f with
    | fl i v hh sib =>
      intro h
      exact (ih (t := .node t i v hh sib) h).2.2.1
    | fr i v hh sib =>
      intro h
      exact (ih (t := .node sib i v hh t) h).2.2.2

/-- Stored-height correctness survives replacing the hole subtree by one
of the same true height. -/
theorem heightsOk_plugT_congr {t1 t2 : FTree} (ctx : Ctx) (hg : t1.hgt = t2.hgt)
    (h1 : (plugT ctx t1).HeightsOk) (h2 : t2.HeightsOk) :
    (plugT ctx t2).HeightsOk := by
  induction ctx generalizing t1 t2 with
  | nil => simpa [plugT] using h2
  | cons f ctx ih =>
    cases f with
    | fl i v hh sib =>
      obtain ⟨he, _, hsib⟩ := heightsOk_plugT_sub (t := .node t1 i v hh sib) ctx h1
      refine @ih (.node t1 i v hh sib) (.node t2 i v hh sib)
        (by simp [FTree.hgt, hg]) h1 ⟨?_, h2, hsib⟩
      rw [he, hg]
    | fr i v hh sib =>
      obtain ⟨he, hsib, _⟩ := heightsOk_plugT_sub (t := .node sib i v hh t1) ctx h1
      refine @ih (.node sib i v hh t1) (.node sib i v hh t2)
        (by simp [FTree.hgt, hg]) h1 ⟨?_, hsib, h2⟩
      rw [he, hg]

/-- Balance survives replacing the hole subtree by one of the same true
height. -/
theorem balOk_plugT_congr {t1 t2 : FTree} (ctx : Ctx) (hg : t1.hgt = t2.hgt)
    (h1 : (plugT ctx t1).BalOk) (h2 : t2.BalOk) :
    (plugT ctx t2).BalOk := by
  induction ctx generalizing t1 t2 with
  | nil => simpa [plugT] using h2
  | cons f ctx ih =>
    cases f with
    | fl i v hh sib =>
      obtain ⟨hd1, hd2, _, hsib⟩ := balOk_plugT_sub (t := .node t1 i v hh sib) ctx h1
      refine @ih (.node t1 i v hh sib) (.node t2 i v hh sib)
        (by simp [FTree.hgt, hg]) h1
        ⟨by rw [← hg]; exact hd1, by rw [← hg]; exact hd2, h2, hsib⟩
    | fr i v hh sib =>
      obtain ⟨hd1, hd2, hsib, _⟩ := balOk_plugT_sub (t := .node sib i v hh t1) ctx h1
      refine @ih (.node sib i v hh t1) (.node sib i v hh t2)
        (by simp [FTree.hgt, hg]) h1
        ⟨by rw [← hg]; exact hd1, by rw [← hg]; exact hd2, hsib, h2⟩

/-- The parent-slot clearing at the end of a leaf removal: the hole that
pointed at `i` is made empty. -/
def AVLTree.retargetNone (s : AVLTree) (par : Option Nat) (i : Nat) : AVLTree :=
  match par with
  | none => { s with root := none }
  | some p =>
    if (s.get p).left = some i then
      { s with heap := hupd s.heap p { s.get p with left := none } }
    else
      { s with heap := hupd s.heap p { s.get p with right := none } }

/-- Clearing the hole slot: after it, the context's hole holds `none`. -/
theorem ctx_clear {s : AVLTree} {ctx : Ctx} {par : Option Nat} {i : Nat}
    (h : CtxRepr s ctx par (some i))
    (hnotin : i ∉ ctxIds ctx) (hnd : (ctxIds ctx).Nodup) :
    CtxRepr (s.retargetNone par i) ctx par none ∧
    (s.retargetNone par i).nextId = s.nextId ∧
    (s.retargetNone par i).size = s.size ∧
    (∀ q, q ∉ ctxIds ctx → (s.retargetNone par i).heap q = s.heap q) := by
  cases h with
  | nil hole he =>
    refine ⟨CtxRepr.nil _ rfl, rfl, rfl, fun q _ => rfl⟩
  | consL p pv ph sib hheapP hsib hrest =>
    rename_i d gpar
    have hget : s.get p = { value := pv, parent := gpar, left := some i, right := sib.rootId, height := ph } :=
      get_of_heap hheapP
    simp only [ctxIds, List.cons_append, List.nodup_cons, List.mem_append] at hnd
    simp only [AVLTree.retargetNone, hget, if_true]
    refine ⟨?_, by trivial, by trivial, ?_⟩
    · have hB : ReprAt { heap := hupd s.heap p { value := pv, parent := gpar, left := none, right := sib.rootId, height := ph }, root := s.root, size := s.size, nextId := s.nextId : AVLTree } (some p) sib := by
        refine hsib.mono ?_
        intro q hq
        show hupd s.heap p _ q = s.heap q
        refine hupd_other _ _ _ _ ?_
        intro he; subst he; exact hnd.1 (Or.inl hq)
      have hC : CtxRepr { heap := hupd s.heap p { value := pv, parent := gpar, left := none, right := sib.rootId, height := ph }, root := s.root, size := s.size, nextId := s.nextId : AVLTree } d gpar (some p) := by
        refine hrest.monoC ?_ rfl
        intro q hq
        show hupd s.heap p _ q = s.heap q
        refine hupd_other _ _ _ _ ?_
        intro he; subst he; exact hnd.1 (Or.inr hq)
      exact CtxRepr.consL p pv ph sib (hupd_same _ _ _) hB hC
    · intro q hq
      show hupd s.heap p _ q = s.heap q
      refine hupd_other _ _ _ _ ?_
      intro he
      exact hq (by simp [ctxIds, he])
  | consR p pv ph sib hheapP hsib hrest =>
    rename_i d gpar
    have hget : s.get p = { value := pv, parent := gpar, left := sib.rootId, right := some i, height := ph } :=
      get_of_heap hheapP
    have hne : ¬ (sib.rootId = some i) := by
      intro he
      exact hnotin (by simp [ctxIds, FTree.rootId_mem he])
    simp only [ctxIds, List.cons_append, List.nodup_cons, List.mem_append] at hnd
    simp only [AVLTree.retargetNone, hget, if_neg hne]
    refine ⟨?_, by trivial, by trivial, ?_⟩
    · have hB : ReprAt { heap := hupd s.heap p { value := pv, parent := gpar, left := sib.rootId, right := none, height := ph }, root := s.root, size := s.size, nextId := s.nextId : AVLTree } (some p) sib := by
        refine hsib.mono ?_
        intro q hq
        show hupd s.heap p _ q = s.heap q
        refine hupd_other _ _ _ _ ?_
        intro he; subst he; exact hnd.1 (Or.inl hq)
      have hC : CtxRepr { heap := hupd s.heap p { value := pv, parent := gpar, left := sib.rootId, right := none, height := ph }, root := s.root, size := s.size, nextId := s.nextId : AVLTree } d gpar (some p) := by
        refine hrest.monoC ?_ rfl
        intro q hq
        show hupd s.heap p _ q = s.heap q
        refine hupd_other _ _ _ _ ?_
        intro he; subst he; exact hnd.1 (Or.inr hq)
      exact CtxRepr.consR p pv ph sib (hupd_same _ _ _) hB hC
    · intro q hq
      show hupd s.heap p _ q = s.heap q
      refine hupd_other _ _ _ _ ?_
      intro he
      exact hq (by simp [ctxIds, he])

/-- Entering the rebalancing walk at a hole's parent: the hole subtree
`u` is internally intact but its height may differ from the old height
`h0` by one (the state right after a physical deletion). -/
theorem balanceLoop_walk_hole (fuel : Nat) {s : AVLTree} {par : Option Nat}
    {ctx : Ctx} {u : FTree} {h0 : Int}
    (hrep : ReprAt s par u)
    (hctx : CtxRepr s ctx par u.rootId)
    (hnd : (plugT ctx u).ids.Nodup)
    (hbd : Bounded s)
    (hbst : (plugT ctx u).BstOk)
    (hhu : u.HeightsOk) (hbu : u.BalOk)
    (hspine : CtxSpine ctx h0)
    (hcase : u.hgt = h0 + 1 ∨ u.hgt = h0 ∨ u.hgt = h0 - 1)
    (hfuel : 2 * ctx.length ≤ fuel) :
    ∃ s' t', s.balanceLoop fuel par = .ok s' ∧
      ReprAt s' none t' ∧ s'.root = t'.rootId ∧
      t'.ids = (plugT ctx u).ids ∧
      t'.keys = (plugT ctx u).keys ∧
      t'.BstOk ∧ t'.HeightsOk ∧ t'.BalOk ∧
      s'.nextId = s.nextId ∧ s'.size = s.size ∧ Bounded s' := by
  generalize hor : u.rootId = ro at hctx
  cases hctx with
  | nil hole he =>
    refine ⟨s, u, ?_, hrep, he.trans hor.symm, rfl, rfl, hbst, hhu, hbu, rfl, rfl, hbd⟩
    cases fuel <;> rfl
  | consL p pv phS sib hHp hsib hrest =>
    rename_i d gpar
    simp only [CtxSpine] at hspine
    obtain ⟨hphS, hd1, hd2, hsibH, hsibB, hspine'⟩ := hspine
    have hrepP : ReprAt s gpar (.node u p pv phS sib) :=
      ReprAt.node gpar p pv phS (by rw [hor]; exact hHp) hrep hsib
    exact balanceLoop_walk fuel hrepP hrest hnd hbd hbst hhu hsibH hbu hsibB hspine'
      (by omega) (by omega) (by omega)
      (Or.inl (by simp only [List.length_cons] at hfuel ⊢; omega))
  | consR p pv phS sib hHp hsib hrest =>
    rename_i d gpar
    simp only [CtxSpine] at hspine
    obtain ⟨hphS, hd1, hd2, hsibH, hsibB, hspine'⟩ := hspine
    have hrepP : ReprAt s gpar (.node sib p pv phS u) :=
      ReprAt.node gpar p pv phS (by rw [hor]; exact hHp) hsib hrep
    exact balanceLoop_walk fuel hrepP hrest hnd hbd hbst hsibH hhu hsibB hbu hspine'
      (by omega) (by omega) (by omega)
      (Or.inl (by simp only [List.length_cons] at hfuel ⊢; omega))

/-- Descending a represented plugged tree to its hole, from an arbitrary
starting context. -/
theorem plugT_reprAt_mid {s : AVLTree} {u : FTree} : ∀ {rctx ctx2 : List Frame}
    {par2 : Option Nat},
    ReprAt s par2 (plugT rctx u) → CtxRepr s ctx2 par2 (plugT rctx u).rootId →
    ∃ parS, CtxRepr s (rctx ++ ctx2) parS u.rootId ∧ ReprAt s parS u := by
  intro rctx
  induction rctx generalizing u with
  | nil =>
    intro ctx2 par2 h hc
    exact ⟨par2, hc, h⟩
  | cons f rctx ih =>
    cases f with
    | fl i v hh sib =>
      intro ctx2 par2 h hc
      obtain ⟨parS, hcm, hrm⟩ := ih (u := .node u i v hh sib) h hc
      cases hrm with
      | node _ _ _ _ hheap hl hr =>
        exact ⟨some i, .consL i v hh sib hheap hr hcm, hl⟩
    | fr i v hh sib =>
      intro ctx2 par2 h hc
      obtain ⟨parS, hcm, hrm⟩ := ih (u := .node sib i v hh u) h hc
      cases hrm with
      | node _ _ _ _ hheap hl hr =>
        exact ⟨some i, .consR i v hh sib hheap hl hcm, hr⟩

/-- Id of the leftmost node (the in-order first node). -/
def FTree.lmId : FTree → Option Nat
  | nil => none
  | node l i _ _ _ => (lmId l).or (some i)

theorem FTree.lm_decomp : ∀ (R : FTree) (m : Nat), R.lmId = some m →
    ∃ (rctx : List Frame) (w mh : Int) (RB : FTree),
      plugT rctx (.node .nil m w mh RB) = R ∧
      R.keys = w :: (plugT rctx RB).keys ∧
      R.ids = m :: (plugT rctx RB).ids := by
  intro R
  induction R with
  | nil => intro m h; simp [lmId] at h
  | node l ri rv rh rr ihl =>
    intro m h
    cases l with
    | nil =>
      simp only [lmId, Option.or, Option.some_inj] at h
      subst h
      exact ⟨[], rv, rh, rr, rfl, by simp [plugT, keys], by simp [plugT, ids]⟩
    | node l1 li lv lh l2 =>
      obtain ⟨x, hx⟩ : ∃ x, (FTree.node l1 li lv lh l2).lmId = some x := by
        cases hl : l1.lmId with
        | none =>
          refine ⟨li, ?_⟩
          rw [show (FTree.node l1 li lv lh l2).lmId = (l1.lmId).or (some li) from rfl, hl]
          rfl
        | some y =>
          refine ⟨y, ?_⟩
          rw [show (FTree.node l1 li lv lh l2).lmId = (l1.lmId).or (some li) from rfl, hl]
          rfl
      have hxm : (FTree.node l1 li lv lh l2).lmId = some m := by
        rw [show (FTree.node (FTree.node l1 li lv lh l2) ri rv rh rr).lmId =
            ((FTree.node l1 li lv lh l2).lmId).or (some ri) from rfl, hx,
          show (some x).or (some ri) = some x from rfl] at h
        rw [hx, h]
      obtain ⟨rctx', w, mh, RB, hpl, hk, hi⟩ := ihl m hxm
      refine ⟨rctx' ++ [Frame.fl ri rv rh rr], w, mh, RB, ?_, ?_, ?_⟩
      · rw [plugT_append, hpl]
        rfl
      · rw [plugT_append,
          show plugT [Frame.fl ri rv rh rr] (plugT rctx' RB) =
            FTree.node (plugT rctx' RB) ri rv rh rr from rfl,
          show (FTree.node (FTree.node l1 li lv lh l2) ri rv rh rr).keys =
            (FTree.node l1 li lv lh l2).keys ++ rv :: rr.keys from rfl,
          show (FTree.node (plugT rctx' RB) ri rv rh rr).keys =
            (plugT rctx' RB).keys ++ rv :: rr.keys from rfl,
          hk]
        simp [List.cons_append]
      · rw [plugT_append,
          show plugT [Frame.fl ri rv rh rr] (plugT rctx' RB) =
            FTree.node (plugT rctx' RB) ri rv rh rr from rfl,
          show (FTree.node (FTree.node l1 li lv lh l2) ri rv rh rr).ids =
            (FTree.node l1 li lv lh l2).ids ++ ri :: rr.ids from rfl,
          show (FTree.node (plugT rctx' RB) ri rv rh rr).ids =
            (plugT rctx' RB).ids ++ ri :: rr.ids from rfl,
          hi]
        simp [List.cons_append]

theorem leftmostLoop_spec : ∀ (fuel : Nat) {s : AVLTree} {R : FTree}
    {par : Option Nat} {j : Nat},
    ReprAt s par R → R.rootId = some j → R.cnt ≤ fuel →
    ∃ m, s.leftmostLoop fuel j = .ok m ∧ R.lmId = some m := by
  intro fuel
  induction fuel with
  | zero =>
    intro s R par j hrep hr hc
    cases R with
    | nil => exact absurd hr (by simp [FTree.rootId])
    | node l ri rv rh rr =>
      exfalso
      simp [FTree.cnt] at hc
  | succ n ih =>
    intro s R par j hrep hr hc
    cases R with
    | nil => exact absurd hr (by simp [FTree.rootId])
    | node l ri rv rh rr =>
      have hj : ri = j := by simpa [FTree.rootId] using hr
      subst hj
      cases hrep
      rename_i hl hr2 hH
      cases l with
      | nil =>
        have hgl : (s.get ri).left = none := by
          simp [AVLTree.get, hH, FTree.rootId]
        refine ⟨ri, ?_, rfl⟩
        rw [AVLTree.leftmostLoop]
        simp [hgl]
      | node l1 li lv lh l2 =>
        have hgl : (s.get ri).left = some li := by
          simp [AVLTree.get, hH, FTree.rootId]
        obtain ⟨m, hrun, hlm⟩ := ih hl
          (show (FTree.node l1 li lv lh l2).rootId = some li from rfl)
          (by simp only [FTree.cnt] at hc ⊢; omega)
        refine ⟨m, ?_, ?_⟩
        · rw [AVLTree.leftmostLoop]
          simp only [hgl]
          exact hrun
        · rw [show (FTree.node (FTree.node l1 li lv lh l2) ri rv rh rr).lmId =
              ((FTree.node l1 li lv lh l2).lmId).or (some ri) from rfl, hlm]
          rfl

theorem CtxRepr.par_mem {s : AVLTree} {ctx : Ctx} {p : Nat} {hole : Option Nat}
    (h : CtxRepr s ctx (some p) hole) : p ∈ ctxIds ctx := by
  cases h <;> simp [ctxIds]

theorem ctxHead_append_cons (c1 : List Frame) (f : Frame) (c2 : Ctx) :
    ∃ pS, ctxHead (c1 ++ f :: c2) = some pS := by
  cases c1 with
  | nil => cases f <;> exact ⟨_, rfl⟩
  | cons g c1 => cases g <;> exact ⟨_, rfl⟩

/-- Decomposition of a BST along the search path of a present key. -/
theorem FTree.seek_decomp {v : Int} : ∀ (t : FTree), t.BstOk → v ∈ t.keys →
    ∃ (ctx : List Frame) (L : FTree) (i : Nat) (hS : Int) (R : FTree),
      plugT ctx (.node L i v hS R) = t ∧ t.findId v = some i := by
  intro t
  induction t with
  | nil => intro _ h; simp [keys] at h
  | node l j v' h r ihl ihr =>
    intro hb hm
    obtain ⟨h1, h2, h3, h4⟩ := hb
    by_cases hv : v' = v
    · subst hv
      exact ⟨[], l, j, h, r, rfl, by simp [findId]⟩
    · rcases mem_keys_node.1 hm with hm | hm | hm
      · have hlt : v < v' := h1 v hm
        obtain ⟨ctx, L, i, hS, R, hpl, hfid⟩ := ihl h3 hm
        refine ⟨ctx ++ [Frame.fl j v' h r], L, i, hS, R, ?_, ?_⟩
        · rw [plugT_append, hpl]
          rfl
        · simp [findId, hv, hlt, hfid]
      · exact absurd hm.symm hv
      · have hlt : v' < v := h2 v hm
        obtain ⟨ctx, L, i, hS, R, hpl, hfid⟩ := ihr h4 hm
        refine ⟨ctx ++ [Frame.fr j v' h l], L, i, hS, R, ?_, ?_⟩
        · rw [plugT_append, hpl]
          rfl
        · have : ¬ v < v' := by omega
          simp [findId, hv, this, hfid]

/-- `__bst_remove_leaf` on a represented leaf: detach it from the parent
slot (or clear the root) and decrement `size`; the leaf's own record is
untouched. -/
theorem bst_remove_leaf_spec {s : AVLTree} {par : Option Nat} {ctx : Ctx}
    {i : Nat} {v hS : Int}
    (hrep : ReprAt s par (.node .nil i v hS .nil))
    (hctx : CtxRepr s ctx par (some i))
    (hnd : (plugT ctx (FTree.node .nil i v hS .nil)).ids.Nodup)
    (hbd : Bounded s) :
    ∃ s', s.bst_remove_leaf i = (some i, s') ∧
      CtxRepr s' ctx par none ∧
      s'.heap i = s.heap i ∧
      s'.root = (s.retargetNone par i).root ∧
      s'.nextId = s.nextId ∧ s'.size = s.size - 1 ∧ Bounded s' := by
  have hperm := (ids_plugT_perm ctx _).nodup hnd
  have hAnd : (i :: ctxIds ctx).Nodup := by
    simpa [FTree.ids] using hperm
  have hiD : i ∉ ctxIds ctx := (List.nodup_cons.1 hAnd).1
  have hndD : (ctxIds ctx).Nodup := (List.nodup_cons.1 hAnd).2
  cases hrep
  rename_i hL hR hHi
  have hiLT : i < s.nextId := by
    by_contra hlt
    rw [hbd i (by omega)] at hHi
    exact Option.noConfusion hHi
  have hDlt : ∀ q ∈ ctxIds ctx, q < s.nextId := by
    intro q hq
    obtain ⟨n, hn⟩ := hctx.ids_sub q hq
    by_contra hlt
    rw [hbd q (by omega)] at hn
    exact Option.noConfusion hn
  obtain ⟨hctx', hnid', hsz', hfr'⟩ := ctx_clear hctx hiD hndD
  refine ⟨{ s.retargetNone par i with size := (s.retargetNone par i).size - 1 },
    ?_, ?_, ?_, rfl, hnid', ?_, ?_⟩
  · rw [AVLTree.bst_remove_leaf]
    cases par with
    | none =>
      simp [AVLTree.get, hHi, FTree.rootId, AVLTree.retargetNone]
    | some p =>
      simp [AVLTree.get, hHi, FTree.rootId, AVLTree.retargetNone]
  · exact hctx'.monoC (fun q _ => rfl) rfl
  · exact hfr' i hiD
  · rw [hsz']
  · intro q hq
    have hq' : s.nextId ≤ q := by
      rw [← hnid']; exact hq
    show (s.retargetNone par i).heap q = none
    rw [hfr' q (fun hm => by have := hDlt q hm; omega)]
    exact hbd q hq'

/-- `__bst_remove_one_child_node` on a node with only a left child: the
child subtree is spliced into the node's slot, its parent pointer is
redirected, and `size` is decremented; the removed node's record is
untouched. -/
theorem bst_remove_one_child_left {s : AVLTree} {par : Option Nat} {ctx : Ctx}
    {i c : Nat} {v hS cv ch : Int} {A B : FTree}
    (hrep : ReprAt s par (.node (.node A c cv ch B) i v hS .nil))
    (hctx : CtxRepr s ctx par (some i))
    (hnd : (plugT ctx (FTree.node (.node A c cv ch B) i v hS .nil)).ids.Nodup)
    (hbd : Bounded s) :
    ∃ s', s.bst_remove_one_child_node i = (some i, s') ∧
      ReprAt s' par (.node A c cv ch B) ∧
      CtxRepr s' ctx par (some c) ∧
      s'.heap i = s.heap i ∧
      s'.nextId = s.nextId ∧ s'.size = s.size - 1 ∧ Bounded s' := by
  have hperm := (ids_plugT_perm ctx _).nodup hnd
  rw [List.nodup_append] at hperm
  obtain ⟨hndT, hndD, hdisj⟩ := hperm
  simp only [FTree.ids] at hndT hdisj
  rw [List.nodup_append] at hndT
  obtain ⟨hndC, _, hdisjCi⟩ := hndT
  rw [List.nodup_append] at hndC
  obtain ⟨hndA, hndcB, hdisjAcB⟩ := hndC
  have hci : c ≠ i := fun he =>
    hdisjCi (show c ∈ A.ids ++ c :: B.ids by simp) (by simp [he])
  have hiD : i ∉ ctxIds ctx := fun hmem =>
    hdisj (show i ∈ A.ids ++ c :: B.ids ++ [i] by simp) hmem
  have hcD : c ∉ ctxIds ctx := fun hmem =>
    hdisj (show c ∈ A.ids ++ c :: B.ids ++ [i] by simp) hmem
  have hAD : ∀ q ∈ A.ids, q ∉ ctxIds ctx := fun q hq hmem =>
    hdisj (show q ∈ A.ids ++ c :: B.ids ++ [i] by simp [hq]) hmem
  have hBD : ∀ q ∈ B.ids, q ∉ ctxIds ctx := fun q hq hmem =>
    hdisj (show q ∈ A.ids ++ c :: B.ids ++ [i] by simp [hq]) hmem
  have hAc : ∀ q ∈ A.ids, q ≠ c := fun q hq he =>
    hdisjAcB hq (show q ∈ c :: B.ids by simp [he])
  have hBc : ∀ q ∈ B.ids, q ≠ c := fun q hq he => (List.nodup_cons.1 hndcB).1 (he ▸ hq)
  cases hrep
  rename_i hC hR0 hHi
  cases hC
  rename_i hA hB hHc
  have hgi : s.get i = { value := v, parent := par, left := some c,
                         right := none, height := hS } := by
    rw [get_of_heap hHi]
    rfl
  have hgc : s.get c = { value := cv, parent := some i, left := A.rootId,
                         right := B.rootId, height := ch } := get_of_heap hHc
  have hcLT : c < s.nextId := by
    by_contra hlt
    rw [hbd c (by omega)] at hHc
    exact Option.noConfusion hHc
  have hDlt : ∀ q ∈ ctxIds ctx, q < s.nextId := by
    intro q hq
    obtain ⟨n, hn⟩ := hctx.ids_sub q hq
    by_contra hlt
    rw [hbd q (by omega)] at hn
    exact Option.noConfusion hn
  obtain ⟨hctxR, hnidR, hszR, hfrR⟩ := ctx_retarget hctx hiD hndD c
  refine ⟨{ heap := hupd (s.retarget par i c).heap c
                { value := cv, parent := par, left := A.rootId,
                  right := B.rootId, height := ch },
            root := (s.retarget par i c).root,
            size := (s.retarget par i c).size - 1,
            nextId := (s.retarget par i c).nextId }, ?_, ?_, ?_, ?_, ?_, ?_, ?_⟩
  · rw [AVLTree.bst_remove_one_child_node]
    simp only [hgi, Option.isNone_some, Option.isNone_none, Bool.false_eq_true,
      Bool.true_eq_false, ite_false, ite_true, reduceIte]
    cases par with
    | none =>
      simp [AVLTree.get, hgc, AVLTree.retarget, hHc]
    | some p =>
      have hpm : p ∈ ctxIds ctx := hctx.par_mem
      have hcp : c ≠ p := fun he => hcD (he ▸ hpm)
      by_cases hpl : (s.get p).left = some i
      · simp only [AVLTree.retarget, hpl, reduceIte, ite_true, ite_false]
        simp [AVLTree.get, hupd, hcp, hHc]
      · simp only [AVLTree.retarget, hpl, reduceIte, ite_true, ite_false]
        simp [AVLTree.get, hupd, hcp, hHc]
  · refine ReprAt.node par c cv ch (hupd_same _ _ _) ?_ ?_
    · refine hA.mono ?_
      intro q hq
      show hupd _ _ _ q = s.heap q
      rw [hupd_other _ _ _ _ (hAc q hq), hfrR q (hAD q hq)]
    · refine hB.mono ?_
      intro q hq
      show hupd _ _ _ q = s.heap q
      rw [hupd_other _ _ _ _ (hBc q hq), hfrR q (hBD q hq)]
  · refine hctxR.monoC ?_ rfl
    intro q hq
    exact hupd_other _ _ _ _ (fun he => hcD (he ▸ hq))
  · show hupd _ _ _ i = s.heap i
    rw [hupd_other _ _ _ _ (fun he => hci he.symm), hfrR i hiD]
  · exact hnidR
  · show (s.retarget par i c).size - 1 = s.size - 1
    rw [hszR]
  · intro q hq
    have hq' : s.nextId ≤ q := by rw [← hnidR]; exact hq
    show hupd _ _ _ q = none
    rw [hupd_other _ _ _ _ (fun he => by subst he; omega),
      hfrR q (fun hm => by have := hDlt q hm; omega)]
    exact hbd q hq'

/-- `__bst_remove_one_child_node` on a node with only a right child: the
mirror of the left-child case. -/
theorem bst_remove_one_child_right {s : AVLTree} {par : Option Nat} {ctx : Ctx}
    {i c : Nat} {v hS cv ch : Int} {A B : FTree}
    (hrep : ReprAt s par (.node .nil i v hS (.node A c cv ch B)))
    (hctx : CtxRepr s ctx par (some i))
    (hnd : (plugT ctx (FTree.node .nil i v hS (.node A c cv ch B))).ids.Nodup)
    (hbd : Bounded s) :
    ∃ s', s.bst_remove_one_child_node i = (some i, s') ∧
      ReprAt s' par (.node A c cv ch B) ∧
      CtxRepr s' ctx par (some c) ∧
      s'.heap i = s.heap i ∧
      s'.nextId = s.nextId ∧ s'.size = s.size - 1 ∧ Bounded s' := by
  have hperm := (ids_plugT_perm ctx _).nodup hnd
  rw [List.nodup_append] at hperm
  obtain ⟨hndT, hndD, hdisj⟩ := hperm
  simp only [FTree.ids, List.nil_append] at hndT hdisj
  rw [List.nodup_cons] at hndT
  obtain ⟨hiC, hndC⟩ := hndT
  rw [List.nodup_append] at hndC
  obtain ⟨hndA, hndcB, hdisjAcB⟩ := hndC
  have hci : c ≠ i := fun he => hiC (by simp [← he])
  have hiD : i ∉ ctxIds ctx := fun hmem =>
    hdisj (show i ∈ i :: (A.ids ++ c :: B.ids) by simp) hmem
  have hcD : c ∉ ctxIds ctx := fun hmem =>
    hdisj (show c ∈ i :: (A.ids ++ c :: B.ids) by simp) hmem
  have hAD : ∀ q ∈ A.ids, q ∉ ctxIds ctx := fun q hq hmem =>
    hdisj (show q ∈ i :: (A.ids ++ c :: B.ids) by simp [hq]) hmem
  have hBD : ∀ q ∈ B.ids, q ∉ ctxIds ctx := fun q hq hmem =>
    hdisj (show q ∈ i :: (A.ids ++ c :: B.ids) by simp [hq]) hmem
  have hAc : ∀ q ∈ A.ids, q ≠ c := fun q hq he =>
    hdisjAcB hq (show q ∈ c :: B.ids by simp [he])
  have hBc : ∀ q ∈ B.ids, q ≠ c := fun q hq he => (List.nodup_cons.1 hndcB).1 (he ▸ hq)
  cases hrep
  rename_i hL0 hC hHi
  cases hC
  rename_i hA hB hHc
  have hgi : s.get i = { value := v, parent := par, left := none,
                         right := some c, height := hS } := by
    rw [get_of_heap hHi]
    rfl
  have hgc : s.get c = { value := cv, parent := some i, left := A.rootId,
                         right := B.rootId, height := ch } := get_of_heap hHc
  have hcLT : c < s.nextId := by
    by_contra hlt
    rw [hbd c (by omega)] at hHc
    exact Option.noConfusion hHc
  have hDlt : ∀ q ∈ ctxIds ctx, q < s.nextId := by
    intro q hq
    obtain ⟨n, hn⟩ := hctx.ids_sub q hq
    by_contra hlt
    rw [hbd q (by omega)] at hn
    exact Option.noConfusion hn
  obtain ⟨hctxR, hnidR, hszR, hfrR⟩ := ctx_retarget hctx hiD hndD c
  refine ⟨{ heap := hupd (s.retarget par i c).heap c
                { value := cv, parent := par, left := A.rootId,
                  right := B.rootId, height := ch },
            root := (s.retarget par i c).root,
            size := (s.retarget par i c).size - 1,
            nextId := (s.retarget par i c).nextId }, ?_, ?_, ?_, ?_, ?_, ?_, ?_⟩
  · rw [AVLTree.bst_remove_one_child_node]
    simp only [hgi, Option.isNone_some, Option.isNone_none, Bool.false_eq_true,
      Bool.true_eq_false, ite_false, ite_true, reduceIte]
    cases par with
    | none =>
      simp [AVLTree.get, hgc, AVLTree.retarget, hHc]
    | some p =>
      have hpm : p ∈ ctxIds ctx := hctx.par_mem
      have hcp : c ≠ p := fun he => hcD (he ▸ hpm)
      by_cases hpl : (s.get p).left = some i
      · simp only [AVLTree.retarget, hpl, reduceIte, ite_true, ite_false]
        simp [AVLTree.get, hupd, hcp, hHc]
      · simp only [AVLTree.retarget, hpl, reduceIte, ite_true, ite_false]
        simp [AVLTree.get, hupd, hcp, hHc]
  · refine ReprAt.node par c cv ch (hupd_same _ _ _) ?_ ?_
    · refine hA.mono ?_
      intro q hq
      show hupd _ _ _ q = s.heap q
      rw [hupd_other _ _ _ _ (hAc q hq), hfrR q (hAD q hq)]
    · refine hB.mono ?_
      intro q hq
      show hupd _ _ _ q = s.heap q
      rw [hupd_other _ _ _ _ (hBc q hq), hfrR q (hBD q hq)]
  · refine hctxR.monoC ?_ rfl
    intro q hq
    exact hupd_other _ _ _ _ (fun he => hcD (he ▸ hq))
  · show hupd _ _ _ i = s.heap i
    rw [hupd_other _ _ _ _ (fun he => hci he.symm), hfrR i hiD]
  · exact hnidR
  · show (s.retarget par i c).size - 1 = s.size - 1
    rw [hszR]
  · intro q hq
    have hq' : s.nextId ≤ q := by rw [← hnidR]; exact hq
    show hupd _ _ _ q = none
    rw [hupd_other _ _ _ _ (fun he => by subst he; omega),
      hfrR q (fun hm => by have := hDlt q hm; omega)]
    exact hbd q hq'
